import Mathlib

/-!
# Event ingestion pipeline: intake queue, batch assembler, sink, rate limiter

A shallow embedding of the Go packages `internal/domain`, `internal/ingest`,
`internal/idempotency`, `internal/storage/postgres` and
`internal/transport/http`, followed by theorems about them.

Conventions of the embedding:

* Go strings are Lean `String`s, Go `int`/`int64` values are `Int`
  (with an explicit 64-bit wrap where a subtraction can overflow), sizes
  passed to `make` are `Nat`;
* the goroutine started by `Ingestor.Start` is a transition system: every
  branch of its `select` is one atomic step, and the producers' `Enqueue`
  is one more step;
* `float64` values are rationals, and every floating-point operation is
  followed by an explicit rounding function `rnd`.
-/

namespace EventsApi

/-! ## internal/domain/event.go -/

/-- The `domain.Event` struct. `Metadata` is `none` for a nil map; the values
of the map are kept as their JSON text. -/
structure Event where
  EventID : String
  EventName : String
  UserID : String
  Timestamp : Int
  Channel : String
  CampaignID : String
  Tags : List String
  Metadata : Option (List (String × String))
  deriving DecidableEq, Repr

/-! ## internal/ingest/ingestor.go -/

/-- Result of `Writer.InsertBatch` as seen by the assembler: `(affected, nil)`
or `(0, err)`. -/
inductive SinkResult where
  | ok (affected : Int)
  | err (msg : String)
  deriving DecidableEq, Repr

/-- The lines the program logs: the two lines of `flush` and the lines of the
two event handlers. -/
inductive LogLine where
  | insertFailed (err : String) (dropped : Nat)
  | insertOK (inserted : Int) (size : Nat)
  | queuedOne (name user : String) (ts : Int)
  | queuedBulk (n : Nat)
  deriving DecidableEq, Repr

/-- A `time.Timer`: `deadline = some d` while the timer is running and will
fire at clock reading `d`; `fired` says that a value is waiting on `t.C`. -/
structure Timer where
  deadline : Option Int
  fired : Bool
  deriving DecidableEq, Repr

/-- The fields of `Ingestor` fixed by `NewIngestor`. The queue capacity and
`batchMaxSize` are natural numbers (`make` panics on a negative size, for the
channel in `NewIngestor` and for the batch in `Start`); `batchMaxWait` is a
`time.Duration` in nanoseconds and may be zero or negative. -/
structure Config where
  queueMaxSize : Nat
  batchMaxSize : Nat
  batchMaxWait : Int
  deriving DecidableEq, Repr

/-- State of one pipeline instance: the buffered channel `ig.queue`, the local
variables `batch` and `t` of the goroutine, the calls of `InsertBatch` made so
far (oldest first, each with its outcome), the log, the clock, whether the
goroutine is still in its loop and whether `ctx` has been cancelled. -/
structure State where
  queue : List Event
  batch : List Event
  sink : List (List Event × SinkResult)
  log : List LogLine
  timer : Timer
  now : Int
  running : Bool
  cancelled : Bool
  deriving DecidableEq, Repr

/-- State right after `NewIngestor` and `Start` at clock reading `t0`: empty
queue, empty batch, timer running for `batchMaxWait`. -/
def State.init (cfg : Config) (t0 : Int) : State :=
  { queue := [], batch := [], sink := [], log := [],
    timer := { deadline := some (t0 + cfg.batchMaxWait), fired := false },
    now := t0, running := true, cancelled := false }

/-- The closure `resetTimer`: `t.Stop()` reports whether the timer was still
running; if it was not, a pending value is drained from `t.C`; then
`t.Reset(batchMaxWait)`. -/
def resetTimer (cfg : Config) (now : Int) (t : Timer) : Timer :=
  let stopped := t.deadline.isSome
  let fired := if !stopped then false else t.fired
  { deadline := some (now + cfg.batchMaxWait), fired := fired }

/-- The closure `flush`, with `r` the outcome `InsertBatch` has if it is
called. -/
def flush (cfg : Config) (s : State) (r : SinkResult) : State :=
  if s.batch.length = 0 then
    { s with timer := resetTimer cfg s.now s.timer }
  else
    let line := match r with
      | .err e => LogLine.insertFailed e s.batch.length
      | .ok n => LogLine.insertOK n s.batch.length
    { s with
      sink := s.sink ++ [(s.batch, r)]
      log := s.log ++ [line]
      batch := []
      timer := resetTimer cfg s.now s.timer }

/-- The method `Ingestor.Enqueue`: a non-blocking send on the buffered channel.
The send succeeds when the buffer has a free slot. (On a channel without
buffer a send can only succeed by handing the event to the waiting goroutine;
that is the step `handoff` below.) -/
def Enqueue (cfg : Config) (s : State) (ev : Event) : State × Bool :=
  if s.queue.length < cfg.queueMaxSize then
    ({ s with queue := s.queue ++ [ev] }, true)
  else
    (s, false)

/-- Steps of the pipeline and of its environment. `recv`, `timerFire` and
`ctxDone` are the three branches of the `select` in `Start`; each carries the
outcome of the sink call it may make. `enqueue` is a producer calling
`Enqueue`, `cancel` cancels the context, `advance d` lets `d` nanoseconds
pass. `handoff` is a call of `Enqueue` on a queue without buffer at a moment
when the goroutine waits in its `select`: the send succeeds and the receive
branch runs with the event. -/
inductive Action where
  | enqueue (ev : Event)
  | recv (r : SinkResult)
  | timerFire (r : SinkResult)
  | ctxDone (r : SinkResult)
  | cancel
  | advance (d : Nat)
  | handoff (ev : Event) (r : SinkResult)
  deriving DecidableEq, Repr

/-- The body of the receive branch for the received event `ev`: append, and
flush when the batch has reached `batchMaxSize`. -/
def received (cfg : Config) (s : State) (ev : Event) (r : SinkResult) : State :=
  if (s.batch ++ [ev]).length ≥ cfg.batchMaxSize then
    flush cfg { s with batch := s.batch ++ [ev] } r
  else { s with batch := s.batch ++ [ev] }

/-- The passage of time: the clock moves on and a running timer whose deadline
has been reached sends on `t.C`. -/
def advanceClock (s : State) (d : Nat) : State :=
  match s.timer.deadline with
  | some dl =>
    if dl ≤ s.now + d then
      { s with now := s.now + d, timer := { deadline := none, fired := true } }
    else { s with now := s.now + d }
  | none => { s with now := s.now + d }

/-- One step. `none` means the step is not enabled: a receive on an empty
queue, a timer branch with nothing on `t.C`, a `ctx.Done()` branch before
cancellation, any branch of the goroutine after it has returned, or a hand-off
when the queue has a buffer or another branch of the `select` is ready. -/
def step (cfg : Config) (s : State) : Action → Option State
  | .enqueue ev => some (Enqueue cfg s ev).1
  | .recv r =>
    if s.running then
      match s.queue with
      | [] => none
      | ev :: rest => some (received cfg { s with queue := rest } ev r)
    else none
  | .handoff ev r =>
    if cfg.queueMaxSize = 0 ∧ s.running = true ∧ s.queue = [] ∧ s.timer.fired = false
        ∧ s.cancelled = false then
      some (received cfg s ev r)
    else none
  | .timerFire r =>
    if s.running && s.timer.fired then
      some (flush cfg { s with timer := { s.timer with fired := false } } r)
    else none
  | .ctxDone r =>
    if s.running && s.cancelled then
      let s1 := flush cfg s r
      some { s1 with running := false, timer := { s1.timer with deadline := none } }
    else none
  | .cancel => some { s with cancelled := true }
  | .advance d => some (advanceClock s d)

/-- The events a step adds to the accepted ones: the event of an `Enqueue`
call that returned `true`. -/
def acceptedBy (cfg : Config) (s : State) : Action → List Event
  | .enqueue ev => if (Enqueue cfg s ev).2 then [ev] else []
  | .handoff ev _ => [ev]
  | _ => []

/-- Runs a list of steps; the second component is the list of events for which
`Enqueue` returned `true`, in call order. `none` if some step is not enabled. -/
def run (cfg : Config) (s : State) : List Action → Option (State × List Event)
  | [] => some (s, [])
  | a :: as =>
    match step cfg s a with
    | none => none
    | some s1 =>
      match run cfg s1 as with
      | none => none
      | some (s2, acc) => some (s2, acceptedBy cfg s a ++ acc)

/-- All events handed to the sink so far, in flush order. -/
def State.flushed (s : State) : List Event :=
  (s.sink.map Prod.fst).flatten

/-! ## internal/idempotency/key.go -/

/-- The type `KeySource` and its two constants. -/
inductive KeySource where
  | KeyFromEventID
  | KeyFromComposite
  deriving DecidableEq, Repr

/-- The string `fmt.Sprintf("%s|%s|%d", name, user, ts)` that `DeriveKey`
hashes. -/
def compositeOf (name user : String) (ts : Int) : String :=
  name ++ "|" ++ user ++ "|" ++ toString ts

/-- The local `composite` of `DeriveKey`. -/
def composite (ev : Event) : String :=
  compositeOf ev.EventName ev.UserID ev.Timestamp

/-- The function `DeriveKey`. The parameter `sha256hex` stands for
`hex.EncodeToString` of `sha256.Sum256`, a function of the Go standard
library. -/
def DeriveKey (sha256hex : String → String) (ev : Event) : String × KeySource :=
  if ev.EventID ≠ "" then (ev.EventID, .KeyFromEventID)
  else (sha256hex (composite ev), .KeyFromComposite)

/-! ## internal/storage/postgres/writer.go -/

/-- One tuple of the `VALUES` list built by `InsertBatch`: the eight arguments
appended for one event, `none` for SQL `NULL`. The two `jsonb` columns hold the
value whose JSON text is passed. -/
structure Row where
  event_id : Option String
  event_name : String
  user_id : String
  ts_epoch : Int
  channel : Option String
  campaign_id : Option String
  tags : Option (List String)
  metadata : Option (List (String × String))
  deriving DecidableEq, Repr

/-- The body of the loop of `InsertBatch` for one event. -/
def toRow (ev : Event) : Row :=
  { event_id := if ev.EventID = "" then none else some ev.EventID
    event_name := ev.EventName
    user_id := ev.UserID
    ts_epoch := ev.Timestamp
    channel := if ev.Channel = "" then none else some ev.Channel
    campaign_id := if ev.CampaignID = "" then none else some ev.CampaignID
    tags := if ev.Tags.length = 0 then none else some ev.Tags
    metadata := ev.Metadata }

/-- Modelled from the spec: the Dedup Key under which the `events` table holds
a row. The migration that declares the table and its unique indexes is not
among the sources; the spec identifies a stored item by its Dedup Key, which is
the explicit id when there is one and the digest of name, user and timestamp
otherwise. -/
def rowKey (sha256hex : String → String) (r : Row) : String :=
  match r.event_id with
  | some id => id
  | none => sha256hex (compositeOf r.event_name r.user_id r.ts_epoch)

/-- Modelled from the spec: what the statement
`INSERT INTO events ... VALUES ... ON CONFLICT DO NOTHING` does to the table,
which is not among the sources: the tuples are taken in order, a tuple whose
Dedup Key is already stored (before the statement or by an earlier tuple of
it) is skipped without error, any other tuple is stored and counted. The
result is the new table and `RowsAffected`. -/
def execInsert (sha256hex : String → String) : List Row → List Row → List Row × Nat
  | table, [] => (table, 0)
  | table, r :: rs =>
    if table.any (fun t => rowKey sha256hex t == rowKey sha256hex r) then
      execInsert sha256hex table rs
    else
      ((execInsert sha256hex (table ++ [r]) rs).1,
        (execInsert sha256hex (table ++ [r]) rs).2 + 1)

/-- The method `Writer.InsertBatch` on a table `db`. `execErr` is the error of
`Pool.Exec` when the storage fails (then nothing is stored), `none` when it
does not. -/
def InsertBatch (sha256hex : String → String) (db : List Row) (execErr : Option String)
    (items : List Event) : List Row × SinkResult :=
  if items.length = 0 then (db, .ok 0)
  else
    match execErr with
    | some e => (db, .err e)
    | none =>
      ((execInsert sha256hex db (items.map toRow)).1,
        .ok (execInsert sha256hex db (items.map toRow)).2)

/-! ## internal/transport/http/middleware.go -/

/-- Two's-complement wrap of an integer to `int64`. -/
def wrapInt64 (x : Int) : Int :=
  (x + 2 ^ 63) % 2 ^ 64 - 2 ^ 63

/-- Nearest integer, ties to even. -/
def roundHalfEven (q : ℚ) : Int :=
  let f : Int := q.num / (q.den : Int)
  let r : ℚ := q - f
  if r < 1 / 2 then f else if 1 / 2 < r then f + 1 else if f % 2 = 0 then f else f + 1

/-- The power `2 ^ e` for an integer exponent. -/
def pow2 : Int → ℚ
  | .ofNat n => ((2 ^ n : Nat) : ℚ)
  | .negSucc n => 1 / ((2 ^ (n + 1) : Nat) : ℚ)

/-- Binary logarithm of a natural number, rounded down, by halving. -/
def log2Fuel : Nat → Nat → Nat
  | 0, _ => 0
  | fuel + 1, n => if n < 2 then 0 else log2Fuel fuel (n / 2) + 1

/-- The integer `e` with `2 ^ e ≤ q < 2 ^ (e + 1)`, for a positive `q` between
`2 ^ (-4096)` and `2 ^ 4096`. -/
def floorLog2 (q : ℚ) : Int :=
  let e0 : Int := (log2Fuel 4096 q.num.natAbs : Int) - (log2Fuel 4096 q.den : Int)
  if pow2 e0 ≤ q then e0 else e0 - 1

/-- Rounding of a real result to `float64` (IEEE 754 binary64, round to nearest,
ties to even): 53 significant bits, subnormals below `2 ^ (-1022)`. Overflow to
infinity is not modelled; the rate limiter stays far below it. -/
def roundF64 (q : ℚ) : ℚ :=
  if q = 0 then 0
  else
    let e := max (floorLog2 |q|) (-1022)
    let ulp : ℚ := pow2 (e - 52)
    (roundHalfEven (q / ulp) : ℚ) * ulp

/-- How `float64` arithmetic is carried out: `rnd` rounds the result of every
operation, and `fused` says whether the compiler fuses the multiplication and
the addition of `tokens += elapsed * refillPerSec` into one rounded operation,
as the Go specification allows. -/
structure FloatMode where
  rnd : ℚ → ℚ
  fused : Bool

/-- Exact arithmetic: no rounding. -/
def exactArith : FloatMode := { rnd := fun q => q, fused := false }

/-- The `float64` arithmetic of the machine. -/
def binary64 (fused : Bool) : FloatMode := { rnd := roundF64, fused := fused }

/-- The struct `rateState`. -/
structure rateState where
  tokens : ℚ
  lastRefillNano : Int
  deriving DecidableEq

/-- What the middleware looks at in a request. -/
structure Request where
  Method : String
  Path : String
  deriving DecidableEq, Repr

/-- What the middleware does with a request: hand it to the next handler, or
answer with a problem of the given status and `Retry-After` header. -/
inductive Outcome where
  | next
  | problem (status : Nat) (retryAfter : String)
  deriving DecidableEq, Repr

/-- The part of `RateLimitPerMinute` that runs once: no state when the limit is
not positive (the middleware is then the identity), else a full bucket stamped
with the clock reading `clock0`. -/
def RateLimitPerMinute (fm : FloatMode) (limitPerMin : Int) (clock0 : Int) :
    Option rateState :=
  if limitPerMin ≤ 0 then none
  else some { tokens := fm.rnd limitPerMin, lastRefillNano := clock0 }

/-- The constant `capacity` of `RateLimitPerMinute`. -/
def capacity (fm : FloatMode) (limitPerMin : Int) : ℚ :=
  fm.rnd limitPerMin

/-- The constant `refillPerSec` of `RateLimitPerMinute`. -/
def refillPerSec (fm : FloatMode) (limitPerMin : Int) : ℚ :=
  fm.rnd (fm.rnd limitPerMin / 60)

/-- The local `elapsed` of the handler: the `int64` difference of the two clock
readings, converted to `float64` and divided by `1e9`. -/
def elapsedSec (fm : FloatMode) (lastRefillNano clock : Int) : ℚ :=
  fm.rnd (fm.rnd (wrapInt64 (clock - lastRefillNano)) / 1000000000)

/-- The value of `state.tokens` after `state.tokens += elapsed * refillPerSec`
and the cap at `capacity`. -/
def refill (fm : FloatMode) (limitPerMin : Int) (tokens elapsed : ℚ) : ℚ :=
  let refilled :=
    if fm.fused then fm.rnd (tokens + elapsed * refillPerSec fm limitPerMin)
    else fm.rnd (tokens + fm.rnd (elapsed * refillPerSec fm limitPerMin))
  if refilled > capacity fm limitPerMin then capacity fm limitPerMin else refilled

/-- The handler closure of `RateLimitPerMinute` on an existing state; `clock`
is the reading `clock()` returns if it is called. -/
def limited (fm : FloatMode) (limitPerMin : Int) (state : rateState) (r : Request)
    (clock : Int) : rateState × Outcome :=
  if r.Method ≠ "GET" ∨ ¬ ("/metrics".toList.isPrefixOf r.Path.toList = true) then
    (state, .next)
  else if refill fm limitPerMin state.tokens
      (elapsedSec fm state.lastRefillNano clock) < 1 then
    ({ tokens := refill fm limitPerMin state.tokens
        (elapsedSec fm state.lastRefillNano clock), lastRefillNano := clock },
      .problem 429 "3")
  else
    ({ tokens := fm.rnd (refill fm limitPerMin state.tokens
        (elapsedSec fm state.lastRefillNano clock) - 1), lastRefillNano := clock },
      .next)

/-- The middleware returned by `RateLimitPerMinute`, on one request. -/
def serveHTTP (fm : FloatMode) (limitPerMin : Int) :
    Option rateState → Request → Int → Option rateState × Outcome
  | none, _, _ => (none, .next)
  | some state, r, clock =>
    (some (limited fm limitPerMin state r clock).1, (limited fm limitPerMin state r clock).2)

/-- The middleware on a sequence of requests, each with the clock reading at
its arrival. -/
def serveAll (fm : FloatMode) (limitPerMin : Int) :
    Option rateState → List (Request × Int) → Option rateState × List Outcome
  | st, [] => (st, [])
  | st, (r, clock) :: rest =>
    ((serveAll fm limitPerMin (serveHTTP fm limitPerMin st r clock).1 rest).1,
      (serveHTTP fm limitPerMin st r clock).2 ::
        (serveAll fm limitPerMin (serveHTTP fm limitPerMin st r clock).1 rest).2)

/-- A `GET /metrics` request. -/
def metricsGet : Request := { Method := "GET", Path := "/metrics" }

/-- The outcomes of successive `GET /metrics` calls arriving at the clock
readings `clocks`, on a limiter built at clock reading `t0`. -/
def decisions (fm : FloatMode) (limitPerMin : Int) (t0 : Int) (clocks : List Int) :
    List Outcome :=
  (serveAll fm limitPerMin (RateLimitPerMinute fm limitPerMin t0)
    (clocks.map (fun c => (metricsGet, c)))).2

/-! ## The package `time` of the Go standard library, as far as it is used -/

/-- A `time.Time` as the standard library holds it: `sec` is the number of
seconds since January 1 of the year 1 (an `int64`), `nsec` the nanoseconds
within that second. The location and the monotonic reading play no part in the
comparisons made here. -/
structure Time where
  sec : Int
  nsec : Int
  deriving DecidableEq, Repr

/-- The constant `unixToInternal`: the seconds from January 1 of the year 1 to
January 1, 1970. -/
def unixToInternal : Int := 62135596800

/-- The call `time.Unix(sec, 0)`, which is `Time{0, sec + unixToInternal, Local}`:
the sum is an `int64` sum. -/
def timeUnix (sec : Int) : Time :=
  { sec := wrapInt64 (sec + unixToInternal), nsec := 0 }

/-- The method `Time.After`:
`ts > us || ts == us && t.nsec() > u.nsec()` on the stored seconds. -/
def Time.After (t u : Time) : Bool :=
  decide (t.sec > u.sec) || (decide (t.sec = u.sec) && decide (t.nsec > u.nsec))

/-- The method `Time.addSec` on a time without monotonic reading: the `int64`
sum, or the largest or smallest value when the sum overflows. -/
def addSec (ext d : Int) : Int :=
  if decide (wrapInt64 (ext + d) > ext) = decide (d > 0) then wrapInt64 (ext + d)
  else if d > 0 then 2 ^ 63 - 1
  else -(2 ^ 63 - 1)

/-- The method `Time.Add` for a duration of `d` nanoseconds: whole seconds
and remaining nanoseconds are taken with the truncating division of Go, the
nanoseconds are brought back into `[0, 1e9)`. -/
def Time.Add (t : Time) (d : Int) : Time :=
  let dsec := Int.tdiv d 1000000000
  let nsec := t.nsec + Int.tmod d 1000000000
  if nsec ≥ 1000000000 then { sec := addSec t.sec (dsec + 1), nsec := nsec - 1000000000 }
  else if nsec < 0 then { sec := addSec t.sec (dsec - 1), nsec := nsec + 1000000000 }
  else { sec := addSec t.sec dsec, nsec := nsec }

/-- The method `Time.Unix`: seconds since January 1, 1970. -/
def Time.Unix (t : Time) : Int :=
  wrapInt64 (t.sec - unixToInternal)

/-! ## internal/domain/validation.go -/

/-- The struct `FieldError`. -/
structure FieldError where
  Field : String
  Msg : String
  deriving DecidableEq, Repr

def MaxEventNameLen : Nat := 128
def MaxUserIDLen : Nat := 128
def MaxChannelLen : Nat := 64
def MaxCampaignIDLen : Nat := 64
def MaxTagLen : Nat := 64
def MaxTagsCount : Nat := 50

/-- The built-in `len` on a string: its length in bytes. -/
def len (s : String) : Nat := s.utf8ByteSize

/-- The loop over `ev.Tags` in `ValidateEvent`, from index `i` on. -/
def validateTags : Nat → List String → List FieldError
  | _, [] => []
  | i, t :: ts =>
    if t = "" then
      { Field := "tags[" ++ toString i ++ "]", Msg := "must be non-empty" } ::
        validateTags (i + 1) ts
    else if len t > MaxTagLen then
      { Field := "tags[" ++ toString i ++ "]", Msg := "max length " ++ toString MaxTagLen } ::
        validateTags (i + 1) ts
    else validateTags (i + 1) ts

/-- The function `ValidateEvent`; `skew` is a `time.Duration` in nanoseconds. -/
def ValidateEvent (ev : Event) (now : Time) (skew : Int) : List FieldError :=
  (if ev.EventName = "" then [{ Field := "event_name", Msg := "required" }]
   else if len ev.EventName > MaxEventNameLen then
     [{ Field := "event_name", Msg := "max length " ++ toString MaxEventNameLen }]
   else [])
  ++ (if ev.UserID = "" then [{ Field := "user_id", Msg := "required" }]
   else if len ev.UserID > MaxUserIDLen then
     [{ Field := "user_id", Msg := "max length " ++ toString MaxUserIDLen }]
   else [])
  ++ (if ev.Timestamp = 0 then
     [{ Field := "timestamp", Msg := "required epoch seconds (UTC)" }]
   else if (timeUnix ev.Timestamp).After (now.Add skew) then
     [{ Field := "timestamp", Msg := "must not be in the future (beyond allowed skew)" }]
   else [])
  ++ (if ev.Channel ≠ "" ∧ len ev.Channel > MaxChannelLen then
     [{ Field := "channel", Msg := "max length " ++ toString MaxChannelLen }]
   else [])
  ++ (if ev.CampaignID ≠ "" ∧ len ev.CampaignID > MaxCampaignIDLen then
     [{ Field := "campaign_id", Msg := "max length " ++ toString MaxCampaignIDLen }]
   else [])
  ++ (if ev.Tags.length > MaxTagsCount then
     [{ Field := "tags", Msg := "max " ++ toString MaxTagsCount ++ " items" }]
   else validateTags 0 ev.Tags)

/-- The function `ValidateBulk`: the per-event errors (empty for `nil`) and the
top-level error, if any. -/
def ValidateBulk (events : List Event) (maxItems : Int) (now : Time) (skew : Int) :
    List (List FieldError) × Option String :=
  if events.length = 0 then
    ([], some "events: required and must contain at least one item")
  else if (events.length : Int) > maxItems then
    ([], some ("events: max " ++ toString maxItems ++ " items"))
  else if (events.map (fun ev => ValidateEvent ev now skew)).any (fun fe => fe.length > 0) then
    (events.map (fun ev => ValidateEvent ev now skew),
      some "one or more events failed validation")
  else ([], none)

/-! ## internal/transport/http/problem.go, handlers.go -/

/-- What a handler writes: only a status, a problem document (`WriteProblem`),
or a JSON body with a status. -/
inductive Response where
  | header (status : Nat)
  | problem (status : Nat) (title detail : String) (errors : List (String × List String))
  | json (status : Nat) (body : String)
  deriving DecidableEq, Repr

/-- The statement `prob[k] = append(prob[k], msg)` on a map kept as a list of
keys with their messages. -/
def addMsg : List (String × List String) → String → String → List (String × List String)
  | [], k, msg => [(k, [msg])]
  | (k0, ms) :: rest, k, msg =>
    if k0 = k then (k0, ms ++ [msg]) :: rest else (k0, ms) :: addMsg rest k msg

/-- What a handler has done: the pipeline state it leaves, its calls of
`Enqueue` with their results, in order, and the response. -/
structure Handled where
  state : State
  calls : List (Event × Bool)
  response : Response
  deriving DecidableEq, Repr

/-- The 503 problem of both event handlers. -/
def overloaded : Response :=
  .problem 503 "overloaded" "ingest queue is full, please retry" []

/-- The method `HandlePostEvent`. `body` is the result of `decodeJSONStrict`,
`now` the value of `d.Now()`, `skew` the value of `d.Cfg.ClockSkew`. The key
returned by `DeriveKey` is discarded by the handler. -/
def HandlePostEvent (cfg : Config) (s : State) (method : String)
    (body : Except String Event) (now : Time) (skew : Int) : Handled :=
  if method ≠ "POST" then { state := s, calls := [], response := .header 405 }
  else
    match body with
    | .error e => { state := s, calls := [], response := .problem 400 "invalid json" e [] }
    | .ok ev =>
      if (ValidateEvent ev now skew).length > 0 then
        { state := s, calls := [],
          response := .problem 400 "validation failed" "one or more fields are invalid"
            ((ValidateEvent ev now skew).foldl (fun prob fe => addMsg prob fe.Field fe.Msg) []) }
      else if (Enqueue cfg s ev).2 = false then
        { state := (Enqueue cfg s ev).1, calls := [(ev, false)], response := overloaded }
      else
        { state := { (Enqueue cfg s ev).1 with
            log := (Enqueue cfg s ev).1.log ++
              [.queuedOne ev.EventName ev.UserID ev.Timestamp] },
          calls := [(ev, true)],
          response := .json 202 "\x7b\"status\":\"queued\"\x7d" }

/-- The loop `for _, ev := range br.Events` of `HandlePostEventsBulk`: the
state, the calls of `Enqueue` made, and whether the loop ran to its end. -/
def submitAll (cfg : Config) : State → List Event → State × List (Event × Bool) × Bool
  | s, [] => (s, [], true)
  | s, ev :: rest =>
    if (Enqueue cfg s ev).2 then
      ((submitAll cfg (Enqueue cfg s ev).1 rest).1,
        (ev, true) :: (submitAll cfg (Enqueue cfg s ev).1 rest).2.1,
        (submitAll cfg (Enqueue cfg s ev).1 rest).2.2)
    else ((Enqueue cfg s ev).1, [(ev, false)], false)

/-- The loop that builds the `errors` map of the bulk handler from the
per-event errors, from index `i` on. -/
def bulkProblems : Nat → List (List FieldError) → List (String × List String) →
    List (String × List String)
  | _, [], prob => prob
  | i, arr :: rest, prob =>
    bulkProblems (i + 1) rest
      (arr.foldl (fun pr fe =>
        addMsg pr ("events[" ++ toString i ++ "]" ++ "." ++ fe.Field) fe.Msg) prob)

/-- The method `HandlePostEventsBulk`. `body` is the result of
`decodeJSONStrict` (the field `events` of the request). -/
def HandlePostEventsBulk (cfg : Config) (s : State) (method : String)
    (body : Except String (List Event)) (now : Time) (skew : Int) : Handled :=
  if method ≠ "POST" then { state := s, calls := [], response := .header 405 }
  else
    match body with
    | .error e => { state := s, calls := [], response := .problem 400 "invalid json" e [] }
    | .ok events =>
      match (ValidateBulk events 100 now skew).2 with
      | some top =>
        { state := s, calls := [],
          response := .problem 400 "validation failed" top
            (bulkProblems 0 (ValidateBulk events 100 now skew).1 []) }
      | none =>
        if (submitAll cfg s events).2.2 then
          { state := { (submitAll cfg s events).1 with
              log := (submitAll cfg s events).1.log ++ [.queuedBulk events.length] },
            calls := (submitAll cfg s events).2.1,
            response := .json 202
              ("\x7b\"accepted_count\":" ++ toString events.length ++ "\x7d") }
        else
          { state := (submitAll cfg s events).1,
            calls := (submitAll cfg s events).2.1,
            response := overloaded }

/-- The value of a string of decimal digits; `none` if the string is empty or
holds another character. -/
def digitsValue (cs : List Char) : Option Nat :=
  if cs = [] then none
  else cs.foldl (fun acc c =>
    match acc with
    | none => none
    | some n => if c.isDigit then some (10 * n + (c.toNat - 48)) else none) (some 0)

/-- The call `strconv.ParseInt(s, 10, 64)` of the standard library: an
optional sign, then decimal digits; `none` stands for an error (bad syntax or a
value outside `int64`). -/
def ParseInt (s : String) : Option Int :=
  let signed : Option Int :=
    match s.toList with
    | [] => none
    | '-' :: ds => (digitsValue ds).map (fun n => -(n : Int))
    | '+' :: ds => (digitsValue ds).map (fun n => (n : Int))
    | ds => (digitsValue ds).map (fun n => (n : Int))
  match signed with
  | none => none
  | some v => if -(2 ^ 63) ≤ v ∧ v < 2 ^ 63 then some v else none

/-- The constant `defaultWindowSeconds`. -/
def defaultWindowSeconds : Int := 24 * 60 * 60

/-- The constant `maxWindowSeconds`. -/
def maxWindowSeconds : Int := 90 * 24 * 60 * 60

/-- The arguments `HandleGetMetrics` passes to `QueryTotals` and, when
`group_by=day`, to `QueryBucketsDaily`. -/
structure MetricsQuery where
  eventName : Option String
  fromSec : Int
  toSec : Int
  channel : Option String
  groupByDay : Bool
  deriving DecidableEq, Repr

/-- What `HandleGetMetrics` does before it reads the database: answer at once,
or query with the given arguments. -/
inductive MetricsStep where
  | respond (r : Response)
  | query (q : MetricsQuery)
  deriving DecidableEq, Repr

/-- The `switch` of `HandleGetMetrics`: the window before the cap, or the
problem written. All sums are `int64` sums. -/
def metricsWindow (fromStr toStr : String) (now : Int) : Except Response (Int × Int) :=
  if fromStr = "" ∧ toStr = "" then .ok (wrapInt64 (now - defaultWindowSeconds), now)
  else if fromStr ≠ "" ∧ toStr = "" then
    match ParseInt fromStr with
    | none => .error (.problem 400 "invalid parameters" "from must be epoch seconds" [])
    | some f => .ok (f, now)
  else if fromStr = "" ∧ toStr ≠ "" then
    match ParseInt toStr with
    | none => .error (.problem 400 "invalid parameters" "to must be epoch seconds" [])
    | some t => .ok (wrapInt64 (t - defaultWindowSeconds), t)
  else
    match ParseInt fromStr with
    | none => .error (.problem 400 "invalid parameters" "from must be epoch seconds" [])
    | some f =>
      match ParseInt toStr with
      | none => .error (.problem 400 "invalid parameters" "to must be epoch seconds" [])
      | some t => .ok (f, t)

/-- The method `HandleGetMetrics` up to its database calls. `eventName` and
`channel` are the query parameters after `strings.TrimSpace`, `now` is
`d.Now().Unix()`, an `int64`. -/
def HandleGetMetrics (method eventName fromStr toStr groupBy channel : String)
    (now : Int) : MetricsStep :=
  if method ≠ "GET" then .respond (.header 405)
  else
    match metricsWindow fromStr toStr now with
    | .error r => .respond r
    | .ok (f, t) =>
      .query
        { eventName := if eventName ≠ "" then some eventName else none
          fromSec :=
            if wrapInt64 (t - f) > maxWindowSeconds then wrapInt64 (t - maxWindowSeconds)
            else f
          toSec := t
          channel := if channel ≠ "" then some channel else none
          groupByDay := decide (groupBy = "day") }

/-! ## Auxiliary definitions -/

/-- The instant of a `Time`, in nanoseconds since January 1, 1970, as a
mathematical integer. -/
def Time.unixNano (t : Time) : Int :=
  (t.sec - unixToInternal) * 1000000000 + t.nsec

/-- The conditions of the specification for an event without field errors, in
its words: required fields non-empty and within their byte limits, a non-zero
timestamp that, as an instant that many seconds after the epoch, is not after
`now + skew`, optional fields within their byte limits, at most 50 tags, each
non-empty and of at most 64 bytes. -/
def validBySpec (ev : Event) (now : Time) (skew : Int) : Prop :=
  ev.EventName ≠ "" ∧ len ev.EventName ≤ 128 ∧
  ev.UserID ≠ "" ∧ len ev.UserID ≤ 128 ∧
  ev.Timestamp ≠ 0 ∧ ¬ (ev.Timestamp * 1000000000 > now.unixNano + skew) ∧
  len ev.Channel ≤ 64 ∧ len ev.CampaignID ≤ 64 ∧
  ev.Tags.length ≤ 50 ∧ ∀ t ∈ ev.Tags, t ≠ "" ∧ len t ≤ 64


/-- The same bucket with its time stamp moved by `c` nanoseconds. -/
def shiftState (c : Int) (st : rateState) : rateState :=
  { st with lastRefillNano := st.lastRefillNano + c }

/-- The number of requests handed to the next handler. -/
def forwardedCount (outs : List Outcome) : Nat :=
  outs.count .next

/-- A timer is well formed when nothing waits on `t.C` while it is running. -/
def Timer.wf (t : Timer) : Prop :=
  t.deadline.isSome = true → t.fired = false

instance (t : Timer) : Decidable t.wf := by
  unfold Timer.wf; exact inferInstance

/-! ### Sample data used to run the definitions -/

/-- A sample event with the given name, user and timestamp, nothing else. -/
def sampleEvent (name user : String) (ts : Int) : Event :=
  { EventID := "", EventName := name, UserID := user, Timestamp := ts,
    Channel := "", CampaignID := "", Tags := [], Metadata := none }

def ev1 : Event := sampleEvent "signup" "u1" 100
def ev2 : Event := sampleEvent "login" "u2" 101
def ev3 : Event := sampleEvent "purchase" "u3" 102

/-- A small pipeline: queue of two, batches of two, 50 ms wait. -/
def smallCfg : Config :=
  { queueMaxSize := 2, batchMaxSize := 2, batchMaxWait := 50000000 }

/-- A run of nine steps on `smallCfg`: three events are offered to a queue of
two, a batch of two is flushed (and fails), a third event is accepted, the
context is cancelled and the goroutine returns, and one more event is
accepted. -/
def sampleRun : List Action :=
  [.enqueue ev1, .enqueue ev2, .enqueue ev3, .recv (.ok 1), .recv (.err "boom"),
   .enqueue ev3, .cancel, .ctxDone (.ok 0), .enqueue ev1]

/-- The state `sampleRun` ends in. -/
def sampleEnd : State :=
  { queue := [ev3, ev1], batch := [], sink := [([ev1, ev2], .err "boom")],
    log := [.insertFailed "boom" 2], timer := { deadline := none, fired := false },
    now := 0, running := false, cancelled := true }

/-- A state of `smallCfg` whose goroutine has returned after cancellation, with
an empty queue. -/
def stoppedState : State :=
  { State.init smallCfg 0 with
    running := false
    cancelled := true
    timer := { deadline := none, fired := false } }

/-- An event with an explicit id and one without. -/
def sampleBatch : List Event :=
  [{ ev1 with EventID := "id-1" }, ev2]

/-- The same two events by Dedup Key, with other optional fields. -/
def sampleBatchAgain : List Event :=
  [{ ev2 with Channel := "web" }, { ev3 with EventID := "id-1" }]

/-- Two events that pass validation and differ in name and user. -/
def pipeEventA : Event := sampleEvent "a|b" "c" 1

def pipeEventB : Event := sampleEvent "a" "b|c" 1

/-- The event `ev2` again, with other optional fields. -/
def ev2Web : Event :=
  { ev2 with Channel := "web", CampaignID := "spring", Tags := ["a", "b"],
             Metadata := some [("k", "1")] }

/-- A reference time: 14 November 2023, 22:13:20 UTC and a bit. -/
def sampleNow : Time := { sec := 1700000000 + 62135596800, nsec := 123456789 }

/-- Five minutes, in nanoseconds. -/
def sampleSkew : Int := 300000000000

/-- The event `ev1` with the largest `int64` as timestamp: about 292 billion
years after the epoch. -/
def farFutureEvent : Event := { ev1 with Timestamp := 9223372036854775807 }

/-! ## Lemmas on the pipeline -/

theorem flush_queue (cfg : Config) (s : State) (r : SinkResult) :
    (flush cfg s r).queue = s.queue := by
  unfold flush; split <;> rfl

theorem flush_batch (cfg : Config) (s : State) (r : SinkResult) :
    (flush cfg s r).batch = [] := by
  unfold flush
  split
  · rename_i h; exact List.length_eq_zero.mp h
  · rfl

theorem flush_sink (cfg : Config) (s : State) (r : SinkResult) :
    (flush cfg s r).sink = s.sink ++ (if s.batch = [] then [] else [(s.batch, r)]) := by
  unfold flush
  by_cases h : s.batch = []
  · simp [h]
  · have h2 : s.batch.length ≠ 0 := fun e => h (List.length_eq_zero.mp e)
    simp [h, h2]

theorem flush_timer (cfg : Config) (s : State) (r : SinkResult) :
    (flush cfg s r).timer = resetTimer cfg s.now s.timer := by
  unfold flush; split <;> rfl

theorem flush_flags (cfg : Config) (s : State) (r : SinkResult) :
    (flush cfg s r).running = s.running ∧ (flush cfg s r).cancelled = s.cancelled ∧
      (flush cfg s r).now = s.now := by
  unfold flush; split <;> simp

theorem advanceClock_fields (s : State) (d : Nat) :
    (advanceClock s d).queue = s.queue ∧ (advanceClock s d).batch = s.batch ∧
      (advanceClock s d).sink = s.sink := by
  unfold advanceClock
  split
  · split <;> simp
  · simp

/-- What a flush adds to the sink calls carries exactly the in-progress batch. -/
theorem flush_conserve (cfg : Config) (s : State) (r : SinkResult) :
    ∃ later, (flush cfg s r).sink = s.sink ++ later ∧
      (later.map Prod.fst).flatten = s.batch := by
  refine ⟨if s.batch = [] then [] else [(s.batch, r)], flush_sink cfg s r, ?_⟩
  by_cases h : s.batch = [] <;> simp [h]

/-- The receive branch puts the received event behind the batch, in the batch
or in a sink call. -/
theorem received_conserve (cfg : Config) (s : State) (ev : Event) (r : SinkResult) :
    ∃ later, (received cfg s ev r).sink = s.sink ++ later ∧
      (later.map Prod.fst).flatten ++ (received cfg s ev r).batch ++ (received cfg s ev r).queue
        = s.batch ++ [ev] ++ s.queue := by
  unfold received
  split
  · obtain ⟨later, h1, h2⟩ := flush_conserve cfg { s with batch := s.batch ++ [ev] } r
    refine ⟨later, h1, ?_⟩
    rw [flush_batch, flush_queue, h2]
    simp
  · exact ⟨[], by simp, by simp⟩

/-- One step moves events from the queue to the batch and from the batch to the
sink, and adds the accepted event at the end of the queue; nothing else. -/
theorem step_conserve (cfg : Config) (s s1 : State) (a : Action)
    (h : step cfg s a = some s1) :
    ∃ later, s1.sink = s.sink ++ later ∧
      (later.map Prod.fst).flatten ++ s1.batch ++ s1.queue
        = s.batch ++ s.queue ++ acceptedBy cfg s a := by
  cases a with
  | enqueue ev =>
    simp only [step, Option.some.injEq] at h
    subst h
    refine ⟨[], ?_, ?_⟩
    · unfold Enqueue; split <;> simp
    · unfold acceptedBy Enqueue; split <;> simp
  | recv r =>
    simp only [step] at h
    split at h
    · split at h
      · exact absurd h (by simp)
      · rename_i ev rest hq
        simp only [Option.some.injEq] at h
        subst h
        obtain ⟨later, h1, h2⟩ := received_conserve cfg { s with queue := rest } ev r
        exact ⟨later, h1, by rw [h2]; simp [acceptedBy, hq]⟩
    · exact absurd h (by simp)
  | handoff ev r =>
    simp only [step] at h
    split at h
    · rename_i hg
      simp only [Option.some.injEq] at h
      subst h
      obtain ⟨later, h1, h2⟩ := received_conserve cfg s ev r
      exact ⟨later, h1, by rw [h2]; simp [acceptedBy, hg.2.2.1]⟩
    · exact absurd h (by simp)
  | timerFire r =>
    simp only [step] at h
    split at h
    · simp only [Option.some.injEq] at h
      subst h
      obtain ⟨later, h1, h2⟩ :=
        flush_conserve cfg { s with timer := { s.timer with fired := false } } r
      refine ⟨later, h1, ?_⟩
      rw [flush_batch, flush_queue, h2]
      simp [acceptedBy]
    · exact absurd h (by simp)
  | ctxDone r =>
    simp only [step] at h
    split at h
    · simp only [Option.some.injEq] at h
      subst h
      obtain ⟨later, h1, h2⟩ := flush_conserve cfg s r
      refine ⟨later, h1, ?_⟩
      show (later.map Prod.fst).flatten ++ (flush cfg s r).batch ++ (flush cfg s r).queue = _
      rw [flush_batch, flush_queue, h2]
      simp [acceptedBy]
    · exact absurd h (by simp)
  | cancel =>
    simp only [step, Option.some.injEq] at h
    subst h
    exact ⟨[], by simp, by simp [acceptedBy]⟩
  | advance d =>
    simp only [step, Option.some.injEq] at h
    subst h
    obtain ⟨hq, hb, hs⟩ := advanceClock_fields s d
    exact ⟨[], by simp [hs], by simp [hq, hb, acceptedBy]⟩

/-- Conservation along a run: the sink calls made during the run, then the
batch, then the queue, are the batch and the queue of the start followed by the
events accepted during the run. -/
theorem run_conserve (cfg : Config) (acts : List Action) :
    ∀ (s s1 : State) (acc : List Event), run cfg s acts = some (s1, acc) →
      ∃ later, s1.sink = s.sink ++ later ∧
        (later.map Prod.fst).flatten ++ s1.batch ++ s1.queue
          = s.batch ++ s.queue ++ acc := by
  induction acts with
  | nil =>
    intro s s1 acc h
    simp only [run, Option.some.injEq, Prod.mk.injEq] at h
    obtain ⟨rfl, rfl⟩ := h
    exact ⟨[], by simp, by simp⟩
  | cons a as ih =>
    intro s s1 acc h
    simp only [run] at h
    cases hst : step cfg s a with
    | none => simp [hst] at h
    | some sm =>
      simp only [hst] at h
      cases hr : run cfg sm as with
      | none => simp [hr] at h
      | some p =>
        obtain ⟨s2, acc2⟩ := p
        simp only [hr, Option.some.injEq, Prod.mk.injEq] at h
        obtain ⟨rfl, rfl⟩ := h
        obtain ⟨l1, hs1, hc1⟩ := step_conserve cfg s sm a hst
        obtain ⟨l2, hs2, hc2⟩ := ih sm s2 acc2 hr
        refine ⟨l1 ++ l2, by rw [hs2, hs1, List.append_assoc], ?_⟩
        have e1 : ((l1 ++ l2).map Prod.fst).flatten
            = (l1.map Prod.fst).flatten ++ (l2.map Prod.fst).flatten := by simp
        rw [e1]
        calc (l1.map Prod.fst).flatten ++ (l2.map Prod.fst).flatten ++ s2.batch ++ s2.queue
            = (l1.map Prod.fst).flatten
                ++ ((l2.map Prod.fst).flatten ++ s2.batch ++ s2.queue) := by
              simp [List.append_assoc]
          _ = (l1.map Prod.fst).flatten ++ (sm.batch ++ sm.queue ++ acc2) := by rw [hc2]
          _ = ((l1.map Prod.fst).flatten ++ sm.batch ++ sm.queue) ++ acc2 := by
              simp [List.append_assoc]
          _ = s.batch ++ s.queue ++ (acceptedBy cfg s a ++ acc2) := by
              rw [hc1]; simp [List.append_assoc]

theorem resetTimer_wf (cfg : Config) (now : Int) (t : Timer) (h : t.wf) :
    resetTimer cfg now t = { deadline := some (now + cfg.batchMaxWait), fired := false } := by
  unfold resetTimer
  cases hd : t.deadline with
  | none => simp
  | some d =>
    have : t.fired = false := h (by simp [hd])
    simp [this]

theorem resetTimer_is_wf (cfg : Config) (now : Int) (t : Timer) (h : t.wf) :
    (resetTimer cfg now t).wf := by
  rw [resetTimer_wf cfg now t h]
  intro _; rfl

theorem flush_wf (cfg : Config) (s : State) (r : SinkResult) (h : s.timer.wf) :
    (flush cfg s r).timer.wf := by
  rw [flush_timer]; exact resetTimer_is_wf cfg s.now s.timer h

theorem received_wf (cfg : Config) (s : State) (ev : Event) (r : SinkResult)
    (h : s.timer.wf) : (received cfg s ev r).timer.wf := by
  unfold received
  split
  · exact flush_wf cfg _ r h
  · exact h

theorem received_queue (cfg : Config) (s : State) (ev : Event) (r : SinkResult) :
    (received cfg s ev r).queue = s.queue := by
  unfold received
  split
  · rw [flush_queue]
  · rfl

/-- Every step keeps the timer well formed and the queue within its capacity. -/
theorem step_keeps_shape (cfg : Config) (s s1 : State) (a : Action)
    (h : step cfg s a = some s1) (hw : s.timer.wf)
    (hq : s.queue.length ≤ cfg.queueMaxSize) :
    s1.timer.wf ∧ s1.queue.length ≤ cfg.queueMaxSize := by
  cases a with
  | enqueue ev =>
    simp only [step, Option.some.injEq] at h
    subst h
    unfold Enqueue
    split
    · refine ⟨hw, ?_⟩
      simp only [List.length_append, List.length_singleton]
      omega
    · exact ⟨hw, hq⟩
  | recv r =>
    simp only [step] at h
    split at h
    · split at h
      · exact absurd h (by simp)
      · rename_i ev rest hqe
        simp only [Option.some.injEq] at h
        subst h
        refine ⟨received_wf cfg _ ev r hw, ?_⟩
        rw [received_queue]
        rw [hqe] at hq
        simp only [List.length_cons] at hq
        show rest.length ≤ cfg.queueMaxSize
        omega
    · exact absurd h (by simp)
  | handoff ev r =>
    simp only [step] at h
    split at h
    · simp only [Option.some.injEq] at h
      subst h
      exact ⟨received_wf cfg s ev r hw, by rw [received_queue]; exact hq⟩
    · exact absurd h (by simp)
  | timerFire r =>
    simp only [step] at h
    split at h
    · simp only [Option.some.injEq] at h
      subst h
      refine ⟨flush_wf cfg _ r (fun _ => rfl), ?_⟩
      rw [flush_queue]; exact hq
    · exact absurd h (by simp)
  | ctxDone r =>
    simp only [step] at h
    split at h
    · simp only [Option.some.injEq] at h
      subst h
      refine ⟨fun hsome => absurd hsome (by simp), ?_⟩
      show (flush cfg s r).queue.length ≤ cfg.queueMaxSize
      rw [flush_queue]; exact hq
    · exact absurd h (by simp)
  | cancel =>
    simp only [step, Option.some.injEq] at h
    subst h
    exact ⟨hw, hq⟩
  | advance d =>
    simp only [step, Option.some.injEq] at h
    subst h
    obtain ⟨hqq, _, _⟩ := advanceClock_fields s d
    refine ⟨?_, by rw [hqq]; exact hq⟩
    unfold advanceClock
    split
    · split
      · intro hsome; exact absurd hsome (by simp)
      · exact hw
    · exact hw

/-- In every state reached from the initial one the timer is well formed and
the queue holds at most `queueMaxSize` events. -/
theorem run_keeps_shape (cfg : Config) (acts : List Action) :
    ∀ (s s1 : State) (acc : List Event), run cfg s acts = some (s1, acc) →
      s.timer.wf → s.queue.length ≤ cfg.queueMaxSize →
      s1.timer.wf ∧ s1.queue.length ≤ cfg.queueMaxSize := by
  induction acts with
  | nil =>
    intro s s1 acc h hw hq
    simp only [run, Option.some.injEq, Prod.mk.injEq] at h
    obtain ⟨rfl, _⟩ := h
    exact ⟨hw, hq⟩
  | cons a as ih =>
    intro s s1 acc h hw hq
    simp only [run] at h
    cases hst : step cfg s a with
    | none => simp [hst] at h
    | some sm =>
      simp only [hst] at h
      cases hr : run cfg sm as with
      | none => simp [hr] at h
      | some p =>
        obtain ⟨s2, acc2⟩ := p
        simp only [hr, Option.some.injEq, Prod.mk.injEq] at h
        obtain ⟨rfl, _⟩ := h
        obtain ⟨hw1, hq1⟩ := step_keeps_shape cfg s sm a hst hw hq
        exact ih sm s2 acc2 hr hw1 hq1

/-! ## The pipeline: conservation of accepted events -/

/-- C1: for every run of the pipeline from the empty state, the batches handed
to the sink (in flush order), followed by the in-progress batch, followed by
the queue contents, are exactly the events for which `Enqueue` returned true,
in acceptance order; hence every accepted event occurs in exactly one of the
three places, as often as it was accepted. -/
theorem pipeline_conservation (cfg : Config) (t0 : Int) (acts : List Action)
    (s : State) (acc : List Event)
    (h : run cfg (State.init cfg t0) acts = some (s, acc)) :
    s.flushed ++ s.batch ++ s.queue = acc ∧
      ∀ ev, s.flushed.count ev + s.batch.count ev + s.queue.count ev = acc.count ev := by
  obtain ⟨later, hs, hc⟩ := run_conserve cfg acts (State.init cfg t0) s acc h
  have hfl : s.flushed = (later.map Prod.fst).flatten := by
    unfold State.flushed
    rw [hs]
    simp [State.init]
  have hmain : s.flushed ++ s.batch ++ s.queue = acc := by
    rw [hfl, hc]
    simp [State.init]
  refine ⟨hmain, fun ev => ?_⟩
  rw [← hmain]
  simp only [List.count_append]

theorem pipeline_conservation_witness :
    sampleEnd.flushed ++ sampleEnd.batch ++ sampleEnd.queue = [ev1, ev2, ev3, ev1] :=
  (pipeline_conservation smallCfg 0 sampleRun sampleEnd [ev1, ev2, ev3, ev1] (by rfl)).1

/-! ## Enqueue -/

/-- C2: on a queue of positive capacity `c` holding at most `c` events,
`Enqueue` returns false exactly when the queue already holds `c` events, and
then the state (so the queue and its order) is unchanged; otherwise it returns
true and the queue becomes the old queue followed by the event. It always
returns one of the two results. -/
theorem enqueue_spec (cfg : Config) (s : State) (ev : Event)
    (_hc : 0 < cfg.queueMaxSize) (hq : s.queue.length ≤ cfg.queueMaxSize) :
    ((Enqueue cfg s ev).2 = false ↔ s.queue.length = cfg.queueMaxSize) ∧
      ((Enqueue cfg s ev).2 = false → (Enqueue cfg s ev).1 = s) ∧
      ((Enqueue cfg s ev).2 = true →
        (Enqueue cfg s ev).1 = { s with queue := s.queue ++ [ev] }) ∧
      ((Enqueue cfg s ev).2 = true ∨ (Enqueue cfg s ev).2 = false) := by
  unfold Enqueue
  by_cases h : s.queue.length < cfg.queueMaxSize
  · simp [h]; omega
  · simp [h]; omega

theorem enqueue_spec_witness :
    ((Enqueue smallCfg { State.init smallCfg 0 with queue := [ev1, ev2] } ev3).2 = false ↔
      [ev1, ev2].length = smallCfg.queueMaxSize) :=
  (enqueue_spec smallCfg { State.init smallCfg 0 with queue := [ev1, ev2] } ev3
    (by decide) (by decide)).1

/-! ## Shutdown -/

/-- C3 (as stated, refuted): after `ev1` was accepted and received into the
in-progress batch and `ev2` was accepted into the queue, the shutdown step makes
one sink write holding `ev1` only, and the goroutine returns with `ev2` still
in the queue; when the only accepted event `ev1` is still in the queue, the
shutdown step makes no sink write at all. Each line gives the sink calls, the
queue, the `running` flag and the accepted events at the end of the run. -/
theorem shutdown_flush_counterexample :
    (run smallCfg (State.init smallCfg 0)
        [.enqueue ev1, .recv (.ok 0), .enqueue ev2, .cancel, .ctxDone (.ok 1)]).map
        (fun p => (p.1.sink, p.1.queue, p.1.running, p.2))
      = some ([([ev1], .ok 1)], [ev2], false, [ev1, ev2]) ∧
    (run smallCfg (State.init smallCfg 0)
        [.enqueue ev1, .cancel, .ctxDone (.ok 1)]).map
        (fun p => (p.1.sink, p.1.queue, p.1.running, p.2))
      = some ([], [ev1], false, [ev1]) := by
  constructor <;> rfl

/-- C3 (amended): in every state where the goroutine runs and the context is
cancelled, the shutdown step is enabled; with a non-empty in-progress batch it
makes exactly one sink write, which is that batch, with an empty one it makes
none; the batch is empty afterwards, the goroutine has returned, and no further
step of the goroutine is enabled. -/
theorem shutdown_flushes_batch (cfg : Config) (s : State) (r : SinkResult)
    (hr : s.running = true) (hc : s.cancelled = true) :
    ∃ s1, step cfg s (.ctxDone r) = some s1 ∧
      (s.batch ≠ [] → s1.sink = s.sink ++ [(s.batch, r)]) ∧
      (s.batch = [] → s1.sink = s.sink) ∧
      s1.batch = [] ∧ s1.running = false ∧
      ∀ r2, step cfg s1 (.recv r2) = none ∧ step cfg s1 (.timerFire r2) = none ∧
        step cfg s1 (.ctxDone r2) = none := by
  have hst : step cfg s (.ctxDone r) = some
      { flush cfg s r with
        running := false
        timer := { (flush cfg s r).timer with deadline := none } } := by
    simp [step, hr, hc]
  refine ⟨_, hst, ?_, ?_, ?_, rfl, ?_⟩
  · intro hb
    show (flush cfg s r).sink = _
    rw [flush_sink]; simp [hb]
  · intro hb
    show (flush cfg s r).sink = _
    rw [flush_sink]; simp [hb]
  · exact flush_batch cfg s r
  · intro r2
    simp [step]

theorem shutdown_flushes_batch_witness :
    ∃ s1, step smallCfg
        { State.init smallCfg 0 with batch := [ev1], queue := [ev2], cancelled := true }
        (.ctxDone (.err "down")) = some s1 ∧
      s1.sink = [([ev1], .err "down")] ∧ s1.running = false := by
  obtain ⟨s1, h1, h2, _, _, h5, _⟩ := shutdown_flushes_batch smallCfg
    { State.init smallCfg 0 with batch := [ev1], queue := [ev2], cancelled := true }
    (.err "down") rfl rfl
  exact ⟨s1, h1, by simpa [State.init] using h2 (by decide), h5⟩

/-! ## The receive branch -/

/-- C4: for `batchMaxSize = m ≥ 1`, an in-progress batch `b` shorter than `m`
and an event `ev` at the head of the queue, whatever the (well-formed) timer:
if `b` has `m - 1` events the receive step hands `b ++ [ev]` to the sink in one
call, leaves the batch empty and the timer running for a full `batchMaxWait`
with nothing pending; if `b` has fewer, the step makes no sink call and the
batch becomes `b ++ [ev]`. -/
theorem recv_step_spec (cfg : Config) (s : State) (ev : Event) (rest : List Event)
    (r : SinkResult) (_hm : 1 ≤ cfg.batchMaxSize) (hrun : s.running = true)
    (hq : s.queue = ev :: rest) (_hb : s.batch.length < cfg.batchMaxSize)
    (hw : s.timer.wf) :
    (s.batch.length = cfg.batchMaxSize - 1 →
      ∃ s1, step cfg s (.recv r) = some s1 ∧
        s1.sink = s.sink ++ [(s.batch ++ [ev], r)] ∧ s1.batch = [] ∧
        s1.timer = { deadline := some (s.now + cfg.batchMaxWait), fired := false }) ∧
    (s.batch.length < cfg.batchMaxSize - 1 →
      ∃ s1, step cfg s (.recv r) = some s1 ∧
        s1.sink = s.sink ∧ s1.batch = s.batch ++ [ev] ∧ s1.timer = s.timer) := by
  have hstep : step cfg s (.recv r) = some (received cfg { s with queue := rest } ev r) := by
    simp only [step, hrun, hq, if_true]
  constructor
  · intro he
    have hge : (s.batch ++ [ev]).length ≥ cfg.batchMaxSize := by
      simp only [List.length_append, List.length_singleton]
      omega
    refine ⟨_, hstep, ?_, ?_, ?_⟩
    · rw [received, if_pos hge, flush_sink]; simp
    · rw [received, if_pos hge]; exact flush_batch _ _ _
    · rw [received, if_pos hge, flush_timer]; exact resetTimer_wf cfg s.now s.timer hw
  · intro hlt
    have hnge : ¬ (s.batch ++ [ev]).length ≥ cfg.batchMaxSize := by
      simp only [List.length_append, List.length_singleton]
      omega
    refine ⟨_, hstep, ?_, ?_, ?_⟩ <;> rw [received, if_neg hnge]

theorem recv_step_spec_witness :
    ∃ s1, step smallCfg { State.init smallCfg 7 with batch := [ev1], queue := [ev2, ev3] }
        (.recv (.ok 2)) = some s1 ∧
      s1.sink = [([ev1, ev2], .ok 2)] ∧ s1.batch = [] ∧
      s1.timer = { deadline := some (7 + 50000000), fired := false } :=
  (recv_step_spec smallCfg { State.init smallCfg 7 with batch := [ev1], queue := [ev2, ev3] }
    ev2 [ev3] (.ok 2) (by decide) rfl rfl (by decide) (by decide)).1 (by decide)

/-! ## Enqueue after cancellation -/

/-- C5 (as stated, refuted): after the context is cancelled and the goroutine
has returned, `Enqueue` on the empty queue of capacity two returns true and the
event is put on the queue. -/
theorem enqueue_after_shutdown_counterexample :
    run smallCfg (State.init smallCfg 0) [.cancel, .ctxDone (.ok 0)]
        = some (stoppedState, []) ∧
      Enqueue smallCfg stoppedState ev1 = ({ stoppedState with queue := [ev1] }, true) := by
  constructor <;> rfl

/-- C5 (amended): after cancellation `Enqueue` behaves as before: it returns
true exactly when the queue has a free slot, and then the event is appended to
the queue; it returns false, leaving the state as it is, only on a full
queue. -/
theorem enqueue_after_cancel (cfg : Config) (s : State) (ev : Event)
    (_hc : s.cancelled = true) :
    ((Enqueue cfg s ev).2 = true ↔ s.queue.length < cfg.queueMaxSize) ∧
      (s.queue.length < cfg.queueMaxSize →
        (Enqueue cfg s ev).1.queue = s.queue ++ [ev]) ∧
      (¬ s.queue.length < cfg.queueMaxSize → (Enqueue cfg s ev).1 = s) := by
  unfold Enqueue
  by_cases h : s.queue.length < cfg.queueMaxSize <;> simp [h]

theorem enqueue_after_cancel_witness :
    (Enqueue smallCfg stoppedState ev1).2 = true :=
  (enqueue_after_cancel smallCfg stoppedState ev1 rfl).1.mpr (by decide)

/-! ## Flush -/

/-- C6: a flush of a non-empty in-progress batch `b`, whatever the outcome `r`
of the sink call, makes exactly one sink call, with `b`; afterwards the batch
is empty, the queue is as before (nothing is put back), the timer runs for a
full `batchMaxWait` with nothing pending, and along every continuation the
later sink calls, the batch and the queue hold exactly the events that were in
the queue at the flush and the events accepted since: no event of `b` is
written again. -/
theorem flush_drops_batch (cfg : Config) (s : State) (r : SinkResult)
    (hb : s.batch ≠ []) (hw : s.timer.wf) :
    (flush cfg s r).sink = s.sink ++ [(s.batch, r)] ∧
      (flush cfg s r).batch = [] ∧
      (flush cfg s r).queue = s.queue ∧
      (flush cfg s r).timer = { deadline := some (s.now + cfg.batchMaxWait), fired := false } ∧
      ∀ (acts : List Action) (s2 : State) (acc : List Event),
        run cfg (flush cfg s r) acts = some (s2, acc) →
        ∃ later, s2.sink = s.sink ++ [(s.batch, r)] ++ later ∧
          (later.map Prod.fst).flatten ++ s2.batch ++ s2.queue = s.queue ++ acc := by
  have hs : (flush cfg s r).sink = s.sink ++ [(s.batch, r)] := by
    rw [flush_sink]; simp [hb]
  refine ⟨hs, flush_batch cfg s r, flush_queue cfg s r, ?_, ?_⟩
  · rw [flush_timer]; exact resetTimer_wf cfg s.now s.timer hw
  · intro acts s2 acc h
    obtain ⟨later, h1, h2⟩ := run_conserve cfg acts (flush cfg s r) s2 acc h
    refine ⟨later, by rw [h1, hs], ?_⟩
    rw [h2, flush_batch, flush_queue]
    simp

theorem flush_drops_batch_witness :
    (flush smallCfg { State.init smallCfg 0 with batch := [ev1], queue := [ev2] }
        (.err "boom")).sink = [([ev1], .err "boom")] ∧
      (flush smallCfg { State.init smallCfg 0 with batch := [ev1], queue := [ev2] }
        (.err "boom")).batch = [] :=
  have h := flush_drops_batch smallCfg
    { State.init smallCfg 0 with batch := [ev1], queue := [ev2] } (.err "boom")
    (by decide) (by decide)
  ⟨h.1, h.2.1⟩

/-! ## The sink -/

theorem rowKey_toRow (sha256hex : String → String) (ev : Event) :
    rowKey sha256hex (toRow ev) = (DeriveKey sha256hex ev).1 := by
  unfold rowKey toRow DeriveKey composite
  by_cases h : ev.EventID = "" <;> simp [h]

/-- Tuples whose keys are all stored leave the table as it is and count zero. -/
theorem execInsert_all_stored (sha256hex : String → String) (rs : List Row) :
    ∀ table : List Row,
      (∀ r ∈ rs, table.any (fun t => rowKey sha256hex t == rowKey sha256hex r) = true) →
      execInsert sha256hex table rs = (table, 0) := by
  induction rs with
  | nil => intro table _; rfl
  | cons r rs ih =>
    intro table h
    have hr := h r (List.mem_cons_self r rs)
    rw [execInsert, if_pos hr]
    exact ih table (fun r2 h2 => h r2 (List.mem_cons_of_mem r h2))

/-- After the statement every stored row is still stored and the key of every
tuple of the statement is stored. -/
theorem execInsert_stores (sha256hex : String → String) (rs : List Row) :
    ∀ table : List Row,
      (∀ t ∈ table, t ∈ (execInsert sha256hex table rs).1) ∧
      (∀ r ∈ rs, (execInsert sha256hex table rs).1.any
        (fun t => rowKey sha256hex t == rowKey sha256hex r) = true) := by
  induction rs with
  | nil => intro table; exact ⟨fun t ht => ht, fun r hr => absurd hr (List.not_mem_nil r)⟩
  | cons r rs ih =>
    intro table
    by_cases hc : table.any (fun t => rowKey sha256hex t == rowKey sha256hex r) = true
    · rw [execInsert, if_pos hc]
      obtain ⟨h1, h2⟩ := ih table
      refine ⟨h1, fun r2 hr2 => ?_⟩
      rcases List.mem_cons.mp hr2 with rfl | hmem
      · obtain ⟨t, ht, hk⟩ := List.any_eq_true.mp hc
        exact List.any_eq_true.mpr ⟨t, h1 t ht, hk⟩
      · exact h2 r2 hmem
    · rw [execInsert, if_neg hc]
      obtain ⟨h1, h2⟩ := ih (table ++ [r])
      refine ⟨fun t ht => h1 t (List.mem_append_left _ ht), fun r2 hr2 => ?_⟩
      rcases List.mem_cons.mp hr2 with rfl | hmem
      · exact List.any_eq_true.mpr
          ⟨r2, h1 r2 (List.mem_append_right _ (List.mem_singleton_self r2)), by simp⟩
      · exact h2 r2 hmem

/-- C7: after a batch has been written with `InsertBatch` (the storage not
failing), writing a batch whose events all have the Dedup Key, as given by
`DeriveKey`, of some event of the first batch, in particular the same batch
again, returns zero newly written records and no error and leaves the table
as it was after the first call; events with an explicit id and events without
one are treated alike. -/
theorem insertBatch_idempotent (sha256hex : String → String) (db : List Row)
    (items again : List Event)
    (h : ∀ e ∈ again, ∃ e0 ∈ items,
      (DeriveKey sha256hex e).1 = (DeriveKey sha256hex e0).1) :
    InsertBatch sha256hex (InsertBatch sha256hex db none items).1 none again
      = ((InsertBatch sha256hex db none items).1, .ok 0) := by
  by_cases ha : again.length = 0
  · simp [InsertBatch, ha]
  · have hi : items.length ≠ 0 := by
      intro hi
      cases again with
      | nil => exact ha rfl
      | cons e es =>
        obtain ⟨e0, he0, _⟩ := h e (List.mem_cons_self e es)
        rw [List.length_eq_zero.mp hi] at he0
        exact absurd he0 (List.not_mem_nil e0)
    have h1 : (InsertBatch sha256hex db none items).1
        = (execInsert sha256hex db (items.map toRow)).1 := by
      simp [InsertBatch, hi]
    rw [h1]
    have hall : ∀ r ∈ again.map toRow,
        (execInsert sha256hex db (items.map toRow)).1.any
          (fun t => rowKey sha256hex t == rowKey sha256hex r) = true := by
      intro r hr
      obtain ⟨e, he, rfl⟩ := List.mem_map.mp hr
      obtain ⟨e0, he0, hk⟩ := h e he
      have := (execInsert_stores sha256hex (items.map toRow) db).2 (toRow e0)
        (List.mem_map.mpr ⟨e0, he0, rfl⟩)
      rw [rowKey_toRow, hk, ← rowKey_toRow]
      exact this
    have h2 := execInsert_all_stored sha256hex (again.map toRow) _ hall
    simp [InsertBatch, ha, h2]

theorem insertBatch_idempotent_witness :
    InsertBatch (fun c => "sha:" ++ c)
        (InsertBatch (fun c => "sha:" ++ c) [] none sampleBatch).1 none sampleBatchAgain
      = ((InsertBatch (fun c => "sha:" ++ c) [] none sampleBatch).1, .ok 0) :=
  insertBatch_idempotent (fun c => "sha:" ++ c) [] sampleBatch sampleBatchAgain (by decide)

/-! ## The composite string of DeriveKey -/

/-- C10 (the code at the failing input): the events `pipeEventA` and
`pipeEventB` differ in name and in user, yet `DeriveKey` builds the same
composite string `a|b|c|1` for both, so it returns the same key for both,
whatever the digest. -/
theorem composite_collision :
    (pipeEventA.EventName, pipeEventA.UserID, pipeEventA.Timestamp)
        ≠ (pipeEventB.EventName, pipeEventB.UserID, pipeEventB.Timestamp) ∧
      composite pipeEventA = "a|b|c|1" ∧ composite pipeEventB = "a|b|c|1" ∧
      ∀ sha256hex : String → String,
        DeriveKey sha256hex pipeEventA = DeriveKey sha256hex pipeEventB := by
  refine ⟨by decide, by decide, by decide, fun sha256hex => ?_⟩
  have h : composite pipeEventA = composite pipeEventB := by decide
  have hA : pipeEventA.EventID = "" := rfl
  have hB : pipeEventB.EventID = "" := rfl
  simp only [DeriveKey, hA, hB, h, ne_eq, not_true_eq_false, if_false]

/-! ## The rate limiter -/

theorem wrapInt64_of_range (x : Int) (h0 : 0 ≤ x) (h1 : x < 2 ^ 63) : wrapInt64 x = x := by
  unfold wrapInt64
  have e63 : (2 : Int) ^ 63 = 9223372036854775808 := by norm_num
  have e64 : (2 : Int) ^ 64 = 18446744073709551616 := by norm_num
  rw [e63] at h1 ⊢
  rw [e64]
  omega

theorem metricsGet_guarded :
    ¬ (metricsGet.Method ≠ "GET" ∨ ¬ ("/metrics".toList.isPrefixOf metricsGet.Path.toList = true)) := by
  decide

/-- Refill in exact arithmetic. -/
theorem refill_exact (N : Int) (τ e : ℚ) :
    refill exactArith N τ e = min (N : ℚ) (τ + e * ((N : ℚ) / 60)) := by
  simp only [refill, exactArith, capacity, refillPerSec, Bool.false_eq_true, if_false]
  by_cases h : τ + e * ((N : ℚ) / 60) > (N : ℚ)
  · rw [if_pos h, min_eq_left (le_of_lt h)]
  · rw [if_neg h, min_eq_right (not_lt.mp h)]

theorem elapsedSec_exact (l c : Int) (h0 : 0 ≤ c - l) (h1 : c - l < 2 ^ 63) :
    elapsedSec exactArith l c = ((c - l : Int) : ℚ) / 1000000000 := by
  simp only [elapsedSec, exactArith, wrapInt64_of_range _ h0 h1]

theorem limited_get (fm : FloatMode) (N : Int) (st : rateState) (c : Int) :
    limited fm N st metricsGet c =
      if refill fm N st.tokens (elapsedSec fm st.lastRefillNano c) < 1 then
        ({ tokens := refill fm N st.tokens (elapsedSec fm st.lastRefillNano c),
           lastRefillNano := c }, .problem 429 "3")
      else
        ({ tokens := fm.rnd (refill fm N st.tokens (elapsedSec fm st.lastRefillNano c) - 1),
           lastRefillNano := c }, .next) := by
  rw [limited, if_neg metricsGet_guarded]

theorem serveAll_append (fm : FloatMode) (N : Int) (xs ys : List (Request × Int)) :
    ∀ st : Option rateState,
      serveAll fm N st (xs ++ ys) =
        ((serveAll fm N (serveAll fm N st xs).1 ys).1,
          (serveAll fm N st xs).2 ++ (serveAll fm N (serveAll fm N st xs).1 ys).2) := by
  induction xs with
  | nil => intro st; simp [serveAll]
  | cons x xs ih =>
    intro st
    obtain ⟨r, c⟩ := x
    rw [List.cons_append, serveAll, serveAll, ih]
    simp

theorem serveAll_length (fm : FloatMode) (N : Int) (xs : List (Request × Int)) :
    ∀ st : Option rateState, (serveAll fm N st xs).2.length = xs.length := by
  induction xs with
  | nil => intro st; simp [serveAll]
  | cons x xs ih =>
    intro st
    obtain ⟨r, c⟩ := x
    simp [serveAll, ih]

/-- The handler looks at the clock only through the time elapsed since the last
call: moving all readings by `c` moves the time stamp and nothing else. -/
theorem limited_shift (fm : FloatMode) (N : Int) (st : rateState) (r : Request) (clk c : Int) :
    limited fm N (shiftState c st) r (clk + c) =
      (shiftState c (limited fm N st r clk).1, (limited fm N st r clk).2) := by
  have hd : elapsedSec fm (shiftState c st).lastRefillNano (clk + c)
      = elapsedSec fm st.lastRefillNano clk := by
    have : clk + c - (st.lastRefillNano + c) = clk - st.lastRefillNano := by ring
    simp only [elapsedSec, shiftState, this]
  have ht : (shiftState c st).tokens = st.tokens := rfl
  rw [limited, limited, hd, ht]
  by_cases hg : r.Method ≠ "GET" ∨ ¬ ("/metrics".toList.isPrefixOf r.Path.toList = true)
  · rw [if_pos hg, if_pos hg]
  · rw [if_neg hg, if_neg hg]
    by_cases hlt : refill fm N st.tokens (elapsedSec fm st.lastRefillNano clk) < 1
    · rw [if_pos hlt, if_pos hlt]; rfl
    · rw [if_neg hlt, if_neg hlt]; rfl

theorem serveAll_shift (fm : FloatMode) (N : Int) (c : Int) (xs : List (Request × Int)) :
    ∀ st : Option rateState,
      serveAll fm N (st.map (shiftState c)) (xs.map (fun x => (x.1, x.2 + c))) =
        ((serveAll fm N st xs).1.map (shiftState c), (serveAll fm N st xs).2) := by
  induction xs with
  | nil => intro st; simp [serveAll]
  | cons x xs ih =>
    intro st
    obtain ⟨r, clk⟩ := x
    cases st with
    | none =>
      have := ih none
      simp only [Option.map_none', List.map_cons, serveAll, serveHTTP] at this ⊢
      rw [this]
    | some s0 =>
      have := ih (some (limited fm N s0 r clk).1)
      simp only [Option.map_some', List.map_cons, serveAll, serveHTTP, limited_shift] at this ⊢
      rw [this]

theorem decisions_shift (fm : FloatMode) (N : Int) (t0 : Int) (clocks : List Int) :
    decisions fm N t0 (clocks.map (fun c => c + t0)) = decisions fm N 0 clocks := by
  unfold decisions
  have hst : RateLimitPerMinute fm N t0 = (RateLimitPerMinute fm N 0).map (shiftState t0) := by
    unfold RateLimitPerMinute
    split <;> simp [shiftState]
  have hl : (clocks.map (fun c => c + t0)).map (fun c => (metricsGet, c)) =
      (clocks.map (fun c => (metricsGet, c))).map (fun x => (x.1, x.2 + t0)) := by
    simp [List.map_map, Function.comp_def]
  rw [hst, hl, serveAll_shift]

/-- One `GET /metrics` call in exact arithmetic, when the elapsed time does not
wrap. -/
theorem limited_exact (N : Int) (τ : ℚ) (l c : Int) (h0 : 0 ≤ c - l) (h1 : c - l < 2 ^ 63) :
    limited exactArith N ⟨τ, l⟩ metricsGet c =
      if min (N : ℚ) (τ + ((c - l : Int) : ℚ) / 1000000000 * ((N : ℚ) / 60)) < 1 then
        (⟨min (N : ℚ) (τ + ((c - l : Int) : ℚ) / 1000000000 * ((N : ℚ) / 60)), c⟩,
          .problem 429 "3")
      else
        (⟨min (N : ℚ) (τ + ((c - l : Int) : ℚ) / 1000000000 * ((N : ℚ) / 60)) - 1, c⟩,
          .next) := by
  rw [limited_get, refill_exact, elapsedSec_exact l c h0 h1]
  rfl

/-- With the clock standing still, `k` calls on a bucket holding at least `k`
tokens are all forwarded and take `k` tokens. -/
theorem burst_exact (N : Int) (t0 : Int) :
    ∀ (k : Nat) (τ : ℚ), (k : ℚ) ≤ τ → τ ≤ (N : ℚ) →
      serveAll exactArith N (some ⟨τ, t0⟩) (List.replicate k (metricsGet, t0))
        = (some ⟨τ - k, t0⟩, List.replicate k .next) := by
  intro k
  induction k with
  | zero => intro τ _ _; simp [serveAll]
  | succ k ih =>
    intro τ hk hN
    have hk1 : ((k : ℚ) + 1) ≤ τ := by simpa using hk
    have hstep : limited exactArith N ⟨τ, t0⟩ metricsGet t0 = (⟨τ - 1, t0⟩, .next) := by
      rw [limited_exact N τ t0 t0 (by simp) (by norm_num)]
      have hm : min (N : ℚ) (τ + ((t0 - t0 : Int) : ℚ) / 1000000000 * ((N : ℚ) / 60)) = τ := by
        simp [hN]
      rw [hm, if_neg (by linarith [show (0 : ℚ) ≤ k from Nat.cast_nonneg k])]
    rw [List.replicate_succ, serveAll]
    simp only [serveHTTP, hstep]
    rw [ih (τ - 1) (by linarith) (by linarith)]
    simp only [List.replicate_succ, Nat.cast_add, Nat.cast_one]
    congr 2
    congr 1
    ring

/-- In exact arithmetic, a full bucket of `N` tokens at a standing clock
forwards `N` calls, rejects the next one, and forwards one more call once the
clock has moved on by at least the refill interval of one token. -/
theorem burst_then_refill_exact (N t0 d : Int) (hN : 1 ≤ N) (hd0 : 0 ≤ d)
    (hd : d < 2 ^ 63) (hr : 60 * 10 ^ 9 ≤ d * N) :
    decisions exactArith N t0 (List.replicate (N.toNat + 1) t0 ++ [t0 + d])
      = List.replicate N.toNat .next ++ [.problem 429 "3", .next] := by
  have hcast : ((N.toNat : ℕ) : ℚ) = (N : ℚ) := by
    have : ((N.toNat : ℕ) : Int) = N := Int.toNat_of_nonneg (by omega)
    exact_mod_cast this
  have hNq : (1 : ℚ) ≤ (N : ℚ) := by exact_mod_cast hN
  have hinit : RateLimitPerMinute exactArith N t0 = some ⟨(N : ℚ), t0⟩ := by
    simp [RateLimitPerMinute, exactArith, show ¬ N ≤ 0 by omega]
  have hlist : (List.replicate (N.toNat + 1) t0 ++ [t0 + d]).map (fun c => (metricsGet, c))
      = List.replicate N.toNat (metricsGet, t0) ++ ([(metricsGet, t0)] ++ [(metricsGet, t0 + d)]) := by
    simp [List.replicate_succ', List.map_replicate]
  have hburst := burst_exact N t0 N.toNat (N : ℚ) (le_of_eq hcast) le_rfl
  have hzero : (N : ℚ) - (N.toNat : ℚ) = 0 := by rw [hcast]; ring
  rw [hzero] at hburst
  have hrej : limited exactArith N ⟨0, t0⟩ metricsGet t0 = (⟨0, t0⟩, .problem 429 "3") := by
    rw [limited_exact N 0 t0 t0 (by simp) (by norm_num)]
    have hm : min (N : ℚ) (0 + ((t0 - t0 : Int) : ℚ) / 1000000000 * ((N : ℚ) / 60)) = 0 := by
      simp; linarith
    rw [hm, if_pos (by norm_num)]
  have hpass : (limited exactArith N ⟨0, t0⟩ metricsGet (t0 + d)).2 = .next := by
    rw [limited_exact N 0 t0 (t0 + d) (by omega) (by omega)]
    have hdq : (60 * 10 ^ 9 : ℚ) ≤ (d : ℚ) * (N : ℚ) := by exact_mod_cast hr
    have he : ((t0 + d - t0 : Int) : ℚ) = (d : ℚ) := by push_cast; ring
    have hm : ¬ min (N : ℚ) (0 + ((t0 + d - t0 : Int) : ℚ) / 1000000000 * ((N : ℚ) / 60)) < 1 := by
      rw [he, not_lt, le_min_iff]
      refine ⟨hNq, ?_⟩
      have : (d : ℚ) / 1000000000 * ((N : ℚ) / 60) = (d * N) / (60 * 10 ^ 9) := by
        rw [div_mul_div_comm]; norm_num
      rw [zero_add, this, le_div_iff₀ (by norm_num)]
      linarith
    rw [if_neg hm]
  unfold decisions
  rw [hinit, hlist, serveAll_append, hburst]
  simp only [List.singleton_append, serveAll, serveHTTP, hrej, hpass]

/-- C8: for every quota `N ≥ 1` in exact arithmetic, with the clock held at the
construction time the first `N` calls of `GET /metrics` are forwarded and call
`N + 1` is rejected with status 429; after the clock has then advanced by the
refill interval of one token (any `d` nanoseconds with `d * N ≥ 60 * 10 ^ 9`)
the next call is forwarded. For the quota 20 and an advance of 3 s the same
holds in `float64` arithmetic, fused or not. -/
theorem rate_limit_burst_then_refill (N t0 d : Int) (hN : 1 ≤ N) (hd0 : 0 ≤ d)
    (hd : d < 2 ^ 63) (hr : 60 * 10 ^ 9 ≤ d * N) :
    decisions exactArith N t0 (List.replicate (N.toNat + 1) t0 ++ [t0 + d])
        = List.replicate N.toNat .next ++ [.problem 429 "3", .next] ∧
      ∀ fused : Bool,
        decisions (binary64 fused) 20 t0 (List.replicate 21 t0 ++ [t0 + 3000000000])
          = List.replicate 20 .next ++ [.problem 429 "3", .next] := by
  refine ⟨burst_then_refill_exact N t0 d hN hd0 hd hr, fun fused => ?_⟩
  have hl : List.replicate 21 t0 ++ [t0 + 3000000000]
      = (List.replicate 21 (0 : Int) ++ [3000000000]).map (fun c => c + t0) := by
    simp [List.map_replicate, add_comm]
  rw [hl, decisions_shift]
  cases fused <;> decide!

theorem rate_limit_burst_then_refill_witness :
    decisions exactArith 20 1700000000000000000
        (List.replicate 21 1700000000000000000 ++ [1700000000000000000 + 3000000000])
      = List.replicate 20 .next ++ [.problem 429 "3", .next] :=
  (rate_limit_burst_then_refill 20 1700000000000000000 3000000000
    (by decide) (by decide) (by norm_num) (by norm_num)).1

theorem getLastD_mem (L : List Int) : ∀ l : Int, L.getLastD l ∈ l :: L := by
  induction L with
  | nil => intro l; simp
  | cons c rest ih =>
    intro l
    rw [List.getLastD_cons]
    exact List.mem_cons_of_mem l (ih c)

theorem forwardedCount_cons (o : Outcome) (os : List Outcome) :
    forwardedCount (o :: os) = (if o = .next then 1 else 0) + forwardedCount os := by
  unfold forwardedCount
  by_cases h : o = .next
  · subst h; simp [Nat.add_comm]
  · have h2 : ¬ (Outcome.next = o) := fun e => h e.symm
    simp [List.count_cons, h, h2]

/-- Token balance in exact arithmetic: along calls at non-decreasing clock
readings, the calls forwarded plus the tokens left are at most the tokens at
the start plus what is refilled in the time elapsed; the tokens never go below
zero and the time stamp is the last reading. -/
theorem serveAll_exact_bound (N : Int) (hN : 1 ≤ N) :
    ∀ (L : List Int) (τ : ℚ) (l : Int), 0 ≤ τ → List.Pairwise (· ≤ ·) (l :: L) →
      (∀ t ∈ L, t - l < 2 ^ 63) →
      ∃ τ1 : ℚ,
        (serveAll exactArith N (some ⟨τ, l⟩) (L.map (fun c => (metricsGet, c)))).1
            = some ⟨τ1, L.getLastD l⟩ ∧
          0 ≤ τ1 ∧
          (forwardedCount
              (serveAll exactArith N (some ⟨τ, l⟩) (L.map (fun c => (metricsGet, c)))).2 : ℚ)
            + τ1
            ≤ τ + ((L.getLastD l - l : Int) : ℚ) / 1000000000 * ((N : ℚ) / 60) := by
  have hNq : (1 : ℚ) ≤ (N : ℚ) := by exact_mod_cast hN
  intro L
  induction L with
  | nil =>
    intro τ l hτ _ _
    refine ⟨τ, by simp [serveAll], hτ, ?_⟩
    simp [serveAll, forwardedCount]
  | cons c rest ih =>
    intro τ l hτ hp hr
    have hlc : l ≤ c := (List.pairwise_cons.mp hp).1 c (List.mem_cons_self c rest)
    have hp2 : List.Pairwise (· ≤ ·) (c :: rest) := (List.pairwise_cons.mp hp).2
    have hc1 : c - l < 2 ^ 63 := hr c (List.mem_cons_self c rest)
    have hr2 : ∀ t ∈ rest, t - c < 2 ^ 63 := by
      intro t ht
      have := hr t (List.mem_cons_of_mem c ht)
      omega
    have hgain : (0 : ℚ) ≤ ((c - l : Int) : ℚ) / 1000000000 * ((N : ℚ) / 60) := by
      have : (0 : ℚ) ≤ ((c - l : Int) : ℚ) := by exact_mod_cast (show (0 : Int) ≤ c - l by omega)
      positivity
    have hsplit : ((rest.getLastD c - l : Int) : ℚ) / 1000000000 * ((N : ℚ) / 60)
        = ((c - l : Int) : ℚ) / 1000000000 * ((N : ℚ) / 60)
          + ((rest.getLastD c - c : Int) : ℚ) / 1000000000 * ((N : ℚ) / 60) := by
      push_cast; ring
    have hm0 : (0 : ℚ) ≤ min (N : ℚ) (τ + ((c - l : Int) : ℚ) / 1000000000 * ((N : ℚ) / 60)) :=
      le_min (by linarith) (by linarith)
    have hmle : min (N : ℚ) (τ + ((c - l : Int) : ℚ) / 1000000000 * ((N : ℚ) / 60))
        ≤ τ + ((c - l : Int) : ℚ) / 1000000000 * ((N : ℚ) / 60) := min_le_right _ _
    rw [List.map_cons, serveAll, List.getLastD_cons]
    simp only [serveHTTP]
    rw [limited_exact N τ l c (by omega) hc1]
    by_cases hlt : min (N : ℚ) (τ + ((c - l : Int) : ℚ) / 1000000000 * ((N : ℚ) / 60)) < 1
    · rw [if_pos hlt]
      obtain ⟨τ1, h1, h2, h3⟩ := ih _ c hm0 hp2 hr2
      refine ⟨τ1, h1, h2, ?_⟩
      rw [forwardedCount_cons, if_neg (by simp), Nat.zero_add, hsplit]
      linarith
    · rw [if_neg hlt]
      obtain ⟨τ1, h1, h2, h3⟩ :=
        ih (min (N : ℚ) (τ + ((c - l : Int) : ℚ) / 1000000000 * ((N : ℚ) / 60)) - 1) c
          (by linarith [not_lt.mp hlt]) hp2 hr2
      refine ⟨τ1, h1, h2, ?_⟩
      rw [forwardedCount_cons, if_pos rfl, hsplit]
      simp only [Nat.cast_add, Nat.cast_one]
      linarith

/-- From any bucket state, the calls forwarded in a stretch of calls that starts
at reading `a` are at most the capacity plus what is refilled from `a` to the
last reading of the stretch. -/
theorem serveAll_exact_window (N : Int) (hN : 1 ≤ N) (a : Int) (ws : List Int) (τ : ℚ)
    (l : Int) (hτ : 0 ≤ τ) (hp : List.Pairwise (· ≤ ·) (l :: a :: ws))
    (hr : ∀ t ∈ a :: ws, t - l < 2 ^ 63) :
    (forwardedCount
        (serveAll exactArith N (some ⟨τ, l⟩) ((a :: ws).map (fun c => (metricsGet, c)))).2 : ℚ)
      ≤ (N : ℚ) + ((ws.getLastD a - a : Int) : ℚ) / 1000000000 * ((N : ℚ) / 60) := by
  have hNq : (1 : ℚ) ≤ (N : ℚ) := by exact_mod_cast hN
  have hla : l ≤ a := (List.pairwise_cons.mp hp).1 a (List.mem_cons_self a ws)
  have hp2 : List.Pairwise (· ≤ ·) (a :: ws) := (List.pairwise_cons.mp hp).2
  have hc1 : a - l < 2 ^ 63 := hr a (List.mem_cons_self a ws)
  have hr2 : ∀ t ∈ ws, t - a < 2 ^ 63 := by
    intro t ht
    have := hr t (List.mem_cons_of_mem a ht)
    omega
  have hgain : (0 : ℚ) ≤ ((a - l : Int) : ℚ) / 1000000000 * ((N : ℚ) / 60) := by
    have : (0 : ℚ) ≤ ((a - l : Int) : ℚ) := by exact_mod_cast (show (0 : Int) ≤ a - l by omega)
    positivity
  have hm0 : (0 : ℚ) ≤ min (N : ℚ) (τ + ((a - l : Int) : ℚ) / 1000000000 * ((N : ℚ) / 60)) :=
    le_min (by linarith) (by linarith)
  have hmle : min (N : ℚ) (τ + ((a - l : Int) : ℚ) / 1000000000 * ((N : ℚ) / 60)) ≤ (N : ℚ) :=
    min_le_left _ _
  rw [List.map_cons, serveAll]
  simp only [serveHTTP]
  rw [limited_exact N τ l a (by omega) hc1]
  by_cases hlt : min (N : ℚ) (τ + ((a - l : Int) : ℚ) / 1000000000 * ((N : ℚ) / 60)) < 1
  · rw [if_pos hlt]
    obtain ⟨τ1, _, h2, h3⟩ := serveAll_exact_bound N hN ws _ a hm0 hp2 hr2
    rw [forwardedCount_cons, if_neg (by simp), Nat.zero_add]
    linarith
  · rw [if_neg hlt]
    obtain ⟨τ1, _, h2, h3⟩ :=
      serveAll_exact_bound N hN ws
        (min (N : ℚ) (τ + ((a - l : Int) : ℚ) / 1000000000 * ((N : ℚ) / 60)) - 1) a
        (by linarith [not_lt.mp hlt]) hp2 hr2
    rw [forwardedCount_cons, if_pos rfl]
    simp only [Nat.cast_add, Nat.cast_one]
    linarith

/-- The window bound in exact arithmetic, where no quota is too large: for every
quota `N ≥ 1` and every sequence of `GET /metrics` calls whose clock readings
are non-decreasing from the construction time on (and less than `2 ^ 63` ns
after it), among the calls of any stretch `win` of the sequence whose readings
lie within 60 seconds of each other at most `2 * N` are forwarded. -/
theorem window_bound_exact (N t0 : Int) (pre win post : List Int) (hN : 1 ≤ N)
    (hsorted : List.Pairwise (· ≤ ·) (t0 :: (pre ++ win ++ post)))
    (hrange : ∀ t ∈ pre ++ win ++ post, t - t0 < 2 ^ 63)
    (hwin : ∀ a ∈ win, ∀ b ∈ win, b - a ≤ 60 * 10 ^ 9) :
    (forwardedCount
        (((decisions exactArith N t0 (pre ++ win ++ post)).drop pre.length).take win.length)
      : Int) ≤ 2 * N := by
  have hNq : (1 : ℚ) ≤ (N : ℚ) := by exact_mod_cast hN
  have hinit : RateLimitPerMinute exactArith N t0 = some ⟨(N : ℚ), t0⟩ := by
    simp [RateLimitPerMinute, exactArith, show ¬ N ≤ 0 by omega]
  -- the readings of `pre`, `win` and `post` are sorted and follow `t0`
  have hp0 := List.pairwise_cons.mp hsorted
  have hmem_pre : ∀ t ∈ pre, t ∈ pre ++ win ++ post :=
    fun t ht => List.mem_append_left _ (List.mem_append_left _ ht)
  have hmem_win : ∀ t ∈ win, t ∈ pre ++ win ++ post :=
    fun t ht => List.mem_append_left _ (List.mem_append_right _ ht)
  have hall : List.Pairwise (· ≤ ·) (pre ++ (win ++ post)) := by
    rw [← List.append_assoc]; exact hp0.2
  have hpa := List.pairwise_append.mp hall
  have hwp := List.pairwise_append.mp hpa.2.1
  have hpre : List.Pairwise (· ≤ ·) (t0 :: pre) :=
    List.pairwise_cons.mpr
      ⟨fun t ht => hp0.1 t (hmem_pre t ht), hpa.1⟩
  -- the state after `pre`
  obtain ⟨τ1, hst, hτ1, _⟩ := serveAll_exact_bound N hN pre (N : ℚ) t0 (by linarith) hpre
    (fun t ht => hrange t (hmem_pre t ht))
  -- the outcomes of the window
  have hout : ((decisions exactArith N t0 (pre ++ win ++ post)).drop pre.length).take win.length
      = (serveAll exactArith N (some ⟨τ1, pre.getLastD t0⟩)
          (win.map (fun c => (metricsGet, c)))).2 := by
    unfold decisions
    rw [hinit, List.append_assoc, List.map_append, List.map_append, serveAll_append,
      serveAll_append, hst]
    have hl1 : (serveAll exactArith N (some ⟨(N : ℚ), t0⟩)
        (pre.map (fun c => (metricsGet, c)))).2.length = pre.length := by
      rw [serveAll_length, List.length_map]
    have hl2 : (serveAll exactArith N (some ⟨τ1, pre.getLastD t0⟩)
        (win.map (fun c => (metricsGet, c)))).2.length = win.length := by
      rw [serveAll_length, List.length_map]
    simp only []
    rw [List.drop_left' hl1, List.take_left' hl2]
  rw [hout]
  cases win with
  | nil =>
    simp only [List.map_nil, serveAll, forwardedCount, List.count_nil, Nat.cast_zero]
    omega
  | cons a ws =>
    have hlast := getLastD_mem pre t0
    have hl0 : t0 ≤ pre.getLastD t0 := by
      rcases List.mem_cons.mp hlast with h | h
      · rw [h]
      · exact hp0.1 _ (hmem_pre _ h)
    have hla : ∀ t ∈ a :: ws, pre.getLastD t0 ≤ t := by
      intro t ht
      rcases List.mem_cons.mp hlast with h | h
      · rw [h]; exact hp0.1 t (hmem_win t ht)
      · exact hpa.2.2 _ h t (List.mem_append_left _ ht)
    have hp : List.Pairwise (· ≤ ·) (pre.getLastD t0 :: a :: ws) :=
      List.pairwise_cons.mpr ⟨hla, hwp.1⟩
    have hr : ∀ t ∈ a :: ws, t - pre.getLastD t0 < 2 ^ 63 := by
      intro t ht
      have := hrange t (hmem_win t ht)
      omega
    have hb := serveAll_exact_window N hN a ws τ1 (pre.getLastD t0) hτ1 hp hr
    have hspan : ws.getLastD a - a ≤ 60 * 10 ^ 9 :=
      hwin a (List.mem_cons_self a ws) _ (getLastD_mem ws a)
    have hspanq : ((ws.getLastD a - a : Int) : ℚ) ≤ 60 * 10 ^ 9 := by exact_mod_cast hspan
    have hgain : ((ws.getLastD a - a : Int) : ℚ) / 1000000000 * ((N : ℚ) / 60) ≤ (N : ℚ) := by
      have h1 : ((ws.getLastD a - a : Int) : ℚ) / 1000000000 ≤ 60 := by
        rw [div_le_iff₀ (by norm_num)]; linarith
      have h2 : (0 : ℚ) ≤ (N : ℚ) / 60 := by positivity
      calc ((ws.getLastD a - a : Int) : ℚ) / 1000000000 * ((N : ℚ) / 60)
          ≤ 60 * ((N : ℚ) / 60) := mul_le_mul_of_nonneg_right h1 h2
        _ = (N : ℚ) := by ring
    have hq : ((forwardedCount (serveAll exactArith N (some ⟨τ1, pre.getLastD t0⟩)
        ((a :: ws).map (fun c => (metricsGet, c)))).2 : ℕ) : ℚ) ≤ ((2 * N : Int) : ℚ) := by
      push_cast; linarith
    exact_mod_cast hq

/-! ### Rounding to `float64` -/

theorem pow2_eq_zpow (k : Int) : pow2 k = (2 : ℚ) ^ k := by
  cases k with
  | ofNat n => simp [pow2]
  | negSucc n =>
    simp only [pow2, Nat.cast_pow, Nat.cast_ofNat, one_div, zpow_negSucc]

theorem pow2_pos (k : Int) : 0 < pow2 k := by
  rw [pow2_eq_zpow]; positivity

theorem pow2_add (a b : Int) : pow2 (a + b) = pow2 a * pow2 b := by
  simp only [pow2_eq_zpow]
  exact zpow_add₀ (by norm_num) a b

theorem pow2_le_iff (a b : Int) : pow2 a ≤ pow2 b ↔ a ≤ b := by
  simp only [pow2_eq_zpow]
  exact zpow_le_zpow_iff_right₀ (by norm_num)

theorem pow2_lt_iff (a b : Int) : pow2 a < pow2 b ↔ a < b := by
  simp only [pow2_eq_zpow]
  exact zpow_lt_zpow_iff_right₀ (by norm_num)

theorem pow2_natCast (n : Nat) : pow2 (n : Int) = ((2 ^ n : Nat) : ℚ) := rfl

theorem log2Fuel_le (fuel : Nat) : ∀ n : Nat, 1 ≤ n → 2 ^ log2Fuel fuel n ≤ n := by
  induction fuel with
  | zero => intro n hn; simpa [log2Fuel] using hn
  | succ fuel ih =>
    intro n hn
    unfold log2Fuel
    split
    · simpa using hn
    · rename_i h2
      have h1 : 1 ≤ n / 2 := by omega
      have := ih (n / 2) h1
      rw [pow_succ]
      omega

theorem lt_log2Fuel (fuel : Nat) : ∀ n : Nat, n < 2 ^ fuel → n < 2 ^ (log2Fuel fuel n + 1) := by
  induction fuel with
  | zero => intro n hn; simp at hn; subst hn; simp
  | succ fuel ih =>
    intro n hn
    unfold log2Fuel
    split
    · rename_i h2; simpa using h2
    · rename_i h2
      have h1 : n / 2 < 2 ^ fuel := by rw [pow_succ] at hn; omega
      have := ih (n / 2) h1
      rw [pow_succ]
      omega

theorem pow2_sub_natCast (a b : Nat) :
    pow2 ((a : Int) - (b : Int)) = (2 : ℚ) ^ a / (2 : ℚ) ^ b := by
  rw [pow2_eq_zpow, zpow_sub₀ (by norm_num)]
  simp

theorem rat_eq_natAbs_div (q : ℚ) (hq : 0 < q) : q = (q.num.natAbs : ℚ) / (q.den : ℚ) := by
  have hnum : 0 < q.num := Rat.num_pos.mpr hq
  have hcast : ((q.num.natAbs : ℕ) : ℚ) = (q.num : ℚ) := by
    have h : ((q.num.natAbs : ℕ) : ℤ) = q.num := Int.natAbs_of_nonneg (le_of_lt hnum)
    calc ((q.num.natAbs : ℕ) : ℚ) = (((q.num.natAbs : ℕ) : ℤ) : ℚ) := (Int.cast_natCast _).symm
      _ = (q.num : ℚ) := by rw [h]
  rw [hcast]
  exact (Rat.num_div_den q).symm

theorem floorLog2_le (q : ℚ) (hq : 0 < q) (hd : q.den < 2 ^ 4096) :
    pow2 (floorLog2 q) ≤ q := by
  unfold floorLog2
  simp only
  split
  · assumption
  · have hnum : 0 < q.num := Rat.num_pos.mpr hq
    have hn1 : 1 ≤ q.num.natAbs := Int.natAbs_pos.mpr (ne_of_gt hnum)
    have h1 := log2Fuel_le 4096 q.num.natAbs hn1
    have h2 := lt_log2Fuel 4096 q.den hd
    have e : ((log2Fuel 4096 q.num.natAbs : Int) - (log2Fuel 4096 q.den : Int) - 1)
        = ((log2Fuel 4096 q.num.natAbs : Nat) : Int) - ((log2Fuel 4096 q.den + 1 : Nat) : Int) := by
      push_cast; ring
    rw [e, pow2_sub_natCast]
    conv_rhs => rw [rat_eq_natAbs_div q hq]
    have h1q : (2 : ℚ) ^ log2Fuel 4096 q.num.natAbs ≤ (q.num.natAbs : ℚ) := by
      exact_mod_cast h1
    have h2q : (q.den : ℚ) ≤ (2 : ℚ) ^ (log2Fuel 4096 q.den + 1) := by
      exact_mod_cast le_of_lt h2
    have hdpos : (0 : ℚ) < (q.den : ℚ) := by exact_mod_cast q.den_pos
    exact div_le_div₀ (by positivity) h1q hdpos h2q

theorem lt_floorLog2 (q : ℚ) (hq : 0 < q) (hn : q.num.natAbs < 2 ^ 4096) :
    q < pow2 (floorLog2 q + 1) := by
  unfold floorLog2
  simp only
  split
  · have h1 := lt_log2Fuel 4096 q.num.natAbs hn
    have h2 := log2Fuel_le 4096 q.den q.den_pos
    have e : ((log2Fuel 4096 q.num.natAbs : Int) - (log2Fuel 4096 q.den : Int) + 1)
        = ((log2Fuel 4096 q.num.natAbs + 1 : Nat) : Int) - ((log2Fuel 4096 q.den : Nat) : Int) := by
      push_cast; ring
    rw [e, pow2_sub_natCast]
    conv_lhs => rw [rat_eq_natAbs_div q hq]
    have h1q : (q.num.natAbs : ℚ) < (2 : ℚ) ^ (log2Fuel 4096 q.num.natAbs + 1) := by
      exact_mod_cast h1
    have h2q : (2 : ℚ) ^ log2Fuel 4096 q.den ≤ (q.den : ℚ) := by
      exact_mod_cast h2
    have hdpos : (0 : ℚ) < (q.den : ℚ) := by exact_mod_cast q.den_pos
    have hppos : (0 : ℚ) < (2 : ℚ) ^ log2Fuel 4096 q.den := by positivity
    calc (q.num.natAbs : ℚ) / (q.den : ℚ)
        ≤ (q.num.natAbs : ℚ) / (2 : ℚ) ^ log2Fuel 4096 q.den :=
          div_le_div_of_nonneg_left (by positivity) hppos h2q
      _ < (2 : ℚ) ^ (log2Fuel 4096 q.num.natAbs + 1) / (2 : ℚ) ^ log2Fuel 4096 q.den :=
          div_lt_div_of_pos_right h1q hppos
  · rename_i h
    simpa using lt_of_not_le h

/-- The nearest integer is within one half. -/
theorem roundHalfEven_err (q : ℚ) : |(roundHalfEven q : ℚ) - q| ≤ 1 / 2 := by
  have hf : (q.num / (q.den : Int) : Int) = ⌊q⌋ := (Rat.floor_def).symm
  have h1 : ((⌊q⌋ : Int) : ℚ) ≤ q := Int.floor_le q
  have h2 : q < ((⌊q⌋ : Int) : ℚ) + 1 := Int.lt_floor_add_one q
  unfold roundHalfEven
  simp only [hf]
  split
  · rename_i h; rw [abs_le]; constructor <;> linarith
  · split
    · rename_i h _; rw [abs_le]; push_cast; constructor <;> linarith
    · rename_i ha hb
      have hr : q - (⌊q⌋ : ℚ) = 1 / 2 := le_antisymm (not_lt.mp hb) (not_lt.mp ha)
      split
      · rw [abs_le]; constructor <;> linarith
      · rw [abs_le]; push_cast; constructor <;> linarith

theorem roundHalfEven_intCast (n : Int) : roundHalfEven (n : ℚ) = n := by
  unfold roundHalfEven
  simp

theorem roundHalfEven_nonneg (q : ℚ) (h : 0 ≤ q) : 0 ≤ roundHalfEven q := by
  have hf : (q.num / (q.den : Int) : Int) = ⌊q⌋ := (Rat.floor_def).symm
  have h0 : 0 ≤ ⌊q⌋ := Int.floor_nonneg.mpr h
  unfold roundHalfEven
  simp only [hf]
  split
  · exact h0
  · split
    · omega
    · split <;> omega

theorem roundF64_zero : roundF64 0 = 0 := by
  simp [roundF64]

theorem roundF64_of_ne (x : ℚ) (hx : x ≠ 0) :
    roundF64 x = (roundHalfEven (x / pow2 (max (floorLog2 |x|) (-1022) - 52)) : ℚ)
      * pow2 (max (floorLog2 |x|) (-1022) - 52) := by
  simp [roundF64, hx]

theorem roundF64_nonneg (x : ℚ) (h : 0 ≤ x) : 0 ≤ roundF64 x := by
  by_cases hx : x = 0
  · rw [hx, roundF64_zero]
  · rw [roundF64_of_ne x hx]
    have hU := pow2_pos (max (floorLog2 |x|) (-1022) - 52)
    have hm := roundHalfEven_nonneg (x / pow2 (max (floorLog2 |x|) (-1022) - 52))
      (div_nonneg h (le_of_lt hU))
    have : (0 : ℚ) ≤ (roundHalfEven (x / pow2 (max (floorLog2 |x|) (-1022) - 52)) : ℚ) := by
      exact_mod_cast hm
    positivity

theorem abs_num_den (x : ℚ) : |x|.num.natAbs = x.num.natAbs ∧ |x|.den = x.den := by
  by_cases h : 0 ≤ x
  · rw [abs_of_nonneg h]; exact ⟨rfl, rfl⟩
  · rw [abs_of_neg (lt_of_not_le h)]
    exact ⟨by rw [Rat.neg_num, Int.natAbs_neg], Rat.neg_den x⟩

/-- Rounding error: half a unit in the last place, which is at most
`|x| / 2 ^ 53` for a normal number and `2 ^ (-1075)` for a subnormal one. -/
theorem roundF64_err (x : ℚ) (hd : x.den < 2 ^ 4096) :
    |roundF64 x - x| ≤ |x| / 2 ^ 53 + pow2 (-1075) := by
  by_cases hx : x = 0
  · rw [hx, roundF64_zero]
    simpa using le_of_lt (pow2_pos (-1075))
  · rw [roundF64_of_ne x hx]
    set e := max (floorLog2 |x|) (-1022) with he
    have hU := pow2_pos (e - 52)
    have herr := roundHalfEven_err (x / pow2 (e - 52))
    have hsplit : (roundHalfEven (x / pow2 (e - 52)) : ℚ) * pow2 (e - 52) - x
        = ((roundHalfEven (x / pow2 (e - 52)) : ℚ) - x / pow2 (e - 52)) * pow2 (e - 52) := by
      field_simp
    rw [hsplit, abs_mul, abs_of_pos hU]
    have h1 : |(roundHalfEven (x / pow2 (e - 52)) : ℚ) - x / pow2 (e - 52)| * pow2 (e - 52)
        ≤ 1 / 2 * pow2 (e - 52) := mul_le_mul_of_nonneg_right herr (le_of_lt hU)
    have habs : 0 < |x| := abs_pos.mpr hx
    have h2 : 1 / 2 * pow2 (e - 52) ≤ |x| / 2 ^ 53 + pow2 (-1075) := by
      rcases le_total (-1022) (floorLog2 |x|) with hc | hc
      · have hee : e = floorLog2 |x| := by rw [he]; exact max_eq_left hc
        have hlow := floorLog2_le |x| habs (by rw [(abs_num_den x).2]; exact hd)
        have hadd : pow2 (e - 52) = pow2 e * pow2 (-52) := by
          rw [← pow2_add]; congr 1
        have h52 : pow2 (-52) = 1 / 2 ^ 52 := by
          rw [pow2_eq_zpow]; norm_num [zpow_neg]
        rw [hadd, h52, hee]
        have := pow2_pos (-1075)
        have hx53 : 1 / 2 * (pow2 (floorLog2 |x|) * (1 / 2 ^ 52))
            = pow2 (floorLog2 |x|) / 2 ^ 53 := by ring
        rw [hx53]
        have : pow2 (floorLog2 |x|) / 2 ^ 53 ≤ |x| / 2 ^ 53 :=
          div_le_div_of_nonneg_right hlow (by positivity)
        linarith
      · have hee : e = -1022 := by rw [he]; exact max_eq_right hc
        rw [hee]
        have : 1 / 2 * pow2 (-1022 - 52) = pow2 (-1075) := by
          have h1 : pow2 (-1) = 1 / 2 := by rw [pow2_eq_zpow]; norm_num [zpow_neg]
          rw [← h1, ← pow2_add]; congr 1
        rw [this]
        have : (0 : ℚ) ≤ |x| / 2 ^ 53 := by positivity
        linarith
    exact le_trans h1 h2

/-- The denominator of a `float64` value is a power of two, at most `2 ^ 1074`. -/
theorem roundF64_den_le (x : ℚ) : (roundF64 x).den ≤ 2 ^ 1074 := by
  by_cases hx : x = 0
  · rw [hx, roundF64_zero]; exact Nat.one_le_two_pow
  · rw [roundF64_of_ne x hx]
    set e := max (floorLog2 |x|) (-1022) with he
    set m := roundHalfEven (x / pow2 (e - 52)) with hm
    have hek : (0 : Int) ≤ e - 52 + 1074 := by
      have : (-1022 : Int) ≤ e := le_max_right _ _
      omega
    obtain ⟨t, ht⟩ := Int.eq_ofNat_of_zero_le hek
    have hpow : pow2 (e - 52) = ((2 ^ t : Nat) : ℚ) * pow2 (-1074) := by
      rw [← pow2_natCast, ← pow2_add, ← ht]; congr 1; ring
    have h1074 : pow2 (-1074) = 1 / (((2 ^ 1074 : Nat) : Int) : ℚ) := by
      rw [pow2_eq_zpow]; norm_num [zpow_neg]
    have hy : (m : ℚ) * pow2 (e - 52)
        = Rat.divInt (m * ((2 ^ t : Nat) : Int)) ((2 ^ 1074 : Nat) : Int) := by
      rw [Rat.divInt_eq_div, hpow, h1074]
      push_cast
      ring
    rw [hy]
    have hdvd := Rat.den_dvd (m * ((2 ^ t : Nat) : Int)) ((2 ^ 1074 : Nat) : Int)
    have hdvd2 : (Rat.divInt (m * ((2 ^ t : Nat) : Int)) ((2 ^ 1074 : Nat) : Int)).den
        ∣ 2 ^ 1074 := by exact_mod_cast hdvd
    exact Nat.le_of_dvd (by positivity) hdvd2

theorem roundF64_of_int_quot (y : ℚ) (hy : y ≠ 0) (n : Int)
    (h : y / pow2 (max (floorLog2 |y|) (-1022) - 52) = (n : ℚ)) : roundF64 y = y := by
  rw [roundF64_of_ne y hy, h, roundHalfEven_intCast, ← h]
  have := pow2_pos (max (floorLog2 |y|) (-1022) - 52)
  field_simp

/-- Rounding is idempotent: a `float64` value is its own rounding. -/
theorem roundF64_idem (x : ℚ) (hn : x.num.natAbs < 2 ^ 4096) :
    roundF64 (roundF64 x) = roundF64 x := by
  by_cases hx : x = 0
  · rw [hx, roundF64_zero, roundF64_zero]
  by_cases hy : roundF64 x = 0
  · rw [hy, roundF64_zero]
  have hyd := roundF64_den_le x
  have hyeq := roundF64_of_ne x hx
  set y := roundF64 x with hydef
  set e := max (floorLog2 |x|) (-1022) with he
  set m := roundHalfEven (x / pow2 (e - 52)) with hm
  have hU := pow2_pos (e - 52)
  have hxpos : 0 < |x| := abs_pos.mpr hx
  have hypos : 0 < |y| := abs_pos.mpr hy
  -- |x| < 2 ^ (e + 1)
  have hxlt : |x| < pow2 (e + 1) := by
    have h1 := lt_floorLog2 |x| hxpos (by rw [(abs_num_den x).1]; exact hn)
    have h2 : pow2 (floorLog2 |x| + 1) ≤ pow2 (e + 1) := by
      rw [pow2_le_iff]
      have : floorLog2 |x| ≤ e := le_max_left _ _
      omega
    exact lt_of_lt_of_le h1 h2
  have h53 : pow2 (e + 1) = 2 ^ 53 * pow2 (e - 52) := by
    have : pow2 53 = 2 ^ 53 := by rw [pow2_eq_zpow]; norm_num
    rw [← this, ← pow2_add]; congr 1; ring
  have hquot : |x / pow2 (e - 52)| < 2 ^ 53 := by
    rw [abs_div, abs_of_pos hU, div_lt_iff₀ hU, ← h53]
    exact hxlt
  have hmq : |(m : ℚ)| < 2 ^ 53 + 1 / 2 := by
    have herr := roundHalfEven_err (x / pow2 (e - 52))
    have h3 : |(m : ℚ)| ≤ |(m : ℚ) - x / pow2 (e - 52)| + |x / pow2 (e - 52)| := by
      have := abs_add ((m : ℚ) - x / pow2 (e - 52)) (x / pow2 (e - 52))
      simpa using this
    linarith
  have hmabs : |m| ≤ 2 ^ 53 := by
    have h4 : ((|m| : Int) : ℚ) < 2 ^ 53 + 1 := by
      rw [Int.cast_abs]; linarith
    have h5 : |m| < 2 ^ 53 + 1 := by exact_mod_cast h4
    omega
  have hyabs : |y| = (|m| : Int) * pow2 (e - 52) := by
    rw [hyeq, abs_mul, abs_of_pos hU, Int.cast_abs]
  have hyle : |y| ≤ pow2 (e + 1) := by
    rw [hyabs, h53]
    have : ((|m| : Int) : ℚ) ≤ 2 ^ 53 := by exact_mod_cast hmabs
    exact mul_le_mul_of_nonneg_right this (le_of_lt hU)
  have hylow := floorLog2_le |y| hypos (by
    rw [(abs_num_den y).2]
    refine lt_of_le_of_lt hyd ?_
    exact Nat.pow_lt_pow_right (by norm_num) (by norm_num))
  have hfl : floorLog2 |y| ≤ e + 1 := by
    rw [← pow2_le_iff]; exact le_trans hylow hyle
  have he1022 : (-1022 : Int) ≤ e := le_max_right _ _
  rcases le_or_lt (max (floorLog2 |y|) (-1022)) e with hc | hc
  · -- the exponent does not grow: the quotient is m * 2 ^ t
    obtain ⟨t, ht⟩ := Int.eq_ofNat_of_zero_le (sub_nonneg.mpr hc)
    refine roundF64_of_int_quot y hy (m * ((2 ^ t : Nat) : Int)) ?_
    have hUy := pow2_pos (max (floorLog2 |y|) (-1022) - 52)
    have hsplit : pow2 (e - 52)
        = ((2 ^ t : Nat) : ℚ) * pow2 (max (floorLog2 |y|) (-1022) - 52) := by
      rw [← pow2_natCast, ← pow2_add, ← ht]; congr 1; ring
    rw [div_eq_iff (ne_of_gt hUy)]
    calc y = (m : ℚ) * pow2 (e - 52) := hyeq
      _ = _ := by rw [hsplit]; push_cast; ring
  · -- the exponent grows by one: |m| = 2 ^ 53 and the quotient is m / 2
    have hey : max (floorLog2 |y|) (-1022) = e + 1 := by
      have h6 : max (floorLog2 |y|) (-1022) ≤ e + 1 := max_le hfl (by omega)
      omega
    have hfly : floorLog2 |y| = e + 1 := by
      rcases max_choice (floorLog2 |y|) (-1022) with h7 | h7
      · rw [← h7]; exact hey
      · omega
    have hmge : (2 : ℚ) ^ 53 ≤ ((|m| : Int) : ℚ) := by
      have h8 : pow2 (e + 1) ≤ |y| := by rw [← hfly]; exact hylow
      rw [hyabs, h53] at h8
      exact le_of_mul_le_mul_right h8 hU
    have hmge2 : (2 : Int) ^ 53 ≤ |m| := by exact_mod_cast hmge
    have hmeq : |m| = 2 ^ 53 := le_antisymm hmabs hmge2
    have hUy : pow2 (e + 1 - 52) = 2 * pow2 (e - 52) := by
      have : pow2 1 = 2 := by rw [pow2_eq_zpow]; norm_num
      rw [← this, ← pow2_add]; congr 1; ring
    rcases abs_choice m with h9 | h9
    · refine roundF64_of_int_quot y hy (2 ^ 52) ?_
      rw [hey, hUy, hyeq]
      have : (m : ℚ) = 2 ^ 53 := by
        have : m = 2 ^ 53 := by rw [← h9]; exact hmeq
        exact_mod_cast this
      rw [this]
      push_cast
      field_simp
      ring
    · refine roundF64_of_int_quot y hy (-(2 ^ 52)) ?_
      rw [hey, hUy, hyeq]
      have : (m : ℚ) = -(2 ^ 53) := by
        have : m = -(2 ^ 53) := by
          have := hmeq; rw [h9] at this; omega
        exact_mod_cast this
      rw [this]
      push_cast
      field_simp
      ring

theorem den_add_le (x y : ℚ) : (x + y).den ≤ x.den * y.den :=
  Nat.le_of_dvd (Nat.mul_pos x.den_pos y.den_pos) (Rat.add_den_dvd x y)

theorem den_mul_le (x y : ℚ) : (x * y).den ≤ x.den * y.den :=
  Nat.le_of_dvd (Nat.mul_pos x.den_pos y.den_pos) (Rat.mul_den_dvd x y)

theorem den_div_nat_le (x : ℚ) (k : Nat) (hk : 0 < k) : (x / (k : ℚ)).den ≤ x.den * k := by
  rw [div_eq_mul_inv]
  have := den_mul_le x ((k : ℚ)⁻¹)
  rwa [Rat.inv_natCast_den_of_pos hk] at this

theorem den_sub_one_le (x : ℚ) : (x - 1).den ≤ x.den := by
  have := den_add_le x (-1)
  rw [Rat.neg_den] at this
  simpa [sub_eq_add_neg] using this

theorem pow2_neg_1075_le : pow2 (-1075) ≤ 1 / 10 ^ 30 := by
  have h1 : pow2 (-1075) ≤ pow2 (-100) := (pow2_le_iff _ _).mpr (by norm_num)
  have h2 : pow2 (-100) = 1 / 2 ^ 100 := by
    rw [pow2_eq_zpow]; norm_num [zpow_neg]
  rw [h2] at h1
  refine le_trans h1 ?_
  norm_num

/-- Rounding a non-negative number moves it up by at most the relative error
`2 ^ (-53)` plus a negligible absolute term, and keeps it non-negative. -/
theorem roundF64_le (x : ℚ) (h0 : 0 ≤ x) (hd : x.den < 2 ^ 4096) :
    roundF64 x ≤ x + x / 2 ^ 53 + 1 / 10 ^ 30 := by
  have h := roundF64_err x hd
  rw [abs_of_nonneg h0] at h
  have h2 := (abs_le.mp h).2
  have := pow2_neg_1075_le
  linarith

theorem num_natAbs_lt (x : ℚ) (h0 : 0 ≤ x) (hx : x ≤ 2 ^ 100) (hd : x.den ≤ 2 ^ 3300) :
    x.num.natAbs < 2 ^ 4096 := by
  have hnum : 0 ≤ x.num := Rat.num_nonneg.mpr h0
  have h1 : ((x.num.natAbs : Nat) : ℚ) = x * (x.den : ℚ) := by
    rw [Rat.mul_den_eq_num]
    have : ((x.num.natAbs : Nat) : Int) = x.num := Int.natAbs_of_nonneg hnum
    calc ((x.num.natAbs : Nat) : ℚ) = (((x.num.natAbs : Nat) : Int) : ℚ) :=
          (Int.cast_natCast _).symm
      _ = (x.num : ℚ) := by rw [this]
  have hdq : ((x.den : Nat) : ℚ) ≤ (((2 : Nat) ^ 3300 : Nat) : ℚ) := Nat.cast_le.mpr hd
  have h2 : ((x.num.natAbs : Nat) : ℚ) ≤ (((2 : Nat) ^ 100 * (2 : Nat) ^ 3300 : Nat) : ℚ) := by
    rw [h1, Nat.cast_mul]
    have hx2 : x ≤ (((2 : Nat) ^ 100 : Nat) : ℚ) := by
      rw [Nat.cast_pow]; exact_mod_cast hx
    exact mul_le_mul hx2 hdq (Nat.cast_nonneg _) (Nat.cast_nonneg _)
  have h3 : x.num.natAbs ≤ (2 : Nat) ^ 100 * (2 : Nat) ^ 3300 := Nat.cast_le.mp h2
  rw [← pow_add] at h3
  exact lt_of_le_of_lt h3 (Nat.pow_lt_pow_right (by norm_num) (by norm_num))

theorem roundF64_idem_of (x : ℚ) (h0 : 0 ≤ x) (hx : x ≤ 2 ^ 100) (hd : x.den ≤ 2 ^ 3300) :
    roundF64 (roundF64 x) = roundF64 x :=
  roundF64_idem x (num_natAbs_lt x h0 hx hd)

theorem den_lt_of_le (x : ℚ) (hd : x.den ≤ 2 ^ 3300) : x.den < 2 ^ 4096 :=
  lt_of_le_of_lt hd (Nat.pow_lt_pow_right (by norm_num) (by norm_num))

theorem roundHalfEven_nonpos (q : ℚ) (h : q ≤ 0) : roundHalfEven q ≤ 0 := by
  have hf : (q.num / (q.den : Int) : Int) = ⌊q⌋ := (Rat.floor_def).symm
  have h0 : ⌊q⌋ ≤ 0 := Int.floor_nonpos h
  have h1 : ((⌊q⌋ : Int) : ℚ) ≤ q := Int.floor_le q
  have hneg : 0 < q - ((⌊q⌋ : Int) : ℚ) → ⌊q⌋ + 1 ≤ 0 := by
    intro hr
    have : ((⌊q⌋ : Int) : ℚ) < 0 := by linarith
    have : ⌊q⌋ < 0 := by exact_mod_cast this
    omega
  unfold roundHalfEven
  simp only [hf]
  split
  · exact h0
  · rename_i ha
    have hr : 0 < q - ((⌊q⌋ : Int) : ℚ) := by
      have := not_lt.mp ha
      linarith
    split
    · exact hneg hr
    · split
      · exact h0
      · exact hneg hr

theorem roundF64_nonpos (x : ℚ) (h : x ≤ 0) : roundF64 x ≤ 0 := by
  by_cases hx : x = 0
  · rw [hx, roundF64_zero]
  · rw [roundF64_of_ne x hx]
    have hU := pow2_pos (max (floorLog2 |x|) (-1022) - 52)
    have hm := roundHalfEven_nonpos (x / pow2 (max (floorLog2 |x|) (-1022) - 52))
      (div_nonpos_of_nonpos_of_nonneg h (le_of_lt hU))
    have : (roundHalfEven (x / pow2 (max (floorLog2 |x|) (-1022) - 52)) : ℚ) ≤ 0 := by
      exact_mod_cast hm
    exact mul_nonpos_of_nonpos_of_nonneg this (le_of_lt hU)

/-- Rounding does not cross a power of two: a number of absolute value at most
`2 ^ k` is rounded to one of absolute value at most `2 ^ k`. -/
theorem roundF64_abs_le_two_pow (x : ℚ) (k : Nat) (hk : |x| ≤ 2 ^ k)
    (hn : x.num.natAbs < 2 ^ 4096) (hd : x.den < 2 ^ 4096) : |roundF64 x| ≤ 2 ^ k := by
  by_cases hx : x = 0
  · rw [hx, roundF64_zero]; simp
  have hyeq := roundF64_of_ne x hx
  rw [hyeq]
  set e := max (floorLog2 |x|) (-1022) with he
  set m := roundHalfEven (x / pow2 (e - 52)) with hm
  have hU := pow2_pos (e - 52)
  have hxpos : 0 < |x| := abs_pos.mpr hx
  have hk2 : pow2 (k : Int) = 2 ^ k := by rw [pow2_eq_zpow]; simp
  have hxlt : |x| < pow2 (e + 1) := by
    have h1 := lt_floorLog2 |x| hxpos (by rw [(abs_num_den x).1]; exact hn)
    have h2 : pow2 (floorLog2 |x| + 1) ≤ pow2 (e + 1) := by
      rw [pow2_le_iff]
      have : floorLog2 |x| ≤ e := le_max_left _ _
      omega
    exact lt_of_lt_of_le h1 h2
  have h53 : pow2 (e + 1) = 2 ^ 53 * pow2 (e - 52) := by
    have : pow2 53 = 2 ^ 53 := by rw [pow2_eq_zpow]; norm_num
    rw [← this, ← pow2_add]; congr 1; ring
  have hquot : |x / pow2 (e - 52)| < 2 ^ 53 := by
    rw [abs_div, abs_of_pos hU, div_lt_iff₀ hU, ← h53]
    exact hxlt
  have hmq : |(m : ℚ)| < 2 ^ 53 + 1 / 2 := by
    have herr := roundHalfEven_err (x / pow2 (e - 52))
    have h3 : |(m : ℚ)| ≤ |(m : ℚ) - x / pow2 (e - 52)| + |x / pow2 (e - 52)| := by
      have := abs_add ((m : ℚ) - x / pow2 (e - 52)) (x / pow2 (e - 52))
      simpa using this
    linarith
  have hmabs : |m| ≤ 2 ^ 53 := by
    have h4 : ((|m| : Int) : ℚ) < 2 ^ 53 + 1 := by
      rw [Int.cast_abs]; linarith
    have h5 : |m| < 2 ^ 53 + 1 := by exact_mod_cast h4
    omega
  have hyabs : |(m : ℚ) * pow2 (e - 52)| = (|m| : Int) * pow2 (e - 52) := by
    rw [abs_mul, abs_of_pos hU, Int.cast_abs]
  have hyle : |(m : ℚ) * pow2 (e - 52)| ≤ pow2 (e + 1) := by
    rw [hyabs, h53]
    have : ((|m| : Int) : ℚ) ≤ 2 ^ 53 := by exact_mod_cast hmabs
    exact mul_le_mul_of_nonneg_right this (le_of_lt hU)
  rcases le_or_lt (e + 1) (k : Int) with hc | hc
  · -- the binade of `x` ends at or below `2 ^ k`
    have : pow2 (e + 1) ≤ pow2 (k : Int) := (pow2_le_iff _ _).mpr hc
    rw [hk2] at this
    exact le_trans hyle this
  · -- otherwise `|x| = 2 ^ k`, which is its own rounding
    have hek : (0 : Int) ≤ e := by omega
    have hefl : e = floorLog2 |x| := by
      rcases max_choice (floorLog2 |x|) (-1022) with h7 | h7
      · rw [he, h7]
      · rw [he, h7] at hek; omega
    have hlow := floorLog2_le |x| hxpos (by rw [(abs_num_den x).2]; exact hd)
    rw [← hefl] at hlow
    have hle : pow2 e ≤ pow2 (k : Int) := by rw [hk2]; exact le_trans hlow hk
    have heq : e = (k : Int) := by
      have := (pow2_le_iff _ _).mp hle
      omega
    have hxk : |x| = pow2 e := le_antisymm (by rw [heq, hk2]; exact hk) hlow
    have h52 : pow2 e = 2 ^ 52 * pow2 (e - 52) := by
      have : pow2 52 = 2 ^ 52 := by rw [pow2_eq_zpow]; norm_num
      rw [← this, ← pow2_add]; congr 1; ring
    have hmval : |(m : ℚ)| ≤ 2 ^ 52 + 1 / 2 := by
      have herr := roundHalfEven_err (x / pow2 (e - 52))
      have hq : |x / pow2 (e - 52)| = 2 ^ 52 := by
        rw [abs_div, abs_of_pos hU, hxk, h52]
        field_simp
      have h3 : |(m : ℚ)| ≤ |(m : ℚ) - x / pow2 (e - 52)| + |x / pow2 (e - 52)| := by
        have := abs_add ((m : ℚ) - x / pow2 (e - 52)) (x / pow2 (e - 52))
        simpa using this
      linarith
    have hm52 : |m| ≤ 2 ^ 52 := by
      have h4 : ((|m| : Int) : ℚ) < 2 ^ 52 + 1 := by
        rw [Int.cast_abs]; linarith
      have h5 : |m| < 2 ^ 52 + 1 := by exact_mod_cast h4
      omega
    rw [hyabs]
    have h6 : ((|m| : Int) : ℚ) ≤ 2 ^ 52 := by exact_mod_cast hm52
    calc ((|m| : Int) : ℚ) * pow2 (e - 52) ≤ 2 ^ 52 * pow2 (e - 52) :=
          mul_le_mul_of_nonneg_right h6 (le_of_lt hU)
      _ = pow2 e := h52.symm
      _ = 2 ^ k := by rw [heq, hk2]

theorem num_natAbs_lt_abs (x : ℚ) (hx : |x| ≤ 2 ^ 100) (hd : x.den ≤ 2 ^ 3300) :
    x.num.natAbs < 2 ^ 4096 := by
  rw [← (abs_num_den x).1]
  exact num_natAbs_lt |x| (abs_nonneg x) hx (by rw [(abs_num_den x).2]; exact hd)

theorem roundF64_idem_abs (x : ℚ) (hx : |x| ≤ 2 ^ 100) (hd : x.den ≤ 2 ^ 3300) :
    roundF64 (roundF64 x) = roundF64 x :=
  roundF64_idem x (num_natAbs_lt_abs x hx hd)

/-- Rounding a number between `-2 ^ 70` and `2 ^ 70` gives one at least `-2 ^ 70`. -/
theorem roundF64_ge_neg_two_pow (x : ℚ) (h1 : -(2 ^ 70) ≤ x) (h2 : x ≤ 2 ^ 70)
    (hd : x.den ≤ 2 ^ 3300) : -(2 ^ 70) ≤ roundF64 x := by
  have habs : |x| ≤ 2 ^ 70 := abs_le.mpr ⟨h1, h2⟩
  have := roundF64_abs_le_two_pow x 70 habs
    (num_natAbs_lt_abs x (le_trans habs (by norm_num)) hd) (den_lt_of_le x hd)
  exact (abs_le.mp this).1

/-- Rounding a non-positive number moves it down by at most the relative error
`2 ^ (-53)` plus a negligible absolute term. -/
theorem roundF64_ge_of_nonpos (x : ℚ) (h0 : x ≤ 0) (hd : x.den < 2 ^ 4096) :
    x + x / 2 ^ 53 - 1 / 10 ^ 30 ≤ roundF64 x := by
  have h := roundF64_err x hd
  rw [abs_of_nonpos h0] at h
  have h2 := (abs_le.mp h).1
  have := pow2_neg_1075_le
  linarith

/-! ### The limiter in `float64` arithmetic -/

theorem wrapInt64_high (x : Int) (h0 : 2 ^ 63 ≤ x) (h1 : x < 2 ^ 64) :
    wrapInt64 x = x - 2 ^ 64 := by
  unfold wrapInt64
  have e63 : (2 : Int) ^ 63 = 9223372036854775808 := by norm_num
  have e64 : (2 : Int) ^ 64 = 18446744073709551616 := by norm_num
  rw [e63] at h0 ⊢
  rw [e64] at h1 ⊢
  omega

theorem mul_le_two_pow (a b i j : Nat) (ha : a ≤ 2 ^ i) (hb : b ≤ 2 ^ j) (h : i + j ≤ 3300) :
    a * b ≤ 2 ^ 3300 :=
  calc a * b ≤ 2 ^ i * 2 ^ j := Nat.mul_le_mul ha hb
    _ = 2 ^ (i + j) := (pow_add 2 i j).symm
    _ ≤ 2 ^ 3300 := Nat.pow_le_pow_right (by norm_num) h

theorem den_div_60_le (x : ℚ) (hx : x.den ≤ 2 ^ 1074) : (x / 60).den ≤ 2 ^ 3300 := by
  have h := den_div_nat_le x 60 (by norm_num)
  rw [Nat.cast_ofNat] at h
  exact le_trans h (mul_le_two_pow _ _ 1074 6 hx (by norm_num) (by norm_num))

theorem den_div_1e9_le (x : ℚ) (hx : x.den ≤ 2 ^ 1074) : (x / 1000000000).den ≤ 2 ^ 3300 := by
  have h := den_div_nat_le x 1000000000 (by norm_num)
  rw [Nat.cast_ofNat] at h
  exact le_trans h (mul_le_two_pow _ _ 1074 30 hx (by norm_num) (by norm_num))

theorem intCast_den_le (n : Int) : ((n : ℚ)).den ≤ 2 ^ 3300 := by
  rw [Rat.intCast_den]; exact Nat.one_le_two_pow

/-- Rounding a non-negative number moves it down by at most the relative error
`2 ^ (-53)` plus a negligible absolute term. -/
theorem roundF64_ge (x : ℚ) (h0 : 0 ≤ x) (hd : x.den < 2 ^ 4096) :
    x - x / 2 ^ 53 - 1 / 10 ^ 30 ≤ roundF64 x := by
  have h := roundF64_err x hd
  rw [abs_of_nonneg h0] at h
  have h2 := (abs_le.mp h).1
  have := pow2_neg_1075_le
  linarith

/-- The constant `capacity` in `float64` arithmetic, for a quota up to 40000000. -/
theorem capacity_f64 (fused : Bool) (N : Int) (hN1 : 1 ≤ N) (hN2 : N ≤ 40000000) :
    0 ≤ capacity (binary64 fused) N ∧
      capacity (binary64 fused) N ≤ (N : ℚ) * (1 + 12 / 10 ^ 17) ∧
      roundF64 (capacity (binary64 fused) N) = capacity (binary64 fused) N ∧
      (capacity (binary64 fused) N).den ≤ 2 ^ 1074 := by
  have hA1 : (1 : ℚ) ≤ (N : ℚ) := by exact_mod_cast hN1
  have hA2 : (N : ℚ) ≤ 40000000 := by exact_mod_cast hN2
  have hC : capacity (binary64 fused) N = roundF64 (N : ℚ) := rfl
  rw [hC]
  refine ⟨roundF64_nonneg _ (by linarith), ?_, ?_, roundF64_den_le _⟩
  · have := roundF64_le (N : ℚ) (by linarith) (den_lt_of_le _ (intCast_den_le N))
    linarith
  · exact roundF64_idem_of _ (by linarith) (by linarith) (intCast_den_le N)

/-- The constant `refillPerSec` in `float64` arithmetic. -/
theorem refillPerSec_f64 (fused : Bool) (N : Int) (hN1 : 1 ≤ N) (hN2 : N ≤ 40000000) :
    0 ≤ refillPerSec (binary64 fused) N ∧
      refillPerSec (binary64 fused) N ≤ (N : ℚ) * (1 / 60 + 1 / 10 ^ 17) ∧
      (refillPerSec (binary64 fused) N).den ≤ 2 ^ 1074 := by
  have hA1 : (1 : ℚ) ≤ (N : ℚ) := by exact_mod_cast hN1
  obtain ⟨hC0, hC1, _, hCd⟩ := capacity_f64 fused N hN1 hN2
  have hρ : refillPerSec (binary64 fused) N = roundF64 (capacity (binary64 fused) N / 60) := rfl
  rw [hρ]
  have hin : 0 ≤ capacity (binary64 fused) N / 60 := by positivity
  refine ⟨roundF64_nonneg _ hin, ?_, roundF64_den_le _⟩
  have := roundF64_le _ hin (den_lt_of_le _ (den_div_60_le _ hCd))
  linarith

/-- The conversion of a wrapped, negative `int64` difference to seconds. -/
theorem elapsed_wrapped (w : Int) (h0 : w ≤ 0) (h1 : -(2 ^ 63) ≤ w) :
    roundF64 (roundF64 (w : ℚ) / 1000000000) ≤ 0 ∧
      -(2 ^ 40) ≤ roundF64 (roundF64 (w : ℚ) / 1000000000) := by
  have hW0 : (w : ℚ) ≤ 0 := by exact_mod_cast h0
  have hW1 : -(2 ^ 63 : ℚ) ≤ (w : ℚ) := by exact_mod_cast h1
  have hd0 := roundF64_nonpos _ hW0
  have hd1 := roundF64_ge_of_nonpos _ hW0 (den_lt_of_le _ (intCast_den_le _))
  have hin : roundF64 (w : ℚ) / 1000000000 ≤ 0 :=
    div_nonpos_of_nonpos_of_nonneg hd0 (by norm_num)
  have hel1 := roundF64_ge_of_nonpos _ hin
    (den_lt_of_le _ (den_div_1e9_le _ (roundF64_den_le _)))
  exact ⟨roundF64_nonpos _ hin, by linarith⟩

/-- The local `elapsed` in `float64` arithmetic, between two `int64` clock
readings `l ≤ c`: it is at most the time really elapsed, up to the relative
error; it is negative only if the `int64` difference wraps, which takes a first
reading before 1970 and a second one after it. -/
theorem elapsedSec_f64 (fused : Bool) (l c : Int) (hl : -(2 ^ 63) ≤ l) (hlc : l ≤ c)
    (hc : c < 2 ^ 63) :
    (elapsedSec (binary64 fused) l c).den ≤ 2 ^ 1074 ∧
      elapsedSec (binary64 fused) l c ≤ ((c - l : Int) : ℚ) * (1 / 10 ^ 9 + 1 / 10 ^ 24) ∧
      -(2 ^ 40) ≤ elapsedSec (binary64 fused) l c ∧
      (0 ≤ l → 0 ≤ elapsedSec (binary64 fused) l c) ∧
      (c < 0 → 0 ≤ elapsedSec (binary64 fused) l c) := by
  have hD0 : (0 : ℚ) ≤ ((c - l : Int) : ℚ) := by
    exact_mod_cast (show (0 : Int) ≤ c - l by omega)
  rcases lt_or_le (c - l) (2 ^ 63) with h1 | h1
  · -- the difference does not wrap
    have he : elapsedSec (binary64 fused) l c
        = roundF64 (roundF64 ((c - l : Int) : ℚ) / 1000000000) := by
      simp only [elapsedSec, binary64, wrapInt64_of_range _ (by omega) h1]
    rw [he]
    have hd0 := roundF64_nonneg _ hD0
    have hin : 0 ≤ roundF64 ((c - l : Int) : ℚ) / 1000000000 := by positivity
    have hnn := roundF64_nonneg _ hin
    refine ⟨roundF64_den_le _, ?_, by linarith, fun _ => hnn, fun _ => hnn⟩
    by_cases hz : c - l = 0
    · rw [hz]; simp [roundF64_zero]
    · have hD1 : (1 : ℚ) ≤ ((c - l : Int) : ℚ) := by
        exact_mod_cast (show (1 : Int) ≤ c - l by omega)
      have h2 := roundF64_le _ hD0 (den_lt_of_le _ (intCast_den_le (c - l)))
      have h3 := roundF64_le _ hin (den_lt_of_le _ (den_div_1e9_le _ (roundF64_den_le _)))
      linarith
  · -- the difference wraps to a negative number
    have hw : wrapInt64 (c - l) = c - l - 2 ^ 64 := wrapInt64_high _ h1 (by omega)
    have he : elapsedSec (binary64 fused) l c
        = roundF64 (roundF64 ((c - l - 2 ^ 64 : Int) : ℚ) / 1000000000) := by
      simp only [elapsedSec, binary64, hw]
    rw [he]
    obtain ⟨hneg, hlow⟩ := elapsed_wrapped (c - l - 2 ^ 64) (by omega) (by omega)
    refine ⟨roundF64_den_le _, ?_, hlow, fun h => by omega, fun h => by omega⟩
    have : (0 : ℚ) ≤ ((c - l : Int) : ℚ) * (1 / 10 ^ 9 + 1 / 10 ^ 24) := by positivity
    exact le_trans hneg this

theorem refill_fused (N : Int) (τ e : ℚ) :
    refill (binary64 true) N τ e =
      if roundF64 (τ + e * refillPerSec (binary64 true) N) > capacity (binary64 true) N then
        capacity (binary64 true) N
      else roundF64 (τ + e * refillPerSec (binary64 true) N) := rfl

theorem refill_unfused (N : Int) (τ e : ℚ) :
    refill (binary64 false) N τ e =
      if roundF64 (τ + roundF64 (e * refillPerSec (binary64 false) N))
          > capacity (binary64 false) N then
        capacity (binary64 false) N
      else roundF64 (τ + roundF64 (e * refillPerSec (binary64 false) N)) := rfl

/-- The rounding of `tokens + pp` for a `float64` count `tokens` between
`-2 ^ 70` and the capacity and an increment `pp` that is negative only when the
count is not. -/
theorem refilled_core (τ pp C : ℚ) (hτC : τ ≤ C) (hC : C ≤ 2 ^ 30) (hτf : roundF64 τ = τ)
    (hτlow : -(2 ^ 70) ≤ τ) (hpp1 : -(2 ^ 62) ≤ pp) (hpp2 : pp ≤ 2 ^ 62)
    (hppd : pp.den ≤ 2 ^ 2148) (hsign : pp < 0 → 0 ≤ τ) :
    roundF64 (roundF64 (τ + pp)) = roundF64 (τ + pp) ∧
      -(2 ^ 70) ≤ roundF64 (τ + pp) ∧
      (τ + pp < 0 → roundF64 (τ + pp) ≤ 0) ∧
      (0 ≤ τ + pp → 0 ≤ roundF64 (τ + pp) ∧
        roundF64 (τ + pp) ≤ (τ + pp) + (τ + pp) / 2 ^ 53 + 1 / 10 ^ 30 ∧
        (τ + pp) - (τ + pp) / 2 ^ 53 - 1 / 10 ^ 30 ≤ roundF64 (τ + pp)) := by
  have hτd : τ.den ≤ 2 ^ 1074 := by rw [← hτf]; exact roundF64_den_le τ
  have hwd : (τ + pp).den ≤ 2 ^ 3300 :=
    le_trans (den_add_le _ _) (mul_le_two_pow _ _ 1074 2148 hτd hppd (by norm_num))
  have hwlow : -(2 ^ 70) ≤ τ + pp := by
    rcases lt_or_le pp 0 with h | h
    · have := hsign h
      linarith
    · linarith
  have hwup : τ + pp ≤ 2 ^ 70 := by linarith
  have habs : |τ + pp| ≤ 2 ^ 100 := abs_le.mpr ⟨by linarith, by linarith⟩
  refine ⟨roundF64_idem_abs _ habs hwd, roundF64_ge_neg_two_pow _ hwlow hwup hwd,
    fun h => roundF64_nonpos _ (le_of_lt h), fun h => ⟨roundF64_nonneg _ h,
      roundF64_le _ h (den_lt_of_le _ hwd), roundF64_ge _ h (den_lt_of_le _ hwd)⟩⟩

/-- The refilled, not yet capped token count `z` in `float64` arithmetic, fused
or not, after `D` nanoseconds of clock time: it is a `float64` value, equal to
the old count when no time has passed, and otherwise the rounding of a number
`w` that exceeds the old count by at most the exact refill and the relative
errors of its factors. -/
theorem refilled_f64 (N : Int) (hN1 : 1 ≤ N) (hN2 : N ≤ 40000000) (τ ρ el C : ℚ) (D : Int)
    (hD0 : 0 ≤ D) (hD1 : D < 2 ^ 64) (hτC : τ ≤ C) (hτf : roundF64 τ = τ)
    (hτlow : -(2 ^ 70) ≤ τ) (hC : C ≤ (N : ℚ) * (1 + 12 / 10 ^ 17))
    (hρ0 : 0 ≤ ρ) (hρ1 : ρ ≤ (N : ℚ) * (1 / 60 + 1 / 10 ^ 17)) (hρd : ρ.den ≤ 2 ^ 1074)
    (hel1 : el ≤ (D : ℚ) * (1 / 10 ^ 9 + 1 / 10 ^ 24)) (hel2 : -(2 ^ 40) ≤ el)
    (held : el.den ≤ 2 ^ 1074) (hsign : el < 0 → 0 ≤ τ) (hzero : D = 0 → el = 0) (z : ℚ)
    (hz : z = roundF64 (τ + el * ρ) ∨ z = roundF64 (τ + roundF64 (el * ρ))) :
    roundF64 z = z ∧ -(2 ^ 70) ≤ z ∧ (0 ≤ τ → 0 ≤ el → 0 ≤ z) ∧ (D = 0 → z = τ) ∧
      ∃ w : ℚ, w ≤ τ + (D : ℚ) * (N : ℚ) * (1 / (6 * 10 ^ 10) + 1 / 10 ^ 25) ∧
        (w < 0 → z ≤ 0) ∧
        (0 ≤ w → z ≤ w + w / 2 ^ 53 + 1 / 10 ^ 30 ∧ w - w / 2 ^ 53 - 1 / 10 ^ 30 ≤ z) := by
  have hA1 : (1 : ℚ) ≤ (N : ℚ) := by exact_mod_cast hN1
  have hA2 : (N : ℚ) ≤ 40000000 := by exact_mod_cast hN2
  have hDq0 : (0 : ℚ) ≤ (D : ℚ) := by exact_mod_cast hD0
  have hDq1 : (D : ℚ) ≤ 2 ^ 64 := by exact_mod_cast (le_of_lt hD1)
  have hC30 : C ≤ 2 ^ 30 := by linarith
  by_cases hDz : D = 0
  · -- no time has passed: nothing is added, nothing is rounded
    have hel := hzero hDz
    have hzτ : z = τ := by
      rcases hz with h | h
      · rw [h, hel, zero_mul, add_zero, hτf]
      · rw [h, hel, zero_mul, roundF64_zero, add_zero, hτf]
    rw [hzτ, hDz]
    refine ⟨hτf, hτlow, fun h _ => h, fun _ => rfl, τ, by simp, fun h => le_of_lt h,
      fun h => ?_⟩
    have : 0 ≤ τ / 2 ^ 53 := by positivity
    constructor <;> linarith
  · have hD1q : (1 : ℚ) ≤ (D : ℚ) := by exact_mod_cast (show (1 : Int) ≤ D by omega)
    have hY1 : (1 : ℚ) ≤ (D : ℚ) * (N : ℚ) := by
      have := mul_le_mul hD1q hA1 (by norm_num) (by linarith)
      linarith
    have hel40 : el ≤ 2 ^ 40 := by linarith
    have hXup : el * ρ ≤ 2 ^ 40 * ρ := mul_le_mul_of_nonneg_right hel40 hρ0
    have hXlow : -(2 ^ 40) * ρ ≤ el * ρ := mul_le_mul_of_nonneg_right hel2 hρ0
    have hX1 : el * ρ ≤ (D : ℚ) * (1 / 10 ^ 9 + 1 / 10 ^ 24)
        * ((N : ℚ) * (1 / 60 + 1 / 10 ^ 17)) := by
      rcases le_or_lt 0 el with h | h
      · exact mul_le_mul hel1 hρ1 hρ0 (by positivity)
      · have : el * ρ ≤ 0 := mul_nonpos_of_nonpos_of_nonneg (le_of_lt h) hρ0
        have : (0 : ℚ) ≤ (D : ℚ) * (1 / 10 ^ 9 + 1 / 10 ^ 24)
            * ((N : ℚ) * (1 / 60 + 1 / 10 ^ 17)) := by positivity
        linarith
    have hXsign : el * ρ < 0 → el < 0 := by
      intro h
      by_contra hcon
      have := mul_nonneg (not_lt.mp hcon) hρ0
      linarith
    have hXd : (el * ρ).den ≤ 2 ^ 2148 :=
      le_trans (den_mul_le el ρ)
        (le_trans (Nat.mul_le_mul held hρd) (le_of_eq (pow_add 2 1074 1074).symm))
    have hXd2 : (el * ρ).den ≤ 2 ^ 3300 :=
      le_trans hXd (Nat.pow_le_pow_right (by norm_num) (by norm_num))
    rcases hz with h | h
    · -- fused: one rounding of `tokens + elapsed * refillPerSec`
      obtain ⟨c1, c2, c3, c4⟩ := refilled_core τ (el * ρ) C hτC hC30 hτf hτlow
        (by linarith) (by linarith) hXd (fun hneg => hsign (hXsign hneg))
      rw [h]
      refine ⟨c1, c2, fun h0 h1 => (c4 (by linarith [mul_nonneg h1 hρ0])).1,
        fun h0 => absurd h0 hDz, τ + el * ρ, by linarith, c3, fun hw => (c4 hw).2⟩
    · -- not fused: the product is rounded first
      have hpd := roundF64_den_le (el * ρ)
      have hp : roundF64 (el * ρ)
            ≤ (D : ℚ) * (N : ℚ) * (1 / (6 * 10 ^ 10) + 1 / 10 ^ 25) ∧
          -(2 ^ 62) ≤ roundF64 (el * ρ) ∧ roundF64 (el * ρ) ≤ 2 ^ 62 ∧
          (roundF64 (el * ρ) < 0 → el < 0) := by
        rcases le_or_lt 0 (el * ρ) with hx | hx
        · have h1 := roundF64_le _ hx (den_lt_of_le _ hXd2)
          have h2 := roundF64_nonneg _ hx
          exact ⟨by linarith, by linarith, by linarith, fun hneg => by linarith⟩
        · have h1 := roundF64_ge_of_nonpos _ (le_of_lt hx) (den_lt_of_le _ hXd2)
          have h2 := roundF64_nonpos _ (le_of_lt hx)
          have h3 : el * ρ / 2 ^ 53 ≤ 0 :=
            div_nonpos_of_nonpos_of_nonneg (le_of_lt hx) (by positivity)
          have h4 : -(2 ^ 40) * ρ / 2 ^ 53 ≤ el * ρ / 2 ^ 53 :=
            div_le_div_of_nonneg_right hXlow (by positivity)
          have h5 : (0 : ℚ) ≤ (D : ℚ) * (N : ℚ) * (1 / (6 * 10 ^ 10) + 1 / 10 ^ 25) := by
            have : (0 : ℚ) ≤ (N : ℚ) := by linarith
            positivity
          exact ⟨by linarith, by linarith, by linarith, fun _ => hXsign hx⟩
      obtain ⟨hp1, hp2, hp3, hp4⟩ := hp
      obtain ⟨c1, c2, c3, c4⟩ := refilled_core τ (roundF64 (el * ρ)) C hτC hC30 hτf hτlow
        hp2 hp3 (le_trans hpd (Nat.pow_le_pow_right (by norm_num) (by norm_num)))
        (fun hneg => hsign (hp4 hneg))
      rw [h]
      refine ⟨c1, c2, fun h0 h1 => (c4 ?_).1,
        fun h0 => absurd h0 hDz, τ + roundF64 (el * ρ), by linarith, c3, fun hw => (c4 hw).2⟩
      have := roundF64_nonneg _ (mul_nonneg h1 hρ0)
      linarith

/-- The token count after the refill and the cap, in `float64` arithmetic,
between two `int64` clock readings `l ≤ c`. It is a `float64` value between
`-2 ^ 70` and the capacity, negative only after a wrapped difference. Against
any bound `φ ≥ 0` of the old count it rises by at most the exact refill, its
relative error and one rounding of a number up to the capacity; when it is
below one token, that rounding is below `12 / 10 ^ 17` and happens only if time
has passed. -/
theorem refill_f64 (fused : Bool) (N : Int) (hN1 : 1 ≤ N) (hN2 : N ≤ 40000000) (τ φ : ℚ)
    (l c : Int) (hl : -(2 ^ 63) ≤ l) (hlc : l ≤ c) (hc : c < 2 ^ 63)
    (hτC : τ ≤ capacity (binary64 fused) N) (hτf : roundF64 τ = τ)
    (hτlow : -(2 ^ 70) ≤ τ) (hτneg : l < 0 → 0 ≤ τ) (hφ0 : 0 ≤ φ) (hτφ : τ ≤ φ) :
    refill (binary64 fused) N τ (elapsedSec (binary64 fused) l c)
        ≤ capacity (binary64 fused) N ∧
      roundF64 (refill (binary64 fused) N τ (elapsedSec (binary64 fused) l c))
        = refill (binary64 fused) N τ (elapsedSec (binary64 fused) l c) ∧
      -(2 ^ 70) ≤ refill (binary64 fused) N τ (elapsedSec (binary64 fused) l c) ∧
      (c < 0 → 0 ≤ refill (binary64 fused) N τ (elapsedSec (binary64 fused) l c)) ∧
      refill (binary64 fused) N τ (elapsedSec (binary64 fused) l c)
        ≤ φ + ((c - l : Int) : ℚ) * (N : ℚ) * (1 / (6 * 10 ^ 10) + 1 / 10 ^ 25)
          + (N : ℚ) * (112 / 10 ^ 18) ∧
      (refill (binary64 fused) N τ (elapsedSec (binary64 fused) l c) < 1 →
        refill (binary64 fused) N τ (elapsedSec (binary64 fused) l c)
          ≤ φ + ((c - l : Int) : ℚ) * (N : ℚ) * (1 / (6 * 10 ^ 10) + 1 / 10 ^ 25)
            + ((c - l : Int) : ℚ) * (12 / 10 ^ 17)) := by
  have hA1 : (1 : ℚ) ≤ (N : ℚ) := by exact_mod_cast hN1
  have hA2 : (N : ℚ) ≤ 40000000 := by exact_mod_cast hN2
  obtain ⟨hC0, hC1, hCf, hCd⟩ := capacity_f64 fused N hN1 hN2
  obtain ⟨hρ0, hρ1, hρd⟩ := refillPerSec_f64 fused N hN1 hN2
  obtain ⟨held, hel1, hel2, hel3, hel4⟩ := elapsedSec_f64 fused l c hl hlc hc
  have hDq0 : (0 : ℚ) ≤ ((c - l : Int) : ℚ) := by
    exact_mod_cast (show (0 : Int) ≤ c - l by omega)
  have hgain : (0 : ℚ) ≤ ((c - l : Int) : ℚ) * (N : ℚ) * (1 / (6 * 10 ^ 10) + 1 / 10 ^ 25) := by
    have h3 : (0 : ℚ) ≤ (N : ℚ) := by linarith
    positivity
  have hsign : elapsedSec (binary64 fused) l c < 0 → 0 ≤ τ := by
    intro hneg
    rcases lt_or_le l 0 with h | h
    · exact hτneg h
    · have := hel3 h
      linarith
  have hzero : c - l = 0 → elapsedSec (binary64 fused) l c = 0 := by
    intro h
    have h1 : elapsedSec (binary64 fused) l c ≤ 0 := by
      rw [h] at hel1; simpa using hel1
    have h2 : 0 ≤ elapsedSec (binary64 fused) l c := by
      rcases lt_or_le l 0 with h3 | h3
      · exact hel4 (by omega)
      · exact hel3 h3
    exact le_antisymm h1 h2
  have key : ∀ z : ℚ,
      (z = roundF64 (τ + elapsedSec (binary64 fused) l c * refillPerSec (binary64 fused) N) ∨
        z = roundF64 (τ + roundF64
          (elapsedSec (binary64 fused) l c * refillPerSec (binary64 fused) N))) →
      refill (binary64 fused) N τ (elapsedSec (binary64 fused) l c)
        = (if z > capacity (binary64 fused) N then capacity (binary64 fused) N else z) →
      refill (binary64 fused) N τ (elapsedSec (binary64 fused) l c)
        ≤ capacity (binary64 fused) N ∧
      roundF64 (refill (binary64 fused) N τ (elapsedSec (binary64 fused) l c))
        = refill (binary64 fused) N τ (elapsedSec (binary64 fused) l c) ∧
      -(2 ^ 70) ≤ refill (binary64 fused) N τ (elapsedSec (binary64 fused) l c) ∧
      (c < 0 → 0 ≤ refill (binary64 fused) N τ (elapsedSec (binary64 fused) l c)) ∧
      refill (binary64 fused) N τ (elapsedSec (binary64 fused) l c)
        ≤ φ + ((c - l : Int) : ℚ) * (N : ℚ) * (1 / (6 * 10 ^ 10) + 1 / 10 ^ 25)
          + (N : ℚ) * (112 / 10 ^ 18) ∧
      (refill (binary64 fused) N τ (elapsedSec (binary64 fused) l c) < 1 →
        refill (binary64 fused) N τ (elapsedSec (binary64 fused) l c)
          ≤ φ + ((c - l : Int) : ℚ) * (N : ℚ) * (1 / (6 * 10 ^ 10) + 1 / 10 ^ 25)
            + ((c - l : Int) : ℚ) * (12 / 10 ^ 17)) := by
    intro z hz hR
    obtain ⟨hzf, hzlow, hznn, hzD, w, hw1, hwneg, hwpos⟩ :=
      refilled_f64 N hN1 hN2 τ _ _ _ (c - l) (by omega) (by omega) hτC hτf hτlow hC1
        hρ0 hρ1 hρd hel1 hel2 held hsign hzero z hz
    have hnn : c < 0 → 0 ≤ z := fun h => hznn (hτneg (by omega)) (hel4 h)
    rw [hR]
    by_cases hDz : c - l = 0
    · -- no time has passed: the count is unchanged
      have hzτ := hzD hDz
      rw [hzτ, if_neg (not_lt.mpr hτC), hDz]
      refine ⟨hτC, hτf, hτlow, fun h => hτneg (by omega), ?_, fun _ => ?_⟩
      · simp; linarith
      · simp; linarith
    · have hD1q : (1 : ℚ) ≤ ((c - l : Int) : ℚ) := by
        exact_mod_cast (show (1 : Int) ≤ c - l by omega)
      by_cases hgt : z > capacity (binary64 fused) N
      · rw [if_pos hgt]
        have hw0 : 0 ≤ w := by
          by_contra hcon
          have := hwneg (lt_of_not_le hcon)
          linarith
        obtain ⟨hzle, hzge⟩ := hwpos hw0
        refine ⟨le_rfl, hCf, by linarith, fun _ => hC0, ?_, fun hlt => ?_⟩
        · rcases le_or_lt w (capacity (binary64 fused) N) with hw | hw
          · have : w / 2 ^ 53 ≤ capacity (binary64 fused) N / 2 ^ 53 :=
              div_le_div_of_nonneg_right hw (by positivity)
            linarith
          · linarith
        · rcases le_or_lt w (capacity (binary64 fused) N) with hw | hw
          · have : w / 2 ^ 53 ≤ 1 / 2 ^ 53 :=
              div_le_div_of_nonneg_right (by linarith) (by positivity)
            linarith
          · linarith
      · rw [if_neg hgt]
        have hzC := not_lt.mp hgt
        rcases lt_or_le w 0 with hw0 | hw0
        · have hz0 := hwneg hw0
          refine ⟨hzC, hzf, hzlow, hnn, by linarith, fun _ => ?_⟩
          have : (0 : ℚ) ≤ ((c - l : Int) : ℚ) * (12 / 10 ^ 17) := by positivity
          linarith
        · obtain ⟨hzle, hzge⟩ := hwpos hw0
          refine ⟨hzC, hzf, hzlow, hnn, ?_, fun hlt => ?_⟩
          · rcases le_or_lt w (capacity (binary64 fused) N) with hw | hw
            · have : w / 2 ^ 53 ≤ capacity (binary64 fused) N / 2 ^ 53 :=
                div_le_div_of_nonneg_right hw (by positivity)
              linarith
            · linarith
          · have hw2 : w ≤ 101 / 100 := by linarith
            have : w / 2 ^ 53 ≤ (101 / 100) / 2 ^ 53 :=
              div_le_div_of_nonneg_right hw2 (by positivity)
            linarith
  cases fused with
  | true => exact key _ (Or.inl rfl) (refill_fused N τ _)
  | false => exact key _ (Or.inr rfl) (refill_unfused N τ _)

/-- One `GET /metrics` call in `float64` arithmetic, for a quota up to 40000000,
between two `int64` clock readings `l ≤ c`, on a bucket holding a `float64`
value between `-2 ^ 70` and the capacity that is negative only after a wrapped
difference: the new count is again such a value. Against any bound `φ ≥ 0` of
the old count, a rejected call leaves a count that is higher by at most the
refill and a rounding error below `12 / 10 ^ 17` token for every nanosecond
elapsed; a forwarded call takes one token from it, up to a rounding error
below `9 / 10 ^ 9`. -/
theorem limited_f64 (fused : Bool) (N : Int) (hN1 : 1 ≤ N) (hN2 : N ≤ 40000000) (τ φ : ℚ)
    (l c : Int) (hl : -(2 ^ 63) ≤ l) (hlc : l ≤ c) (hc : c < 2 ^ 63)
    (hτC : τ ≤ capacity (binary64 fused) N) (hτf : roundF64 τ = τ)
    (hτlow : -(2 ^ 70) ≤ τ) (hτneg : l < 0 → 0 ≤ τ) (hφ0 : 0 ≤ φ) (hτφ : τ ≤ φ) :
    ∃ τ1 : ℚ, τ1 ≤ capacity (binary64 fused) N ∧ roundF64 τ1 = τ1 ∧ -(2 ^ 70) ≤ τ1 ∧
      (c < 0 → 0 ≤ τ1) ∧
      ((limited (binary64 fused) N ⟨τ, l⟩ metricsGet c = (⟨τ1, c⟩, .problem 429 "3") ∧
          τ1 ≤ φ + ((c - l : Int) : ℚ)
            * ((N : ℚ) * (1 / (6 * 10 ^ 10) + 1 / 10 ^ 25) + 12 / 10 ^ 17)) ∨
        (limited (binary64 fused) N ⟨τ, l⟩ metricsGet c = (⟨τ1, c⟩, .next) ∧
          0 ≤ τ1 ∧
          (1 - 9 / 10 ^ 9) + τ1
            ≤ φ + ((c - l : Int) : ℚ)
              * ((N : ℚ) * (1 / (6 * 10 ^ 10) + 1 / 10 ^ 25) + 12 / 10 ^ 17) ∧
          (1 - 9 / 10 ^ 9) + τ1 ≤ capacity (binary64 fused) N)) := by
  have hA2 : (N : ℚ) ≤ 40000000 := by exact_mod_cast hN2
  have hDq0 : (0 : ℚ) ≤ ((c - l : Int) : ℚ) := by
    exact_mod_cast (show (0 : Int) ≤ c - l by omega)
  obtain ⟨hC0, hC1, hCf, hCd⟩ := capacity_f64 fused N hN1 hN2
  obtain ⟨hRC, hRf, hRlow, hRnn, hRA, hRB⟩ :=
    refill_f64 fused N hN1 hN2 τ φ l c hl hlc hc hτC hτf hτlow hτneg hφ0 hτφ
  rw [limited_get]
  by_cases hlt : refill (binary64 fused) N τ (elapsedSec (binary64 fused) l c) < 1
  · rw [if_pos hlt]
    refine ⟨_, hRC, hRf, hRlow, hRnn, Or.inl ⟨rfl, ?_⟩⟩
    have := hRB hlt
    linarith
  · rw [if_neg hlt]
    have hge := not_lt.mp hlt
    have hrnd : (binary64 fused).rnd
        (refill (binary64 fused) N τ (elapsedSec (binary64 fused) l c) - 1)
        = roundF64 (refill (binary64 fused) N τ (elapsedSec (binary64 fused) l c) - 1) := rfl
    rw [hrnd]
    have hRd : (refill (binary64 fused) N τ (elapsedSec (binary64 fused) l c)).den
        ≤ 2 ^ 1074 := by
      rw [← hRf]; exact roundF64_den_le _
    have hin0 : 0 ≤ refill (binary64 fused) N τ (elapsedSec (binary64 fused) l c) - 1 := by
      linarith
    have hind : (refill (binary64 fused) N τ (elapsedSec (binary64 fused) l c) - 1).den
        ≤ 2 ^ 3300 :=
      le_trans (den_sub_one_le _)
        (le_trans hRd (Nat.pow_le_pow_right (by norm_num) (by norm_num)))
    have hle := roundF64_le _ hin0 (den_lt_of_le _ hind)
    have hnn := roundF64_nonneg _ hin0
    have hD12 : (0 : ℚ) ≤ ((c - l : Int) : ℚ) * (12 / 10 ^ 17) := by positivity
    refine ⟨_, by linarith, roundF64_idem_of _ hin0 (by linarith) hind, by linarith,
      fun _ => hnn, Or.inr ⟨rfl, hnn, by linarith, by linarith⟩⟩

/-- Token balance in `float64` arithmetic, for a quota up to 40000000: along
calls at non-decreasing `int64` clock readings, the calls forwarded, each
counted as `1 - 9 / 10 ^ 9` token, are at most any bound `φ ≥ 0` of the tokens
at the start plus `N * (1 / (6 * 10 ^ 10) + 1 / 10 ^ 25) + 12 / 10 ^ 17` for
every nanosecond elapsed; the count stays a `float64` value between `-2 ^ 70`
and the capacity and the time stamp is the last reading. -/
theorem serveAll_f64_bound (fused : Bool) (N : Int) (hN1 : 1 ≤ N) (hN2 : N ≤ 40000000) :
    ∀ (L : List Int) (τ φ : ℚ) (l : Int), τ ≤ capacity (binary64 fused) N →
      roundF64 τ = τ → -(2 ^ 70) ≤ τ → (l < 0 → 0 ≤ τ) → 0 ≤ φ → τ ≤ φ →
      -(2 ^ 63) ≤ l → List.Pairwise (· ≤ ·) (l :: L) → (∀ t ∈ L, t < 2 ^ 63) →
      ∃ τ1 : ℚ,
        (serveAll (binary64 fused) N (some ⟨τ, l⟩) (L.map (fun c => (metricsGet, c)))).1
            = some ⟨τ1, L.getLastD l⟩ ∧
          τ1 ≤ capacity (binary64 fused) N ∧ roundF64 τ1 = τ1 ∧ -(2 ^ 70) ≤ τ1 ∧
          (L.getLastD l < 0 → 0 ≤ τ1) ∧
          (forwardedCount
              (serveAll (binary64 fused) N (some ⟨τ, l⟩)
                (L.map (fun c => (metricsGet, c)))).2 : ℚ) * (1 - 9 / 10 ^ 9)
            ≤ φ + ((L.getLastD l - l : Int) : ℚ)
                * ((N : ℚ) * (1 / (6 * 10 ^ 10) + 1 / 10 ^ 25) + 12 / 10 ^ 17) := by
  have hA0 : (0 : ℚ) ≤ (N : ℚ) := by exact_mod_cast (show (0 : Int) ≤ N by omega)
  intro L
  induction L with
  | nil =>
    intro τ φ l hτC hτf hτlow hτneg hφ0 hτφ _ _ _
    refine ⟨τ, by simp [serveAll], hτC, hτf, hτlow, by simpa using hτneg, ?_⟩
    simpa [serveAll, forwardedCount] using hφ0
  | cons c rest ih =>
    intro τ φ l hτC hτf hτlow hτneg hφ0 hτφ hl hp hr
    have hlc : l ≤ c := (List.pairwise_cons.mp hp).1 c (List.mem_cons_self c rest)
    have hp2 : List.Pairwise (· ≤ ·) (c :: rest) := (List.pairwise_cons.mp hp).2
    have hc1 : c < 2 ^ 63 := hr c (List.mem_cons_self c rest)
    have hr2 : ∀ t ∈ rest, t < 2 ^ 63 := fun t ht => hr t (List.mem_cons_of_mem c ht)
    have hDq0 : (0 : ℚ) ≤ ((c - l : Int) : ℚ) := by
      exact_mod_cast (show (0 : Int) ≤ c - l by omega)
    have hg0 : (0 : ℚ) ≤ ((c - l : Int) : ℚ)
        * ((N : ℚ) * (1 / (6 * 10 ^ 10) + 1 / 10 ^ 25) + 12 / 10 ^ 17) := by positivity
    have hsplit : ((rest.getLastD c - l : Int) : ℚ)
          * ((N : ℚ) * (1 / (6 * 10 ^ 10) + 1 / 10 ^ 25) + 12 / 10 ^ 17)
        = ((c - l : Int) : ℚ) * ((N : ℚ) * (1 / (6 * 10 ^ 10) + 1 / 10 ^ 25) + 12 / 10 ^ 17)
          + ((rest.getLastD c - c : Int) : ℚ)
            * ((N : ℚ) * (1 / (6 * 10 ^ 10) + 1 / 10 ^ 25) + 12 / 10 ^ 17) := by
      push_cast; ring
    obtain ⟨τ2, h2C, h2f, h2low, h2neg, hcase⟩ :=
      limited_f64 fused N hN1 hN2 τ φ l c hl hlc hc1 hτC hτf hτlow hτneg hφ0 hτφ
    rw [List.map_cons, serveAll, List.getLastD_cons]
    simp only [serveHTTP]
    rcases hcase with ⟨hlim, hb⟩ | ⟨hlim, h20, hb, _⟩
    · obtain ⟨τ1, h1, h1C, h1f, h1low, h1neg, h3⟩ :=
        ih τ2 (φ + ((c - l : Int) : ℚ)
            * ((N : ℚ) * (1 / (6 * 10 ^ 10) + 1 / 10 ^ 25) + 12 / 10 ^ 17)) c
          h2C h2f h2low h2neg (by linarith) hb (by omega) hp2 hr2
      rw [hlim]
      refine ⟨τ1, h1, h1C, h1f, h1low, h1neg, ?_⟩
      rw [forwardedCount_cons, if_neg (by simp), Nat.zero_add, hsplit]
      linarith
    · obtain ⟨τ1, h1, h1C, h1f, h1low, h1neg, h3⟩ :=
        ih τ2 (φ + ((c - l : Int) : ℚ)
            * ((N : ℚ) * (1 / (6 * 10 ^ 10) + 1 / 10 ^ 25) + 12 / 10 ^ 17)
            - (1 - 9 / 10 ^ 9)) c
          h2C h2f h2low h2neg (by linarith) (by linarith) (by omega) hp2 hr2
      rw [hlim]
      refine ⟨τ1, h1, h1C, h1f, h1low, h1neg, ?_⟩
      rw [forwardedCount_cons, if_pos rfl, hsplit]
      simp only [Nat.cast_add, Nat.cast_one]
      linarith

/-- From any admissible bucket state, the calls forwarded in a stretch of calls
that starts at reading `a` are bounded by the capacity plus what is refilled
from `a` to the last reading of the stretch. -/
theorem serveAll_f64_window (fused : Bool) (N : Int) (hN1 : 1 ≤ N) (hN2 : N ≤ 40000000)
    (a : Int) (ws : List Int) (τ : ℚ) (l : Int)
    (hτC : τ ≤ capacity (binary64 fused) N) (hτf : roundF64 τ = τ)
    (hτlow : -(2 ^ 70) ≤ τ) (hτneg : l < 0 → 0 ≤ τ) (hl : -(2 ^ 63) ≤ l)
    (hp : List.Pairwise (· ≤ ·) (l :: a :: ws))
    (hr : ∀ t ∈ a :: ws, t < 2 ^ 63) :
    (forwardedCount
        (serveAll (binary64 fused) N (some ⟨τ, l⟩)
          ((a :: ws).map (fun c => (metricsGet, c)))).2 : ℚ) * (1 - 9 / 10 ^ 9)
      ≤ capacity (binary64 fused) N
        + ((ws.getLastD a - a : Int) : ℚ)
          * ((N : ℚ) * (1 / (6 * 10 ^ 10) + 1 / 10 ^ 25) + 12 / 10 ^ 17) := by
  obtain ⟨hC0, _, _, _⟩ := capacity_f64 fused N hN1 hN2
  have hla : l ≤ a := (List.pairwise_cons.mp hp).1 a (List.mem_cons_self a ws)
  have hp2 : List.Pairwise (· ≤ ·) (a :: ws) := (List.pairwise_cons.mp hp).2
  have hc1 : a < 2 ^ 63 := hr a (List.mem_cons_self a ws)
  have hr2 : ∀ t ∈ ws, t < 2 ^ 63 := fun t ht => hr t (List.mem_cons_of_mem a ht)
  obtain ⟨τ2, h2C, h2f, h2low, h2neg, hcase⟩ :=
    limited_f64 fused N hN1 hN2 τ (capacity (binary64 fused) N) l a hl hla hc1 hτC hτf hτlow
      hτneg hC0 hτC
  rw [List.map_cons, serveAll]
  simp only [serveHTTP]
  rcases hcase with ⟨hlim, _⟩ | ⟨hlim, h20, _, hb⟩
  · obtain ⟨τ1, _, _, _, _, _, h3⟩ :=
      serveAll_f64_bound fused N hN1 hN2 ws τ2 (capacity (binary64 fused) N) a
        h2C h2f h2low h2neg hC0 h2C (by omega) hp2 hr2
    rw [hlim, forwardedCount_cons, if_neg (by simp), Nat.zero_add]
    exact h3
  · obtain ⟨τ1, _, _, _, _, _, h3⟩ :=
      serveAll_f64_bound fused N hN1 hN2 ws τ2
        (capacity (binary64 fused) N - (1 - 9 / 10 ^ 9)) a
        h2C h2f h2low h2neg (by linarith) (by linarith) (by omega) hp2 hr2
    rw [hlim, forwardedCount_cons, if_pos rfl]
    simp only [Nat.cast_add, Nat.cast_one]
    linarith

/-- Above `2 ^ 53` the rounding of `tokens -= 1.0` can give the token back: with
the quota `2 ^ 53 + 4` and a standing clock the count never moves and every call
is forwarded, however many there are. -/
theorem huge_quota_never_limits (fused : Bool) (k : Nat) :
    decisions (binary64 fused) 9007199254740996 0 (List.replicate k 0)
      = List.replicate k .next := by
  have hstep : ∀ f : Bool, limited (binary64 f) 9007199254740996 ⟨9007199254740996, 0⟩
      metricsGet 0 = (⟨9007199254740996, 0⟩, .next) := by
    intro f; cases f <;> decide!
  have hinit : ∀ f : Bool, RateLimitPerMinute (binary64 f) 9007199254740996 0
      = some ⟨9007199254740996, 0⟩ := by
    intro f; cases f <;> decide!
  have hrun : ∀ n : Nat,
      serveAll (binary64 fused) 9007199254740996 (some ⟨9007199254740996, 0⟩)
          (List.replicate n (metricsGet, 0))
        = (some ⟨9007199254740996, 0⟩, List.replicate n .next) := by
    intro n
    induction n with
    | zero => simp [serveAll]
    | succ n ih =>
      rw [List.replicate_succ, serveAll]
      simp only [serveHTTP, hstep, ih, List.replicate_succ]
  unfold decisions
  rw [hinit, List.map_replicate, hrun]

/-- C9 (as stated, refuted): with the quota 2, two calls at the construction
time and a third call 31 seconds later are all three forwarded, in `float64`
arithmetic (fused or not) and in exact arithmetic: three calls in a window of
31 seconds, which is more than the quota. And with the quota `2 ^ 53 + 4`, in
`float64` arithmetic `2 * (2 ^ 53 + 4) + 1` calls at the construction time are
all forwarded, because `tokens -= 1.0` rounds back to the full count. -/
theorem rate_limit_window_counterexample :
    decisions (binary64 false) 2 0 [0, 0, 31000000000] = [.next, .next, .next] ∧
      decisions (binary64 true) 2 0 [0, 0, 31000000000] = [.next, .next, .next] ∧
      decisions exactArith 2 0 [0, 0, 31000000000] = [.next, .next, .next] ∧
      (31000000000 : Int) - 0 ≤ 60 * 10 ^ 9 ∧
      decisions (binary64 false) 9007199254740996 0 (List.replicate 18014398509481993 0)
        = List.replicate 18014398509481993 .next ∧
      decisions (binary64 true) 9007199254740996 0 (List.replicate 18014398509481993 0)
        = List.replicate 18014398509481993 .next := by
  refine ⟨by decide!, by decide!, by decide!, by norm_num,
    huge_quota_never_limits false _, huge_quota_never_limits true _⟩

/-- C9 (amended): in the `float64` arithmetic of the code, whether or not the
compiler fuses the multiplication and the addition of the refill, for every
quota `N` from 1 to 40000000 and every sequence of `GET /metrics` calls whose
clock readings are `int64` values and non-decreasing from the construction
time on, among the calls of any stretch `win` of the sequence whose readings
lie within 60 seconds of each other at most `2 * N` are forwarded: the `N`
tokens of a full bucket plus the `N` tokens refilled in 60 seconds. A wrap of
the `int64` difference of two readings does not break the bound. -/
theorem rate_limit_window_bound (fused : Bool) (N t0 : Int) (pre win post : List Int)
    (hN : 1 ≤ N) (hN2 : N ≤ 40000000)
    (hsorted : List.Pairwise (· ≤ ·) (t0 :: (pre ++ win ++ post)))
    (hint64 : ∀ t ∈ t0 :: (pre ++ win ++ post), -(2 ^ 63) ≤ t ∧ t < 2 ^ 63)
    (hwin : ∀ a ∈ win, ∀ b ∈ win, b - a ≤ 60 * 10 ^ 9) :
    (forwardedCount
        (((decisions (binary64 fused) N t0 (pre ++ win ++ post)).drop pre.length).take
          win.length)
      : Int) ≤ 2 * N := by
  have hNq : (1 : ℚ) ≤ (N : ℚ) := by exact_mod_cast hN
  have hNq2 : (N : ℚ) ≤ 40000000 := by exact_mod_cast hN2
  obtain ⟨hC0, hC1, hCf, _⟩ := capacity_f64 fused N hN hN2
  have hinit : RateLimitPerMinute (binary64 fused) N t0
      = some ⟨capacity (binary64 fused) N, t0⟩ := by
    simp [RateLimitPerMinute, capacity, show ¬ N ≤ 0 by omega]
  have ht0 : -(2 ^ 63) ≤ t0 := (hint64 t0 (List.mem_cons_self _ _)).1
  have hup : ∀ t ∈ pre ++ win ++ post, t < 2 ^ 63 :=
    fun t ht => (hint64 t (List.mem_cons_of_mem _ ht)).2
  -- the readings of `pre`, `win` and `post` are sorted and follow `t0`
  have hp0 := List.pairwise_cons.mp hsorted
  have hmem_pre : ∀ t ∈ pre, t ∈ pre ++ win ++ post :=
    fun t ht => List.mem_append_left _ (List.mem_append_left _ ht)
  have hmem_win : ∀ t ∈ win, t ∈ pre ++ win ++ post :=
    fun t ht => List.mem_append_left _ (List.mem_append_right _ ht)
  have hall : List.Pairwise (· ≤ ·) (pre ++ (win ++ post)) := by
    rw [← List.append_assoc]; exact hp0.2
  have hpa := List.pairwise_append.mp hall
  have hwp := List.pairwise_append.mp hpa.2.1
  have hpre : List.Pairwise (· ≤ ·) (t0 :: pre) :=
    List.pairwise_cons.mpr
      ⟨fun t ht => hp0.1 t (hmem_pre t ht), hpa.1⟩
  -- the state after `pre`
  obtain ⟨τ1, hst, hτ1C, hτ1f, hτ1low, hτ1neg, _⟩ :=
    serveAll_f64_bound fused N hN hN2 pre (capacity (binary64 fused) N)
      (capacity (binary64 fused) N) t0 le_rfl hCf (by linarith) (fun _ => hC0) hC0 le_rfl
      ht0 hpre (fun t ht => hup t (hmem_pre t ht))
  -- the outcomes of the window
  have hout : ((decisions (binary64 fused) N t0 (pre ++ win ++ post)).drop pre.length).take
        win.length
      = (serveAll (binary64 fused) N (some ⟨τ1, pre.getLastD t0⟩)
          (win.map (fun c => (metricsGet, c)))).2 := by
    unfold decisions
    rw [hinit, List.append_assoc, List.map_append, List.map_append, serveAll_append,
      serveAll_append, hst]
    have hl1 : (serveAll (binary64 fused) N (some ⟨capacity (binary64 fused) N, t0⟩)
        (pre.map (fun c => (metricsGet, c)))).2.length = pre.length := by
      rw [serveAll_length, List.length_map]
    have hl2 : (serveAll (binary64 fused) N (some ⟨τ1, pre.getLastD t0⟩)
        (win.map (fun c => (metricsGet, c)))).2.length = win.length := by
      rw [serveAll_length, List.length_map]
    simp only []
    rw [List.drop_left' hl1, List.take_left' hl2]
  rw [hout]
  cases win with
  | nil =>
    simp only [List.map_nil, serveAll, forwardedCount, List.count_nil, Nat.cast_zero]
    omega
  | cons a ws =>
    have hlast := getLastD_mem pre t0
    have hl0 : t0 ≤ pre.getLastD t0 := by
      rcases List.mem_cons.mp hlast with h | h
      · rw [h]
      · exact hp0.1 _ (hmem_pre _ h)
    have hla : ∀ t ∈ a :: ws, pre.getLastD t0 ≤ t := by
      intro t ht
      rcases List.mem_cons.mp hlast with h | h
      · rw [h]; exact hp0.1 t (hmem_win t ht)
      · exact hpa.2.2 _ h t (List.mem_append_left _ ht)
    have hp : List.Pairwise (· ≤ ·) (pre.getLastD t0 :: a :: ws) :=
      List.pairwise_cons.mpr ⟨hla, hwp.1⟩
    have hb := serveAll_f64_window fused N hN hN2 a ws τ1 (pre.getLastD t0) hτ1C hτ1f
      hτ1low hτ1neg (by omega) hp (fun t ht => hup t (hmem_win t ht))
    have hspan : ws.getLastD a - a ≤ 60 * 10 ^ 9 :=
      hwin a (List.mem_cons_self a ws) _ (getLastD_mem ws a)
    have hspanq : ((ws.getLastD a - a : Int) : ℚ) ≤ 60 * 10 ^ 9 := by exact_mod_cast hspan
    have hgain : ((ws.getLastD a - a : Int) : ℚ)
          * ((N : ℚ) * (1 / (6 * 10 ^ 10) + 1 / 10 ^ 25) + 12 / 10 ^ 17)
        ≤ 60 * 10 ^ 9 * ((N : ℚ) * (1 / (6 * 10 ^ 10) + 1 / 10 ^ 25) + 12 / 10 ^ 17) :=
      mul_le_mul_of_nonneg_right hspanq (by positivity)
    -- were more than `2 * N` calls forwarded, the roundings would have to make
    -- up a whole token, which takes a quota above 40000000
    by_contra hcon
    have hcnt : 2 * N + 1 ≤ (forwardedCount (serveAll (binary64 fused) N
        (some ⟨τ1, pre.getLastD t0⟩) ((a :: ws).map (fun c => (metricsGet, c)))).2 : Int) := by
      omega
    have hcntq : (2 * (N : ℚ) + 1) ≤ (forwardedCount (serveAll (binary64 fused) N
        (some ⟨τ1, pre.getLastD t0⟩) ((a :: ws).map (fun c => (metricsGet, c)))).2 : ℚ) := by
      exact_mod_cast hcnt
    have hmul : (2 * (N : ℚ) + 1) * (1 - 9 / 10 ^ 9)
        ≤ (forwardedCount (serveAll (binary64 fused) N
            (some ⟨τ1, pre.getLastD t0⟩) ((a :: ws).map (fun c => (metricsGet, c)))).2 : ℚ)
          * (1 - 9 / 10 ^ 9) :=
      mul_le_mul_of_nonneg_right hcntq (by norm_num)
    linarith

/-- The bound `2 * N` is reached in `float64` arithmetic, fused or not: with the
quota 2, calls at 0 s, 0 s, 30 s and 60 s are all forwarded. -/
theorem rate_limit_window_bound_reached (fused : Bool) :
    forwardedCount (decisions (binary64 fused) 2 0 [0, 0, 30000000000, 60000000000])
      = 2 * 2 := by
  cases fused <;> decide!

theorem rate_limit_window_bound_witness :
    (forwardedCount
        (((decisions (binary64 false) 2 0 ([] ++ [0, 0, 31000000000] ++ [])).drop 0).take 3)
          : Int) ≤ 2 * 2 ∧
      (forwardedCount
        (((decisions (binary64 true) 2 0 ([] ++ [0, 0, 31000000000] ++ [])).drop 0).take 3)
          : Int) ≤ 2 * 2 ∧
      (forwardedCount
        (((decisions (binary64 false) 2 (-9223372036854775808)
            ([] ++ [9223372036854775807, 9223372036854775807] ++ [])).drop 0).take 2)
          : Int) ≤ 2 * 2 :=
  ⟨rate_limit_window_bound false 2 0 [] [0, 0, 31000000000] [] (by decide) (by decide)
      (by decide) (by decide) (by decide),
    rate_limit_window_bound true 2 0 [] [0, 0, 31000000000] [] (by decide) (by decide)
      (by decide) (by decide) (by decide),
    rate_limit_window_bound false 2 (-9223372036854775808) []
      [9223372036854775807, 9223372036854775807] [] (by decide) (by decide)
      (by decide) (by decide) (by decide)⟩

/-! ## DeriveKey -/

/-- C11: two events that are equal by dedup identity, that is, both carry the
same non-empty `event_id`, or both carry none and have the same name, user and
timestamp, get the same key and the same source from `DeriveKey`, whatever
their channel, campaign, tags and metadata; with an explicit id the key is that
id verbatim. -/
theorem deriveKey_deterministic (sha256hex : String → String) (a b : Event)
    (h : (a.EventID ≠ "" ∧ a.EventID = b.EventID) ∨
      (a.EventID = "" ∧ b.EventID = "" ∧ a.EventName = b.EventName ∧
        a.UserID = b.UserID ∧ a.Timestamp = b.Timestamp)) :
    DeriveKey sha256hex a = DeriveKey sha256hex b ∧
      (a.EventID ≠ "" → DeriveKey sha256hex a = (a.EventID, .KeyFromEventID)) := by
  rcases h with ⟨hne, heq⟩ | ⟨ha, hb, hn, hu, ht⟩
  · have hneb : b.EventID ≠ "" := heq ▸ hne
    refine ⟨?_, fun _ => ?_⟩
    · simp only [DeriveKey, if_pos hne, if_pos hneb, heq]
    · simp only [DeriveKey, if_pos hne]
  · refine ⟨?_, fun hne => absurd ha hne⟩
    simp only [DeriveKey, composite, ha, hb, hn, hu, ht]

theorem deriveKey_deterministic_witness :
    DeriveKey (fun c => "sha:" ++ c) ev2 = DeriveKey (fun c => "sha:" ++ c) ev2Web :=
  (deriveKey_deterministic (fun c => "sha:" ++ c) ev2 ev2Web
    (Or.inr (by decide))).1

/-! ## The assembler: size of the batches -/

theorem flush_sink_bound (cfg : Config) (s : State) (r : SinkResult)
    (hs : ∀ p ∈ s.sink, p.1 ≠ [] ∧ p.1.length ≤ cfg.batchMaxSize)
    (hb : s.batch.length ≤ cfg.batchMaxSize) :
    ∀ p ∈ (flush cfg s r).sink, p.1 ≠ [] ∧ p.1.length ≤ cfg.batchMaxSize := by
  intro p hp
  rw [flush_sink] at hp
  rcases List.mem_append.mp hp with h | h
  · exact hs p h
  · by_cases he : s.batch = []
    · simp [he] at h
    · simp only [he, if_false, List.mem_singleton] at h
      subst h
      exact ⟨he, hb⟩

theorem received_bound (cfg : Config) (s : State) (ev : Event) (r : SinkResult)
    (hm : 1 ≤ cfg.batchMaxSize)
    (hs : ∀ p ∈ s.sink, p.1 ≠ [] ∧ p.1.length ≤ cfg.batchMaxSize)
    (hb : s.batch.length < cfg.batchMaxSize) :
    (∀ p ∈ (received cfg s ev r).sink, p.1 ≠ [] ∧ p.1.length ≤ cfg.batchMaxSize) ∧
      (received cfg s ev r).batch.length < cfg.batchMaxSize := by
  have hlen : (s.batch ++ [ev]).length = s.batch.length + 1 := by simp
  unfold received
  split
  · refine ⟨flush_sink_bound cfg _ r hs (by show (s.batch ++ [ev]).length ≤ _; omega), ?_⟩
    rw [flush_batch]
    simp only [List.length_nil]
    omega
  · rename_i hlt
    exact ⟨hs, by show (s.batch ++ [ev]).length < _; omega⟩

/-- Every step keeps the batches handed to the sink non-empty and at most
`batchMaxSize` long, and the in-progress batch shorter than `batchMaxSize`. -/
theorem step_bound (cfg : Config) (s s1 : State) (a : Action) (hm : 1 ≤ cfg.batchMaxSize)
    (h : step cfg s a = some s1)
    (hs : ∀ p ∈ s.sink, p.1 ≠ [] ∧ p.1.length ≤ cfg.batchMaxSize)
    (hb : s.batch.length < cfg.batchMaxSize) :
    (∀ p ∈ s1.sink, p.1 ≠ [] ∧ p.1.length ≤ cfg.batchMaxSize) ∧
      s1.batch.length < cfg.batchMaxSize := by
  cases a with
  | enqueue ev =>
    simp only [step, Option.some.injEq] at h
    subst h
    unfold Enqueue
    split <;> exact ⟨hs, hb⟩
  | recv r =>
    simp only [step] at h
    split at h
    · split at h
      · exact absurd h (by simp)
      · simp only [Option.some.injEq] at h
        subst h
        exact received_bound cfg _ _ r hm hs hb
    · exact absurd h (by simp)
  | handoff ev r =>
    simp only [step] at h
    split at h
    · simp only [Option.some.injEq] at h
      subst h
      exact received_bound cfg s ev r hm hs hb
    · exact absurd h (by simp)
  | timerFire r =>
    simp only [step] at h
    split at h
    · simp only [Option.some.injEq] at h
      subst h
      refine ⟨flush_sink_bound cfg _ r hs (Nat.le_of_lt hb), ?_⟩
      rw [flush_batch]; simp only [List.length_nil]; omega
    · exact absurd h (by simp)
  | ctxDone r =>
    simp only [step] at h
    split at h
    · simp only [Option.some.injEq] at h
      subst h
      refine ⟨flush_sink_bound cfg s r hs (Nat.le_of_lt hb), ?_⟩
      show (flush cfg s r).batch.length < _
      rw [flush_batch]; simp only [List.length_nil]; omega
    · exact absurd h (by simp)
  | cancel =>
    simp only [step, Option.some.injEq] at h
    subst h
    exact ⟨hs, hb⟩
  | advance d =>
    simp only [step, Option.some.injEq] at h
    subst h
    obtain ⟨_, hbb, hss⟩ := advanceClock_fields s d
    rw [hbb, hss]
    exact ⟨hs, hb⟩

theorem run_bound (cfg : Config) (hm : 1 ≤ cfg.batchMaxSize) (acts : List Action) :
    ∀ (s s1 : State) (acc : List Event), run cfg s acts = some (s1, acc) →
      (∀ p ∈ s.sink, p.1 ≠ [] ∧ p.1.length ≤ cfg.batchMaxSize) →
      s.batch.length < cfg.batchMaxSize →
      (∀ p ∈ s1.sink, p.1 ≠ [] ∧ p.1.length ≤ cfg.batchMaxSize) ∧
        s1.batch.length < cfg.batchMaxSize := by
  induction acts with
  | nil =>
    intro s s1 acc h hs hb
    simp only [run, Option.some.injEq, Prod.mk.injEq] at h
    obtain ⟨rfl, _⟩ := h
    exact ⟨hs, hb⟩
  | cons a as ih =>
    intro s s1 acc h hs hb
    simp only [run] at h
    cases hst : step cfg s a with
    | none => simp [hst] at h
    | some sm =>
      simp only [hst] at h
      cases hr : run cfg sm as with
      | none => simp [hr] at h
      | some p =>
        obtain ⟨s2, acc2⟩ := p
        simp only [hr, Option.some.injEq, Prod.mk.injEq] at h
        obtain ⟨rfl, _⟩ := h
        obtain ⟨hs1, hb1⟩ := step_bound cfg s sm a hm hst hs hb
        exact ih sm s2 acc2 hr hs1 hb1

/-- C15: for `batchMaxSize = m ≥ 1`, in every state reached from the empty
state every batch handed to the sink is non-empty and has at most `m` events,
and the in-progress batch has fewer than `m` events; and in any state whose
in-progress batch is empty, the timer branch and the shutdown branch leave the
sink calls as they are. -/
theorem assembler_batch_bounds (cfg : Config) (t0 : Int) (acts : List Action)
    (s : State) (acc : List Event) (hm : 1 ≤ cfg.batchMaxSize)
    (h : run cfg (State.init cfg t0) acts = some (s, acc)) :
    (∀ p ∈ s.sink, p.1 ≠ [] ∧ p.1.length ≤ cfg.batchMaxSize) ∧
      s.batch.length < cfg.batchMaxSize ∧
      (∀ (s0 : State) (r : SinkResult) (s1 : State), s0.batch = [] →
        (step cfg s0 (.timerFire r) = some s1 ∨ step cfg s0 (.ctxDone r) = some s1) →
          s1.sink = s0.sink) := by
  obtain ⟨h1, h2⟩ := run_bound cfg hm acts (State.init cfg t0) s acc h
    (by intro p hp; simp [State.init] at hp) (by simp only [State.init, List.length_nil]; omega)
  refine ⟨h1, h2, ?_⟩
  intro s0 r s1 hb hst
  rcases hst with hst | hst
  · simp only [step] at hst
    split at hst
    · simp only [Option.some.injEq] at hst
      subst hst
      rw [flush_sink]; simp [hb]
    · exact absurd hst (by simp)
  · simp only [step] at hst
    split at hst
    · simp only [Option.some.injEq] at hst
      subst hst
      show (flush cfg s0 r).sink = _
      rw [flush_sink]; simp [hb]
    · exact absurd hst (by simp)

theorem assembler_batch_bounds_witness :
    (∀ p ∈ sampleEnd.sink, p.1 ≠ [] ∧ p.1.length ≤ smallCfg.batchMaxSize) ∧
      sampleEnd.batch.length < smallCfg.batchMaxSize :=
  have h := assembler_batch_bounds smallCfg 0 sampleRun sampleEnd [ev1, ev2, ev3, ev1]
    (by decide) (by rfl)
  ⟨h.1, h.2.1⟩

/-! ## The bulk handler -/

/-- The loop of the bulk handler on a queue with `k` free slots: the first
`k` events are put on the queue, in order; the loop ends after the last event,
or with the first rejected one. -/
theorem submitAll_spec (cfg : Config) (events : List Event) :
    ∀ (s : State) (k : Nat), s.queue.length + k = cfg.queueMaxSize →
      submitAll cfg s events =
        ({ s with queue := s.queue ++ events.take k },
          (events.take k).map (fun e => (e, true)) ++
            ((events.drop k).take 1).map (fun e => (e, false)),
          decide (events.length ≤ k)) := by
  induction events with
  | nil => intro s k _; simp [submitAll]
  | cons ev rest ih =>
    intro s k hk
    cases k with
    | zero =>
      have hfull : ¬ s.queue.length < cfg.queueMaxSize := by omega
      simp [submitAll, Enqueue, hfull]
    | succ k =>
      have hfree : s.queue.length < cfg.queueMaxSize := by omega
      have hE : Enqueue cfg s ev = ({ s with queue := s.queue ++ [ev] }, true) := by
        simp [Enqueue, hfree]
      have hk2 : ({ s with queue := s.queue ++ [ev] } : State).queue.length + k
          = cfg.queueMaxSize := by
        simp only [List.length_append, List.length_singleton]; omega
      rw [submitAll, hE]
      simp only [if_true]
      rw [ih _ k hk2]
      simp

/-- C12: for a bulk request whose events passed `ValidateBulk` and a queue with
`k` free slots, `HandlePostEventsBulk` calls `Enqueue` on the events in request
order. If there are at most `k` events, all calls succeed, the queue becomes
the old queue followed by all events and the response is 202 with
`accepted_count` the number of events. If there are more, exactly the first `k`
events are appended and stay on the queue, the call for event `k + 1` is
rejected and is the last call, and the response is the 503 overload problem.
The batch and the sink calls are untouched. -/
theorem bulk_submit_spec (cfg : Config) (s : State) (events : List Event)
    (now : Time) (skew : Int) (k : Nat)
    (hv : (ValidateBulk events 100 now skew).2 = none)
    (hk : s.queue.length + k = cfg.queueMaxSize) :
    (events.length ≤ k →
      (HandlePostEventsBulk cfg s "POST" (.ok events) now skew).state.queue
          = s.queue ++ events ∧
        (HandlePostEventsBulk cfg s "POST" (.ok events) now skew).calls
          = events.map (fun e => (e, true)) ∧
        (HandlePostEventsBulk cfg s "POST" (.ok events) now skew).response
          = .json 202 ("\x7b\"accepted_count\":" ++ toString events.length ++ "\x7d")) ∧
    (k < events.length →
      (HandlePostEventsBulk cfg s "POST" (.ok events) now skew).state.queue
          = s.queue ++ events.take k ∧
        (HandlePostEventsBulk cfg s "POST" (.ok events) now skew).calls
          = (events.take k).map (fun e => (e, true)) ++
              ((events.drop k).take 1).map (fun e => (e, false)) ∧
        ((events.drop k).take 1).length = 1 ∧
        (HandlePostEventsBulk cfg s "POST" (.ok events) now skew).response = overloaded) ∧
    (HandlePostEventsBulk cfg s "POST" (.ok events) now skew).state.batch = s.batch ∧
    (HandlePostEventsBulk cfg s "POST" (.ok events) now skew).state.sink = s.sink := by
  have hsub := submitAll_spec cfg events s k hk
  have hH : HandlePostEventsBulk cfg s "POST" (.ok events) now skew =
      if events.length ≤ k then
        { state := { (submitAll cfg s events).1 with
            log := (submitAll cfg s events).1.log ++ [.queuedBulk events.length] },
          calls := (submitAll cfg s events).2.1,
          response := .json 202
            ("\x7b\"accepted_count\":" ++ toString events.length ++ "\x7d") }
      else
        { state := (submitAll cfg s events).1,
          calls := (submitAll cfg s events).2.1,
          response := overloaded } := by
    simp only [HandlePostEventsBulk, hv, ne_eq, not_true_eq_false, if_false]
    rw [hsub]
    by_cases hle : events.length ≤ k <;> simp [hle]
  rw [hH, hsub]
  refine ⟨fun hle => ?_, fun hlt => ?_, ?_, ?_⟩
  · rw [if_pos hle]
    simp [List.take_of_length_le hle, List.drop_of_length_le hle]
  · rw [if_neg (by omega)]
    refine ⟨rfl, rfl, ?_, rfl⟩
    simp only [List.length_take, List.length_drop]
    omega
  · by_cases hle : events.length ≤ k <;> simp [hle]
  · by_cases hle : events.length ≤ k <;> simp [hle]

theorem bulk_submit_spec_witness :
    (HandlePostEventsBulk smallCfg (State.init smallCfg 0) "POST" (.ok [ev1, ev2, ev3])
        sampleNow sampleSkew).state.queue = [ev1, ev2] ∧
      (HandlePostEventsBulk smallCfg (State.init smallCfg 0) "POST" (.ok [ev1, ev2, ev3])
        sampleNow sampleSkew).calls = [(ev1, true), (ev2, true), (ev3, false)] ∧
      (HandlePostEventsBulk smallCfg (State.init smallCfg 0) "POST" (.ok [ev1, ev2, ev3])
        sampleNow sampleSkew).response = overloaded :=
  have h := (bulk_submit_spec smallCfg (State.init smallCfg 0) [ev1, ev2, ev3]
    sampleNow sampleSkew 2 (by decide) (by decide)).2.1 (by decide)
  ⟨h.1, h.2.1, h.2.2.2⟩

/-! ## The window of the metrics handler -/

theorem wrapInt64_id (x : Int) (h0 : -(2 ^ 63) ≤ x) (h1 : x < 2 ^ 63) : wrapInt64 x = x := by
  unfold wrapInt64
  have e63 : (2 : Int) ^ 63 = 9223372036854775808 := by norm_num
  have e64 : (2 : Int) ^ 64 = 18446744073709551616 := by norm_num
  rw [e63] at h0 h1 ⊢
  rw [e64]
  omega

theorem parseInt_range (str : String) (v : Int) (h : ParseInt str = some v) :
    -(2 ^ 63) ≤ v ∧ v < 2 ^ 63 := by
  unfold ParseInt at h
  simp only at h
  split at h
  · exact absurd h (by simp)
  · split at h
    · rename_i hr
      simp only [Option.some.injEq] at h
      subst h
      exact hr
    · exact absurd h (by simp)

/-- Where the `int64` differences do not overflow, the window the handler
queries is at most `maxWindowSeconds` long and ends at the requested end. -/
theorem metrics_window_capped (eventName fromStr toStr groupBy channel : String)
    (now f t : Int) (hw : metricsWindow fromStr toStr now = .ok (f, t))
    (h1 : -(2 ^ 63) ≤ t - f) (h2 : t - f < 2 ^ 63)
    (h3 : -(2 ^ 63) ≤ t - maxWindowSeconds) (h4 : t < 2 ^ 63) :
    ∃ q, HandleGetMetrics "GET" eventName fromStr toStr groupBy channel now = .query q ∧
      q.toSec = t ∧ q.toSec - q.fromSec ≤ maxWindowSeconds := by
  have hmax : maxWindowSeconds = 7776000 := by decide
  have hH : HandleGetMetrics "GET" eventName fromStr toStr groupBy channel now = .query
      { eventName := if eventName ≠ "" then some eventName else none
        fromSec :=
          if wrapInt64 (t - f) > maxWindowSeconds then wrapInt64 (t - maxWindowSeconds) else f
        toSec := t
        channel := if channel ≠ "" then some channel else none
        groupByDay := decide (groupBy = "day") } := by
    simp only [HandleGetMetrics, hw, ne_eq, not_true_eq_false, if_false]
  refine ⟨_, hH, rfl, ?_⟩
  simp only [wrapInt64_id _ h1 h2]
  by_cases hc : t - f > maxWindowSeconds
  · rw [if_pos hc, wrapInt64_id _ h3 (by rw [hmax]; omega)]
    omega
  · rw [if_neg hc]
    omega

/-- Without `from` and `to` the window is the last 24 hours, as long as
`now - 86400` is an `int64`. -/
theorem metrics_default_window (eventName groupBy channel : String) (now : Int)
    (h0 : -(2 ^ 63) + 86400 ≤ now) (h1 : now < 2 ^ 63) :
    ∃ q, HandleGetMetrics "GET" eventName "" "" groupBy channel now = .query q ∧
      q.fromSec = now - 86400 ∧ q.toSec = now := by
  have hdef : defaultWindowSeconds = 86400 := by decide
  have hmax : maxWindowSeconds = 7776000 := by decide
  have hw : metricsWindow "" "" now = .ok (now - 86400, now) := by
    simp only [metricsWindow, and_self, if_true, hdef]
    rw [wrapInt64_id _ (by omega) (by omega)]
  have e63 : (2 : Int) ^ 63 = 9223372036854775808 := by norm_num
  have hH : HandleGetMetrics "GET" eventName "" "" groupBy channel now = .query
      { eventName := if eventName ≠ "" then some eventName else none
        fromSec :=
          if wrapInt64 (now - (now - 86400)) > maxWindowSeconds then
            wrapInt64 (now - maxWindowSeconds)
          else now - 86400
        toSec := now
        channel := if channel ≠ "" then some channel else none
        groupByDay := decide (groupBy = "day") } := by
    simp only [HandleGetMetrics, hw, ne_eq, not_true_eq_false, if_false]
  refine ⟨_, hH, ?_, rfl⟩
  have hd : now - (now - 86400) = 86400 := by omega
  simp only [hd]
  rw [wrapInt64_id _ (by rw [e63]; omega) (by rw [e63]; omega), hmax, if_neg (by omega)]

/-- C14 (the code at the failing input): for
`GET /metrics?from=-9223372036854775808&to=1` both parameters parse as 64-bit
integers, the `int64` difference `to - from` wraps to a negative number, the
cap is not applied, and the handler queries the window from `-2 ^ 63` to `1`,
which is longer than 7,776,000 seconds. -/
theorem metrics_window_overflow :
    ParseInt "-9223372036854775808" = some (-9223372036854775808) ∧
      ParseInt "1" = some 1 ∧
      wrapInt64 (1 - (-9223372036854775808)) = -9223372036854775807 ∧
      HandleGetMetrics "GET" "" "-9223372036854775808" "1" "" "" 1700000000
        = .query { eventName := none, fromSec := -9223372036854775808, toSec := 1,
                   channel := none, groupByDay := false } ∧
      (1 : Int) - (-9223372036854775808) > maxWindowSeconds := by
  refine ⟨by decide, by decide, by decide, by decide, by decide⟩

/-! ## Validation -/

theorem tmod_bounds (a : Int) :
    -1000000000 < Int.tmod a 1000000000 ∧ Int.tmod a 1000000000 < 1000000000 ∧
      1000000000 * Int.tdiv a 1000000000 + Int.tmod a 1000000000 = a := by
  have hlt := Int.tmod_lt_of_pos a (show (0 : Int) < 1000000000 by decide)
  have hsum := Int.tdiv_add_tmod a 1000000000
  refine ⟨?_, hlt, hsum⟩
  by_cases ha : 0 ≤ a
  · have := Int.tmod_nonneg 1000000000 ha
    omega
  · have hlt2 := Int.tmod_lt_of_pos (-a) (show (0 : Int) < 1000000000 by decide)
    have hsum2 := Int.tdiv_add_tmod (-a) 1000000000
    rw [Int.neg_tdiv] at hsum2
    generalize Int.tdiv a 1000000000 = q at hsum hsum2
    generalize Int.tmod a 1000000000 = r at hsum hlt ⊢
    generalize Int.tmod (-a) 1000000000 = r2 at hsum2 hlt2
    omega

theorem addSec_id (ext d : Int) (h0 : -(2 ^ 63) ≤ ext + d) (h1 : ext + d < 2 ^ 63) :
    addSec ext d = ext + d := by
  unfold addSec
  rw [wrapInt64_id _ h0 h1]
  have : decide (ext + d > ext) = decide (d > 0) := by
    by_cases hd : d > 0
    · simp [hd]
    · simp [hd]
  rw [if_pos this]

/-- Where neither `time.Unix` nor `Time.Add` overflows, the comparison made by
`ValidateEvent` is the comparison of the two instants. -/
theorem after_add_iff (ts : Int) (now : Time) (skew : Int)
    (hT0 : -(2 ^ 63) ≤ ts + unixToInternal) (hT1 : ts + unixToInternal < 2 ^ 63)
    (hn0 : 0 ≤ now.nsec) (hn1 : now.nsec < 1000000000)
    (hs0 : -(2 ^ 62) ≤ now.sec) (hs1 : now.sec ≤ 2 ^ 62)
    (hk0 : -(2 ^ 63) ≤ skew) (hk1 : skew < 2 ^ 63) :
    (timeUnix ts).After (now.Add skew) = true ↔
      ts * 1000000000 > now.unixNano + skew := by
  obtain ⟨hr0, hr1, hsum⟩ := tmod_bounds skew
  have e63 : (2 : Int) ^ 63 = 9223372036854775808 := by norm_num
  have e62 : (2 : Int) ^ 62 = 4611686018427387904 := by norm_num
  have hoff : unixToInternal = 62135596800 := rfl
  rw [e63] at hT0 hT1 hk0 hk1
  rw [e62] at hs0 hs1
  have hts : timeUnix ts = { sec := ts + unixToInternal, nsec := 0 } := by
    unfold timeUnix
    rw [wrapInt64_id _ (by rw [e63]; exact hT0) (by rw [e63]; exact hT1)]
  rw [hts]
  unfold Time.Add Time.After Time.unixNano
  generalize hq : Int.tdiv skew 1000000000 = q at hsum
  generalize hr : Int.tmod skew 1000000000 = r at hsum hr0 hr1
  simp only
  by_cases hc1 : now.nsec + r ≥ 1000000000
  · rw [if_pos hc1, addSec_id _ _ (by rw [e63]; omega) (by rw [e63]; omega)]
    simp only [Bool.or_eq_true, Bool.and_eq_true, decide_eq_true_eq]
    rw [hoff]
    omega
  · rw [if_neg hc1]
    by_cases hc2 : now.nsec + r < 0
    · rw [if_pos hc2, addSec_id _ _ (by rw [e63]; omega) (by rw [e63]; omega)]
      simp only [Bool.or_eq_true, Bool.and_eq_true, decide_eq_true_eq]
      rw [hoff]
      omega
    · rw [if_neg hc2, addSec_id _ _ (by rw [e63]; omega) (by rw [e63]; omega)]
      simp only [Bool.or_eq_true, Bool.and_eq_true, decide_eq_true_eq]
      rw [hoff]
      omega

theorem validateTags_nil_iff (ts : List String) :
    ∀ i : Nat, validateTags i ts = [] ↔ ∀ t ∈ ts, t ≠ "" ∧ len t ≤ 64 := by
  induction ts with
  | nil => intro i; simp [validateTags]
  | cons t ts ih =>
    intro i
    unfold validateTags
    by_cases h1 : t = ""
    · simp [h1]
    · rw [if_neg h1]
      by_cases h2 : len t > MaxTagLen
      · rw [if_pos h2]
        have : ¬ len t ≤ 64 := by unfold MaxTagLen at h2; omega
        simp [this]
      · rw [if_neg h2, ih (i + 1)]
        have : len t ≤ 64 := by unfold MaxTagLen at h2; omega
        simp [h1, this]

/-- Where neither `time.Unix` nor `Time.Add` overflows (the timestamp is at
most `2 ^ 63 - 1 - 62135596800`, `now` is a time with a moderate number of
seconds and `skew` an `int64`), `ValidateEvent` returns no field errors exactly
for the events the specification calls valid. -/
theorem validateEvent_iff_in_range (ev : Event) (now : Time) (skew : Int)
    (hT0 : -(2 ^ 63) ≤ ev.Timestamp + unixToInternal)
    (hT1 : ev.Timestamp + unixToInternal < 2 ^ 63)
    (hn0 : 0 ≤ now.nsec) (hn1 : now.nsec < 1000000000)
    (hs0 : -(2 ^ 62) ≤ now.sec) (hs1 : now.sec ≤ 2 ^ 62)
    (hk0 : -(2 ^ 63) ≤ skew) (hk1 : skew < 2 ^ 63) :
    ValidateEvent ev now skew = [] ↔ validBySpec ev now skew := by
  have hA : (if ev.EventName = "" then [({ Field := "event_name", Msg := "required" } : FieldError)]
      else if len ev.EventName > MaxEventNameLen then
        [{ Field := "event_name", Msg := "max length " ++ toString MaxEventNameLen }]
      else []) = [] ↔ ev.EventName ≠ "" ∧ len ev.EventName ≤ 128 := by
    by_cases h1 : ev.EventName = ""
    · simp [h1]
    · by_cases h2 : len ev.EventName > MaxEventNameLen
      · have : ¬ len ev.EventName ≤ 128 := by unfold MaxEventNameLen at h2; omega
        simp [h1, h2, this]
      · have : len ev.EventName ≤ 128 := by unfold MaxEventNameLen at h2; omega
        simp [h1, h2, this]
  have hB : (if ev.UserID = "" then [({ Field := "user_id", Msg := "required" } : FieldError)]
      else if len ev.UserID > MaxUserIDLen then
        [{ Field := "user_id", Msg := "max length " ++ toString MaxUserIDLen }]
      else []) = [] ↔ ev.UserID ≠ "" ∧ len ev.UserID ≤ 128 := by
    by_cases h1 : ev.UserID = ""
    · simp [h1]
    · by_cases h2 : len ev.UserID > MaxUserIDLen
      · have : ¬ len ev.UserID ≤ 128 := by unfold MaxUserIDLen at h2; omega
        simp [h1, h2, this]
      · have : len ev.UserID ≤ 128 := by unfold MaxUserIDLen at h2; omega
        simp [h1, h2, this]
  have hC : (if ev.Timestamp = 0 then
        [({ Field := "timestamp", Msg := "required epoch seconds (UTC)" } : FieldError)]
      else if (timeUnix ev.Timestamp).After (now.Add skew) then
        [{ Field := "timestamp", Msg := "must not be in the future (beyond allowed skew)" }]
      else []) = [] ↔
        ev.Timestamp ≠ 0 ∧ ¬ (ev.Timestamp * 1000000000 > now.unixNano + skew) := by
    have haft := after_add_iff ev.Timestamp now skew hT0 hT1 hn0 hn1 hs0 hs1 hk0 hk1
    by_cases h1 : ev.Timestamp = 0
    · simp [h1]
    · by_cases h2 : (timeUnix ev.Timestamp).After (now.Add skew) = true
      · simp [h1, h2, haft.mp h2]
      · have h3 : ¬ (ev.Timestamp * 1000000000 > now.unixNano + skew) :=
          fun h => h2 (haft.mpr h)
        simp [h1, h2, h3]
  have hD : (if ev.Channel ≠ "" ∧ len ev.Channel > MaxChannelLen then
        [({ Field := "channel", Msg := "max length " ++ toString MaxChannelLen } : FieldError)]
      else []) = [] ↔ len ev.Channel ≤ 64 := by
    by_cases h1 : ev.Channel = ""
    · have h0 : len "" ≤ 64 := by decide
      simp [h1, h0]
    · by_cases h2 : len ev.Channel > MaxChannelLen
      · have : ¬ len ev.Channel ≤ 64 := by unfold MaxChannelLen at h2; omega
        simp [h1, h2, this]
      · have : len ev.Channel ≤ 64 := by unfold MaxChannelLen at h2; omega
        simp [h2, this]
  have hE : (if ev.CampaignID ≠ "" ∧ len ev.CampaignID > MaxCampaignIDLen then
        [({ Field := "campaign_id", Msg := "max length " ++ toString MaxCampaignIDLen }
          : FieldError)]
      else []) = [] ↔ len ev.CampaignID ≤ 64 := by
    by_cases h1 : ev.CampaignID = ""
    · have h0 : len "" ≤ 64 := by decide
      simp [h1, h0]
    · by_cases h2 : len ev.CampaignID > MaxCampaignIDLen
      · have : ¬ len ev.CampaignID ≤ 64 := by unfold MaxCampaignIDLen at h2; omega
        simp [h1, h2, this]
      · have : len ev.CampaignID ≤ 64 := by unfold MaxCampaignIDLen at h2; omega
        simp [h2, this]
  have hF : (if ev.Tags.length > MaxTagsCount then
        [({ Field := "tags", Msg := "max " ++ toString MaxTagsCount ++ " items" } : FieldError)]
      else validateTags 0 ev.Tags) = [] ↔
        ev.Tags.length ≤ 50 ∧ ∀ t ∈ ev.Tags, t ≠ "" ∧ len t ≤ 64 := by
    by_cases h1 : ev.Tags.length > MaxTagsCount
    · have : ¬ ev.Tags.length ≤ 50 := by unfold MaxTagsCount at h1; omega
      simp [h1, this]
    · have : ev.Tags.length ≤ 50 := by unfold MaxTagsCount at h1; omega
      rw [if_neg h1, validateTags_nil_iff]
      simp [this]
  unfold ValidateEvent validBySpec
  rw [List.append_eq_nil, List.append_eq_nil, List.append_eq_nil, List.append_eq_nil,
    List.append_eq_nil, hA, hB, hC, hD, hE, hF]
  constructor
  · rintro ⟨⟨⟨⟨⟨⟨a1, a2⟩, b1, b2⟩, c1, c2⟩, d⟩, e⟩, f1, f2⟩
    exact ⟨a1, a2, b1, b2, c1, c2, d, e, f1, f2⟩
  · rintro ⟨a1, a2, b1, b2, c1, c2, d, e, f1, f2⟩
    exact ⟨⟨⟨⟨⟨⟨a1, a2⟩, b1, b2⟩, c1, c2⟩, d⟩, e⟩, f1, f2⟩

/-- C13 (the code at the failing input): the event `farFutureEvent` has the
timestamp `9223372036854775807`; `time.Unix` wraps it to a time long before
`now`, so `ValidateEvent` returns no field error for it although the instant
that many seconds after the epoch is after `now + skew`, and `HandlePostEvent`
passes the event to `Enqueue`, which accepts it. -/
theorem validateEvent_accepts_far_future :
    ValidateEvent farFutureEvent sampleNow sampleSkew = [] ∧
      timeUnix farFutureEvent.Timestamp = { sec := -9223371974719179009, nsec := 0 } ∧
      farFutureEvent.Timestamp * 1000000000 > sampleNow.unixNano + sampleSkew ∧
      ¬ validBySpec farFutureEvent sampleNow sampleSkew ∧
      (HandlePostEvent smallCfg (State.init smallCfg 0) "POST" (.ok farFutureEvent)
        sampleNow sampleSkew).calls = [(farFutureEvent, true)] := by
  refine ⟨by decide, by decide, by decide, ?_, by decide⟩
  intro h
  exact h.2.2.2.2.2.1 (by decide)

/-- The two events whose composite strings coincide both pass `ValidateEvent`. -/
theorem pipeEvents_pass_validation :
    ValidateEvent pipeEventA sampleNow sampleSkew = [] ∧
      ValidateEvent pipeEventB sampleNow sampleSkew = [] := by
  constructor <;> decide

end EventsApi
